import Mathlib

/-!
Shallow embedding of the msprime tree-sequence library (src/lib/tree_sequence.c,
src/lib/tree_file.c, src/lib/hapgen.c) and proofs about it.

Conventions of the embedding:
* C `uint32_t`/`size_t` quantities that are only used as sizes, indices or loci
  are embedded as `Nat`.
* C `double` values (`time`, mutation `position`) are only ever used by this
  code through order comparisons and negation, so they are embedded as `Int`.
* C arrays become `List`s; `a[j]` becomes `l.getD j default` (all proved
  accesses are in bounds).
* Fallible functions return `Except Int α` carrying the C error code.
* `qsort` is modelled by `List.mergeSort` with the Boolean reflection of the
  C comparator: both produce a permutation of the input that is pairwise
  ordered by the comparator, which is the only property the code relies on.
-/

namespace Msprime

/-! ### Error codes, from src/unnamed/part_000 (err.h) -/

def MSP_ERR_GENERIC : Int := -1

def MSP_ERR_NO_MEMORY : Int := -2

def MSP_ERR_IO : Int := -3

def MSP_ERR_FILE_FORMAT : Int := -4

def MSP_ERR_FILE_VERSION : Int := -5

def MSP_ERR_BAD_MODE : Int := -6

def MSP_ERR_BAD_PARAM_VALUE : Int := -7

def MSP_ERR_OUT_OF_BOUNDS : Int := -8

def MSP_ERR_HDF5 : Int := -13

def MSP_ERR_UNSUPPORTED_FILE_VERSION : Int := -15

def MSP_ERR_BAD_ORDERING : Int := -16

/-- Modelled from the spec: `MSP_ERR_BAD_MUTATION` is used by
`tree_sequence_set_mutations` but its numeric value lives in the `msprime.h` /
newer `err.h` that is not under src/; the spec lists `BadMutation` as a
distinct tagged error value, so it is given a value distinct from all the
codes in the available err.h. -/
def MSP_ERR_BAD_MUTATION : Int := -17

/-- Modelled from the spec: the HDF5 container's `format_version.major`
supported by the library (`MSP_FILE_FORMAT_VERSION_MAJOR` in the missing
`msprime.h`).  All theorems below are independent of the concrete value. -/
def MSP_FILE_FORMAT_VERSION_MAJOR : Nat := 0

/-- Modelled from the spec: minor component of the supported format version
(`MSP_FILE_FORMAT_VERSION_MINOR` in the missing `msprime.h`). -/
def MSP_FILE_FORMAT_VERSION_MINOR : Nat := 1

/-! ### Data model -/

/-- `coalescence_record_t`: one coalescence record, with the two children
stored inline (C stores the columnar form `children[2*j]`, `children[2*j+1]`). -/
structure coalescence_record_t where
  left : Nat
  right : Nat
  node : Nat
  child0 : Nat
  child1 : Nat
  time : Int
deriving Repr, DecidableEq, Inhabited

/-- `mutation_t`: a mutation, `position` is a C double embedded as `Int`. -/
structure mutation_t where
  node : Nat
  position : Int
deriving Repr, DecidableEq, Inhabited

/-- `index_sort_t` (tree_sequence.c): sort buffer entry for building the
insertion/removal orders. -/
structure index_sort_t where
  value : Nat
  index : Nat
  time : Int
deriving Repr, DecidableEq, Inhabited

/-- `cmp_index_sort` (tree_sequence.c:54): compare by `value`, ties by `time`. -/
def cmp_index_sort (ca cb : index_sort_t) : Int :=
  let ret : Int :=
    (if ca.value > cb.value then 1 else 0) - (if ca.value < cb.value then 1 else 0)
  if ret = 0 then
    (if ca.time > cb.time then 1 else 0) - (if ca.time < cb.time then 1 else 0)
  else ret

/-- Boolean "less or equal" reflection of `cmp_index_sort`, fed to the sort. -/
def index_sort_le (a b : index_sort_t) : Bool := cmp_index_sort a b ≤ 0

/-- The sort buffer for the insertion order (tree_sequence.c:402-406):
entry `j` holds `{index = j, value = left[j], time = time[j]}`. -/
def insertion_sort_buff (records : List coalescence_record_t) : List index_sort_t :=
  (List.range records.length).map fun j =>
    { index := j, value := (records.getD j default).left,
      time := (records.getD j default).time }

/-- The sort buffer for the removal order (tree_sequence.c:413-417):
entry `j` holds `{index = j, value = right[j], time = -time[j]}`. -/
def removal_sort_buff (records : List coalescence_record_t) : List index_sort_t :=
  (List.range records.length).map fun j =>
    { index := j, value := (records.getD j default).right,
      time := - (records.getD j default).time }

/-- The `insertion_order` permutation built by `tree_sequence_make_indexes`
(tree_sequence.c:400-410). -/
def tree_sequence_insertion_order (records : List coalescence_record_t) : List Nat :=
  ((insertion_sort_buff records).mergeSort index_sort_le).map index_sort_t.index

/-- The `removal_order` permutation built by `tree_sequence_make_indexes`
(tree_sequence.c:411-421). -/
def tree_sequence_removal_order (records : List coalescence_record_t) : List Nat :=
  ((removal_sort_buff records).mergeSort index_sort_le).map index_sort_t.index

/-- `num_nodes = node[num_records - 1]` (tree_sequence.c:423); the C code is
only ever run with `num_records > 0` (asserted in `tree_sequence_create`). -/
def tree_sequence_num_nodes_of (records : List coalescence_record_t) : Nat :=
  (records.getD (records.length - 1) default).node

/-- `tree_sequence_t`: the columnar store.  `records` is the time-ordered
column block (left/right/node/children/time); `num_records = records.length`,
`num_mutations = mutations.length`. -/
structure tree_sequence_t where
  sample_size : Nat
  num_loci : Nat
  records : List coalescence_record_t
  insertion_order : List Nat
  removal_order : List Nat
  num_nodes : Nat
  mutations : List mutation_t
  trees_parameters : String
  trees_environment : String
  mutations_parameters : Option String
  mutations_environment : Option String
deriving Repr, DecidableEq, Inhabited

/-- Abstraction of the live `msp_t` state as read by `tree_sequence_create`:
its record list, parameters, and the two provenance strings produced by
`encode_simulation_parameters` / `encode_environment`. -/
structure msp_output where
  sample_size : Nat
  num_loci : Nat
  records : List coalescence_record_t
  parameters_json : String
  environment_json : String
deriving Repr, DecidableEq, Inhabited

/-- `tree_sequence_create` (tree_sequence.c:431): copy the simulator's records
in emission order, build the two index permutations and `num_nodes`, set the
provenance strings.  `none` models the asserted precondition
`num_records > 0`. -/
def tree_sequence_create (sim : msp_output) : Option tree_sequence_t :=
  if sim.records.length = 0 then none
  else some
    { sample_size := sim.sample_size
      num_loci := sim.num_loci
      records := sim.records
      insertion_order := tree_sequence_insertion_order sim.records
      removal_order := tree_sequence_removal_order sim.records
      num_nodes := tree_sequence_num_nodes_of sim.records
      mutations := []
      trees_parameters := sim.parameters_json
      trees_environment := sim.environment_json
      mutations_parameters := none
      mutations_environment := none }

/-! ### The HDF5 archive (external container), as written/read by dump/load -/

/-- The `/mutations` group of the archive: two datasets and two string
attributes. -/
structure mutations_group_t where
  node : List Nat
  position : List Int
  environment : String
  parameters : String
deriving Repr, DecidableEq, Inhabited

/-- The archive contents touched by `tree_sequence_dump` / `tree_sequence_load`.
`Option` on a dataset models whether the dataset exists in the file
(`H5Dopen` fails on a missing one); `format_version` is the raw root
attribute, whose extent is checked by the loader. -/
structure hdf5_archive where
  format_version : List Nat
  sample_size : Nat
  num_loci : Nat
  trees_left : Option (List Nat)
  trees_right : Option (List Nat)
  trees_node : Option (List Nat)
  trees_children : Option (List (Nat × Nat))
  trees_time : Option (List Int)
  trees_environment : String
  trees_parameters : String
  mutations_group : Option mutations_group_t
deriving Repr, DecidableEq, Inhabited

/-- `tree_sequence_dump` (tree_sequence.c:1189): writes the metadata
attributes, the `/trees` datasets (a dataset is only created when its size is
positive, tree_sequence.c:979), the `/mutations` group when there are
mutations, and the provenance strings.  `none` models the asserted
precondition of `tree_sequence_write_hdf5_provenance` that the mutation
provenance strings are non-NULL whenever mutations are present
(tree_sequence.c:1075). -/
def tree_sequence_dump (ts : tree_sequence_t) : Option hdf5_archive :=
  if ts.mutations.length > 0 ∧
      (ts.mutations_parameters = none ∨ ts.mutations_environment = none) then
    none
  else some
    { format_version := [MSP_FILE_FORMAT_VERSION_MAJOR, MSP_FILE_FORMAT_VERSION_MINOR]
      sample_size := ts.sample_size
      num_loci := ts.num_loci
      trees_left :=
        if ts.records.length > 0 then some (ts.records.map coalescence_record_t.left)
        else none
      trees_right :=
        if ts.records.length > 0 then some (ts.records.map coalescence_record_t.right)
        else none
      trees_node :=
        if ts.records.length > 0 then some (ts.records.map coalescence_record_t.node)
        else none
      trees_children :=
        if ts.records.length > 0 then
          some (ts.records.map fun r => (r.child0, r.child1))
        else none
      trees_time :=
        if ts.records.length > 0 then some (ts.records.map coalescence_record_t.time)
        else none
      trees_environment := ts.trees_environment
      trees_parameters := ts.trees_parameters
      mutations_group :=
        if ts.mutations.length > 0 then some
          { node := ts.mutations.map mutation_t.node
            position := ts.mutations.map mutation_t.position
            environment := ts.mutations_environment.getD ""
            parameters := ts.mutations_parameters.getD "" }
        else none }

/-- `tree_sequence_read_hdf5_metadata` (tree_sequence.c:488): reads the root
attributes (the `format_version` attribute must have rank-1 extent 2), then
rejects a major version different from the library's. -/
def tree_sequence_read_hdf5_metadata (a : hdf5_archive) : Except Int (Nat × Nat) :=
  if a.format_version.length ≠ 2 then .error MSP_ERR_FILE_FORMAT
  else if a.format_version.getD 0 0 ≠ MSP_FILE_FORMAT_VERSION_MAJOR then
    .error MSP_ERR_UNSUPPORTED_FILE_VERSION
  else .ok (a.sample_size, a.num_loci)

/-- Reassemble the record structs from the five loaded columns
(the columnar arrays of `tree_sequence_t` in C). -/
def records_of_columns (lefts rights nodes : List Nat)
    (childrens : List (Nat × Nat)) (times : List Int) : List coalescence_record_t :=
  (List.range lefts.length).map fun j =>
    { left := lefts.getD j 0, right := rights.getD j 0, node := nodes.getD j 0
      child0 := (childrens.getD j default).1, child1 := (childrens.getD j default).2
      time := times.getD j 0 }

/-- Zip the two mutation columns back into mutation records. -/
def mutations_of_columns (nodes : List Nat) (positions : List Int) : List mutation_t :=
  (List.range nodes.length).map fun j =>
    { node := nodes.getD j 0, position := positions.getD j 0 }

/-- The tree sequence assembled at the end of a successful load: loaded
columns, recomputed index permutations and `num_nodes`
(`tree_sequence_make_indexes` is re-run by `tree_sequence_load`,
tree_sequence.c:902), loaded provenance. -/
def loaded_tree_sequence (a : hdf5_archive) (lefts rights nodes : List Nat)
    (childrens : List (Nat × Nat)) (times : List Int) (muts : List mutation_t)
    (mp me : Option String) : tree_sequence_t :=
  { sample_size := 0, num_loci := 0
    records := records_of_columns lefts rights nodes childrens times
    insertion_order :=
      tree_sequence_insertion_order (records_of_columns lefts rights nodes childrens times)
    removal_order :=
      tree_sequence_removal_order (records_of_columns lefts rights nodes childrens times)
    num_nodes :=
      tree_sequence_num_nodes_of (records_of_columns lefts rights nodes childrens times)
    mutations := muts
    trees_parameters := a.trees_parameters
    trees_environment := a.trees_environment
    mutations_parameters := mp
    mutations_environment := me }

/-- The dimension/data/provenance phase of loading
(`tree_sequence_read_hdf5_dimensions`, `_check_hdf5_dimensions`,
`_read_hdf5_data`, `_read_hdf5_provenance`, tree_sequence.c:569-855):
`num_records` comes from the extent of `/trees/left`, `num_mutations` from
`/mutations/node` when the group exists; every required dataset must exist
with extent `num_records` (resp. `num_mutations`); mutation provenance is
read only when mutations are present. -/
def tree_sequence_load_body (a : hdf5_archive) : Except Int tree_sequence_t :=
  match a.trees_left with
  | none => .error MSP_ERR_HDF5
  | some lefts =>
    match a.trees_right, a.trees_node, a.trees_children, a.trees_time with
    | some rights, some nodes, some childrens, some times =>
      if rights.length = lefts.length ∧ nodes.length = lefts.length ∧
          childrens.length = lefts.length ∧ times.length = lefts.length then
        match a.mutations_group with
        | none =>
          .ok (loaded_tree_sequence a lefts rights nodes childrens times [] none none)
        | some g =>
          if g.position.length = g.node.length then
            .ok (loaded_tree_sequence a lefts rights nodes childrens times
              (mutations_of_columns g.node g.position)
              (if g.node.length > 0 then some g.parameters else none)
              (if g.node.length > 0 then some g.environment else none))
          else .error MSP_ERR_FILE_FORMAT
      else .error MSP_ERR_FILE_FORMAT
    | _, _, _, _ => .error MSP_ERR_HDF5

/-- `tree_sequence_load` (tree_sequence.c:857).  The status of
`tree_sequence_read_hdf5_metadata` is tested with `if (status < 0)` while
`ret` still holds its initial `MSP_ERR_GENERIC`, so a metadata failure makes
`tree_sequence_load` return `MSP_ERR_GENERIC`, not the metadata error code
(tree_sequence.c:860,870-873). -/
def tree_sequence_load (a : hdf5_archive) : Except Int tree_sequence_t :=
  match tree_sequence_read_hdf5_metadata a with
  | .error _ => .error MSP_ERR_GENERIC
  | .ok (ss, nl) =>
    match tree_sequence_load_body a with
    | .error e => .error e
    | .ok ts => .ok { ts with sample_size := ss, num_loci := nl }

/-! ### C1: the two index permutations -/

lemma index_sort_le_iff (a b : index_sort_t) :
    index_sort_le a b = true ↔
      (a.value < b.value ∨ (a.value = b.value ∧ a.time ≤ b.time)) := by
  simp only [index_sort_le, cmp_index_sort, decide_eq_true_eq]
  split_ifs <;> omega

lemma index_sort_le_trans (a b c : index_sort_t)
    (hab : index_sort_le a b = true) (hbc : index_sort_le b c = true) :
    index_sort_le a c = true := by
  rw [index_sort_le_iff] at *
  omega

lemma index_sort_le_total (a b : index_sort_t) :
    (index_sort_le a b || index_sort_le b a) = true := by
  rw [Bool.or_eq_true, index_sort_le_iff, index_sort_le_iff]
  omega

/-- The record-level ordering that `insertion_order` realizes: `left`
ascending, ties by `time` ascending. -/
def insertion_le (records : List coalescence_record_t) (j k : Nat) : Prop :=
  (records.getD j default).left < (records.getD k default).left ∨
    ((records.getD j default).left = (records.getD k default).left ∧
      (records.getD j default).time ≤ (records.getD k default).time)

/-- The record-level ordering that `removal_order` realizes: `right`
ascending, ties by `time` descending. -/
def removal_le (records : List coalescence_record_t) (j k : Nat) : Prop :=
  (records.getD j default).right < (records.getD k default).right ∨
    ((records.getD j default).right = (records.getD k default).right ∧
      (records.getD k default).time ≤ (records.getD j default).time)

instance (records : List coalescence_record_t) (j k : Nat) :
    Decidable (insertion_le records j k) := by unfold insertion_le; infer_instance

instance (records : List coalescence_record_t) (j k : Nat) :
    Decidable (removal_le records j k) := by unfold removal_le; infer_instance

lemma mem_insertion_sort_buff {records : List coalescence_record_t}
    {x : index_sort_t} (hx : x ∈ insertion_sort_buff records) :
    x.index < records.length ∧
      x.value = (records.getD x.index default).left ∧
      x.time = (records.getD x.index default).time := by
  simp only [insertion_sort_buff, List.mem_map, List.mem_range] at hx
  obtain ⟨j, hj, rfl⟩ := hx
  exact ⟨hj, rfl, rfl⟩

lemma mem_removal_sort_buff {records : List coalescence_record_t}
    {x : index_sort_t} (hx : x ∈ removal_sort_buff records) :
    x.index < records.length ∧
      x.value = (records.getD x.index default).right ∧
      x.time = - (records.getD x.index default).time := by
  simp only [removal_sort_buff, List.mem_map, List.mem_range] at hx
  obtain ⟨j, hj, rfl⟩ := hx
  exact ⟨hj, rfl, rfl⟩

/-- The conjunction C1 asserts of a tree sequence: each permutation really is
a permutation of the record indices, and lists them in the claimed order. -/
def index_orders_ok (ts : tree_sequence_t) : Prop :=
  ts.insertion_order.Perm (List.range ts.records.length) ∧
    ts.insertion_order.Pairwise (insertion_le ts.records) ∧
    ts.removal_order.Perm (List.range ts.records.length) ∧
    ts.removal_order.Pairwise (removal_le ts.records)

lemma map_index_buff (f : Nat → index_sort_t) (hf : ∀ j, (f j).index = j) :
    ∀ l : List Nat, (l.map f).map index_sort_t.index = l
  | [] => rfl
  | j :: l => by simp only [List.map_cons, hf j, map_index_buff f hf l]

lemma insertion_order_perm (records : List coalescence_record_t) :
    (tree_sequence_insertion_order records).Perm (List.range records.length) := by
  unfold tree_sequence_insertion_order
  have h := (List.mergeSort_perm (insertion_sort_buff records) index_sort_le).map
    index_sort_t.index
  refine h.trans ?_
  rw [insertion_sort_buff, map_index_buff _ (fun j => rfl)]

lemma removal_order_perm (records : List coalescence_record_t) :
    (tree_sequence_removal_order records).Perm (List.range records.length) := by
  unfold tree_sequence_removal_order
  have h := (List.mergeSort_perm (removal_sort_buff records) index_sort_le).map
    index_sort_t.index
  refine h.trans ?_
  rw [removal_sort_buff, map_index_buff _ (fun j => rfl)]

lemma insertion_order_pairwise (records : List coalescence_record_t) :
    (tree_sequence_insertion_order records).Pairwise (insertion_le records) := by
  unfold tree_sequence_insertion_order
  rw [List.pairwise_map]
  have hsorted := @List.sorted_mergeSort _ index_sort_le
    index_sort_le_trans index_sort_le_total (insertion_sort_buff records)
  refine hsorted.imp_of_mem ?_
  intro a b ha hb hab
  rw [List.mem_mergeSort] at ha hb
  obtain ⟨-, hav, hat⟩ := mem_insertion_sort_buff ha
  obtain ⟨-, hbv, hbt⟩ := mem_insertion_sort_buff hb
  rw [index_sort_le_iff, hav, hbv, hat, hbt] at hab
  exact hab

lemma removal_order_pairwise (records : List coalescence_record_t) :
    (tree_sequence_removal_order records).Pairwise (removal_le records) := by
  unfold tree_sequence_removal_order
  rw [List.pairwise_map]
  have hsorted := @List.sorted_mergeSort _ index_sort_le
    index_sort_le_trans index_sort_le_total (removal_sort_buff records)
  refine hsorted.imp_of_mem ?_
  intro a b ha hb hab
  rw [List.mem_mergeSort] at ha hb
  obtain ⟨-, hav, hat⟩ := mem_removal_sort_buff ha
  obtain ⟨-, hbv, hbt⟩ := mem_removal_sort_buff hb
  rw [index_sort_le_iff, hav, hbv, hat, hbt] at hab
  unfold removal_le
  omega

lemma index_orders_ok_of_make (ts : tree_sequence_t)
    (hio : ts.insertion_order = tree_sequence_insertion_order ts.records)
    (hro : ts.removal_order = tree_sequence_removal_order ts.records) :
    index_orders_ok ts := by
  refine ⟨?_, ?_, ?_, ?_⟩
  · rw [hio]; exact insertion_order_perm ts.records
  · rw [hio]; exact insertion_order_pairwise ts.records
  · rw [hro]; exact removal_order_perm ts.records
  · rw [hro]; exact removal_order_pairwise ts.records

lemma load_body_indexes {a : hdf5_archive} {ts : tree_sequence_t}
    (h : tree_sequence_load_body a = Except.ok ts) :
    ts.insertion_order = tree_sequence_insertion_order ts.records ∧
      ts.removal_order = tree_sequence_removal_order ts.records := by
  unfold tree_sequence_load_body at h
  repeat' split at h
  any_goals exact Except.noConfusion h
  all_goals obtain rfl := Except.ok.inj h
  all_goals exact ⟨rfl, rfl⟩

/-- C1: for every tree sequence, whether built by `tree_sequence_create` or by
`tree_sequence_load`, `insertion_order` is a permutation of the record indices
sorted by `left` ascending with ties broken by `time` ascending, and
`removal_order` is a permutation sorted by `right` ascending with ties broken
by `time` descending. -/
theorem C1_index_orders (ts : tree_sequence_t)
    (h : (∃ sim, tree_sequence_create sim = some ts) ∨
      (∃ a, tree_sequence_load a = Except.ok ts)) :
    index_orders_ok ts := by
  rcases h with ⟨sim, hsim⟩ | ⟨a, ha⟩
  · unfold tree_sequence_create at hsim
    split at hsim
    · exact absurd hsim (by simp)
    · obtain rfl := Option.some_injective _ hsim
      exact index_orders_ok_of_make _ rfl rfl
  · unfold tree_sequence_load at ha
    split at ha
    · exact absurd ha (by simp)
    · rename_i meta ss nl hmeta
      cases hbody : tree_sequence_load_body a with
      | error e => rw [hbody] at ha; exact absurd ha (by simp)
      | ok ts0 =>
        rw [hbody] at ha
        obtain rfl := Except.ok.inj ha
        obtain ⟨h1, h2⟩ := load_body_indexes hbody
        exact index_orders_ok_of_make _ h1 h2

/-- Fixture: a two-record simulator output used to instantiate theorems with
hypotheses on concrete data. -/
def sim_ex : msp_output :=
  { sample_size := 2, num_loci := 3
    records :=
      [ { left := 0, right := 2, node := 3, child0 := 1, child1 := 2, time := 5 },
        { left := 2, right := 3, node := 4, child0 := 1, child1 := 2, time := 7 } ]
    parameters_json := "p", environment_json := "e" }

theorem C1_index_orders_witness :
    index_orders_ok ((tree_sequence_create sim_ex).getD default) :=
  C1_index_orders _ (Or.inl ⟨sim_ex, rfl⟩)

/-! ### C2: dump/load round trip -/

lemma getD_map_of_lt {α β : Type} (f : α → β) (l : List α) (i : Nat) (d : β)
    (da : α) (h : i < l.length) : (l.map f).getD i d = f (l.getD i da) := by
  rw [List.getD_eq_getElem _ _ (by simpa using h), List.getD_eq_getElem _ _ h,
    List.getElem_map]

lemma records_of_columns_map (records : List coalescence_record_t) :
    records_of_columns (records.map coalescence_record_t.left)
      (records.map coalescence_record_t.right)
      (records.map coalescence_record_t.node)
      (records.map fun r => (r.child0, r.child1))
      (records.map coalescence_record_t.time) = records := by
  unfold records_of_columns
  apply List.ext_getElem
  · simp
  · intro i h1 h2
    have hi : i < records.length := by simpa using h2
    simp only [List.getElem_map, List.getElem_range, List.length_map,
      List.length_range]
    rw [getD_map_of_lt _ _ _ _ default hi, getD_map_of_lt _ _ _ _ default hi,
      getD_map_of_lt _ _ _ _ default hi, getD_map_of_lt _ _ _ _ default hi,
      getD_map_of_lt _ _ _ _ default hi, List.getD_eq_getElem _ _ hi]

lemma mutations_of_columns_map (muts : List mutation_t) :
    mutations_of_columns (muts.map mutation_t.node)
      (muts.map mutation_t.position) = muts := by
  unfold mutations_of_columns
  apply List.ext_getElem
  · simp
  · intro i h1 h2
    have hi : i < muts.length := by simpa using h2
    simp only [List.getElem_map, List.getElem_range, List.length_map,
      List.length_range]
    rw [getD_map_of_lt _ _ _ _ default hi, getD_map_of_lt _ _ _ _ default hi,
      List.getD_eq_getElem _ _ hi]

lemma load_of_dump (ts : tree_sequence_t) (a : hdf5_archive)
    (hdump : tree_sequence_dump ts = some a) (hR : ts.records.length > 0) :
    tree_sequence_load a = Except.ok
      { sample_size := ts.sample_size, num_loci := ts.num_loci
        records := ts.records
        insertion_order := tree_sequence_insertion_order ts.records
        removal_order := tree_sequence_removal_order ts.records
        num_nodes := tree_sequence_num_nodes_of ts.records
        mutations := ts.mutations
        trees_parameters := ts.trees_parameters
        trees_environment := ts.trees_environment
        mutations_parameters :=
          if ts.mutations.length > 0 then some (ts.mutations_parameters.getD "")
          else none
        mutations_environment :=
          if ts.mutations.length > 0 then some (ts.mutations_environment.getD "")
          else none } := by
  unfold tree_sequence_dump at hdump
  split at hdump
  · exact Option.noConfusion hdump
  obtain rfl := Option.some_injective _ hdump
  unfold tree_sequence_load tree_sequence_read_hdf5_metadata tree_sequence_load_body
  simp only [if_pos hR]
  by_cases hM : ts.mutations.length > 0
  · simp only [if_pos hM]
    simp [loaded_tree_sequence, records_of_columns_map, mutations_of_columns_map,
      MSP_FILE_FORMAT_VERSION_MAJOR, hM]
  · simp only [if_neg hM]
    have hnil : ts.mutations = [] := List.length_eq_zero.mp (by omega)
    simp [loaded_tree_sequence, records_of_columns_map, hnil,
      MSP_FILE_FORMAT_VERSION_MAJOR]

/-- C2: if `tree_sequence_dump` succeeds and `tree_sequence_load` of the
dumped archive succeeds, the loaded tree sequence agrees with the original in
`sample_size`, `num_loci`, the five record columns (hence `num_records`),
both index permutations, `num_nodes`, the mutation columns (hence
`num_mutations`), and the parameters/environment metadata strings.  The
hypotheses `hidx` and `hprov` say the original is one the library built: its
index fields are exactly the ones `tree_sequence_make_indexes` computes, and
its mutation provenance strings are absent when it has no mutations. -/
theorem C2_dump_load_roundtrip (ts : tree_sequence_t) (a : hdf5_archive)
    (ts2 : tree_sequence_t)
    (hidx : ts.insertion_order = tree_sequence_insertion_order ts.records ∧
      ts.removal_order = tree_sequence_removal_order ts.records ∧
      ts.num_nodes = tree_sequence_num_nodes_of ts.records)
    (hprov : ts.mutations = [] → ts.mutations_parameters = none ∧
      ts.mutations_environment = none)
    (hR : ts.records.length > 0)
    (hdump : tree_sequence_dump ts = some a)
    (hload : tree_sequence_load a = Except.ok ts2) :
    ts2.sample_size = ts.sample_size ∧ ts2.num_loci = ts.num_loci ∧
      ts2.records = ts.records ∧
      ts2.insertion_order = ts.insertion_order ∧
      ts2.removal_order = ts.removal_order ∧
      ts2.num_nodes = ts.num_nodes ∧
      ts2.mutations = ts.mutations ∧
      ts2.trees_parameters = ts.trees_parameters ∧
      ts2.trees_environment = ts.trees_environment ∧
      ts2.mutations_parameters = ts.mutations_parameters ∧
      ts2.mutations_environment = ts.mutations_environment := by
  have hguard : ¬(ts.mutations.length > 0 ∧
      (ts.mutations_parameters = none ∨ ts.mutations_environment = none)) := by
    intro hc
    rw [tree_sequence_dump, if_pos hc] at hdump
    exact Option.noConfusion hdump
  rw [load_of_dump ts a hdump hR] at hload
  obtain rfl := (Except.ok.inj hload).symm
  obtain ⟨h1, h2, h3⟩ := hidx
  refine ⟨rfl, rfl, rfl, h1.symm, h2.symm, h3.symm, rfl, rfl, rfl, ?_, ?_⟩
  all_goals by_cases hM : ts.mutations.length > 0
  case pos =>
    rcases hp : ts.mutations_parameters with _ | p
    · exact absurd ⟨hM, Or.inl hp⟩ hguard
    · simp [if_pos hM, hp]
  case neg =>
    have hnil : ts.mutations = [] := List.length_eq_zero.mp (by omega)
    simp [if_neg hM, (hprov hnil).1]
  case pos =>
    rcases he : ts.mutations_environment with _ | e
    · exact absurd ⟨hM, Or.inr he⟩ hguard
    · simp [if_pos hM, he]
  case neg =>
    have hnil : ts.mutations = [] := List.length_eq_zero.mp (by omega)
    simp [if_neg hM, (hprov hnil).2]

/-- Fixture: a library-shaped tree sequence with two records and one
mutation, used to instantiate hypotheses on concrete data. -/
def ts_ex : tree_sequence_t :=
  { sample_size := 2, num_loci := 3
    records :=
      [ { left := 0, right := 2, node := 3, child0 := 1, child1 := 2, time := 5 },
        { left := 2, right := 3, node := 4, child0 := 1, child1 := 2, time := 7 } ]
    insertion_order := tree_sequence_insertion_order
      [ { left := 0, right := 2, node := 3, child0 := 1, child1 := 2, time := 5 },
        { left := 2, right := 3, node := 4, child0 := 1, child1 := 2, time := 7 } ]
    removal_order := tree_sequence_removal_order
      [ { left := 0, right := 2, node := 3, child0 := 1, child1 := 2, time := 5 },
        { left := 2, right := 3, node := 4, child0 := 1, child1 := 2, time := 7 } ]
    num_nodes := 4
    mutations := [ { node := 1, position := 1 } ]
    trees_parameters := "p", trees_environment := "e"
    mutations_parameters := some "mp", mutations_environment := some "me" }

theorem C2_dump_load_roundtrip_witness :
    ∃ a ts2, tree_sequence_dump ts_ex = some a ∧
      tree_sequence_load a = Except.ok ts2 ∧
      (ts2.sample_size = ts_ex.sample_size ∧ ts2.num_loci = ts_ex.num_loci ∧
        ts2.records = ts_ex.records ∧
        ts2.insertion_order = ts_ex.insertion_order ∧
        ts2.removal_order = ts_ex.removal_order ∧
        ts2.num_nodes = ts_ex.num_nodes ∧
        ts2.mutations = ts_ex.mutations ∧
        ts2.trees_parameters = ts_ex.trees_parameters ∧
        ts2.trees_environment = ts_ex.trees_environment ∧
        ts2.mutations_parameters = ts_ex.mutations_parameters ∧
        ts2.mutations_environment = ts_ex.mutations_environment) :=
  ⟨(tree_sequence_dump ts_ex).getD default,
    ((tree_sequence_load ((tree_sequence_dump ts_ex).getD default)).toOption).getD default,
    rfl, rfl,
    C2_dump_load_roundtrip ts_ex _ _ ⟨rfl, rfl, rfl⟩ (by intro h; exact absurd h (by simp [ts_ex]))
      (by simp [ts_ex]) rfl rfl⟩

/-! ### C7: rejecting a mismatched format_version.major -/

/-- Fixture: an otherwise well-formed archive whose `format_version` major
component differs from the library's supported major version. -/
def arch_badver : hdf5_archive :=
  { format_version := [MSP_FILE_FORMAT_VERSION_MAJOR + 1, MSP_FILE_FORMAT_VERSION_MINOR]
    sample_size := 2, num_loci := 1
    trees_left := some [0], trees_right := some [1], trees_node := some [3]
    trees_children := some [(1, 2)], trees_time := some [1]
    trees_environment := "e", trees_parameters := "p"
    mutations_group := none }

/-- C7 counterexample: on an archive whose `format_version` major component
differs from the library's, `tree_sequence_load` does fail, but it returns
`MSP_ERR_GENERIC` rather than the unsupported-file-version error: the status
of `tree_sequence_read_hdf5_metadata` is tested with `if (status < 0)` and
never copied into `ret` (tree_sequence.c:860,870-873). -/
theorem C7_counterexample :
    tree_sequence_load arch_badver = Except.error MSP_ERR_GENERIC ∧
      MSP_ERR_GENERIC ≠ MSP_ERR_UNSUPPORTED_FILE_VERSION :=
  ⟨rfl, by decide⟩

/-- C7 (amended): for every archive whose 2-element `format_version` root
attribute has a major component different from the library's supported major
version, the metadata reader fails with the unsupported-file-version error,
and `tree_sequence_load` fails — returning the generic error, because it
drops the metadata reader's status — producing no tree sequence. -/
theorem C7_version_mismatch (a : hdf5_archive)
    (hlen : a.format_version.length = 2)
    (hmaj : a.format_version.getD 0 0 ≠ MSP_FILE_FORMAT_VERSION_MAJOR) :
    tree_sequence_read_hdf5_metadata a =
        Except.error MSP_ERR_UNSUPPORTED_FILE_VERSION ∧
      tree_sequence_load a = Except.error MSP_ERR_GENERIC := by
  have hm : tree_sequence_read_hdf5_metadata a =
      Except.error MSP_ERR_UNSUPPORTED_FILE_VERSION := by
    unfold tree_sequence_read_hdf5_metadata
    rw [if_neg (by omega), if_pos hmaj]
  refine ⟨hm, ?_⟩
  unfold tree_sequence_load
  rw [hm]

theorem C7_version_mismatch_witness :
    tree_sequence_read_hdf5_metadata arch_badver =
        Except.error MSP_ERR_UNSUPPORTED_FILE_VERSION ∧
      tree_sequence_load arch_badver = Except.error MSP_ERR_GENERIC :=
  C7_version_mismatch arch_badver rfl (by decide)

/-! ### C6 / C9: tree_sequence_set_mutations -/

/-- `cmp_mutation` (tree_sequence.c:40): compare mutations by `position`. -/
def cmp_mutation (ia ib : mutation_t) : Int :=
  (if ia.position > ib.position then 1 else 0) -
    (if ia.position < ib.position then 1 else 0)

/-- Boolean "less or equal" reflection of `cmp_mutation`, fed to the sort. -/
def mutation_le (a b : mutation_t) : Bool := cmp_mutation a b ≤ 0

/-- The per-mutation validity test of `tree_sequence_set_mutations`
(tree_sequence.c:1377-1380): a mutation is rejected when `position < 0`,
`position > num_loci`, `node == 0`, or `node > num_nodes`. -/
def mutation_bad (ts : tree_sequence_t) (m : mutation_t) : Bool :=
  m.position < 0 || m.position > (ts.num_loci : Int) || m.node == 0 ||
    m.node > ts.num_nodes

/-- `tree_sequence_set_mutations` (tree_sequence.c:1337): any previously
stored mutations and their provenance are freed and the count reset to zero
*before* the new list is validated; then each supplied mutation is checked,
and on success the mutations are stored sorted by position.  Returns the C
status code together with the updated tree sequence.  `cleared_mutations`
is the state after the initial freeing block (tree_sequence.c:1345-1364). -/
def cleared_mutations (ts : tree_sequence_t) : tree_sequence_t :=
  { ts with
    mutations := []
    mutations_parameters := none
    mutations_environment := none }

def tree_sequence_set_mutations (ts : tree_sequence_t) (muts : List mutation_t) :
    Int × tree_sequence_t :=
  if muts.length > 0 then
    if muts.any (mutation_bad ts) then
      (MSP_ERR_BAD_MUTATION, cleared_mutations ts)
    else
      (0, { cleared_mutations ts with mutations := muts.mergeSort mutation_le })
  else (0, cleared_mutations ts)

lemma mutation_le_iff (a b : mutation_t) :
    mutation_le a b = true ↔ a.position ≤ b.position := by
  simp only [mutation_le, cmp_mutation, decide_eq_true_eq]
  split_ifs <;> omega

/-- C6: `tree_sequence_set_mutations` returns the bad-mutation error exactly
when some supplied mutation has `position < 0`, `position > num_loci`,
`node = 0` or `node > num_nodes`; when every supplied mutation is valid it
returns 0 and the stored mutation list is a permutation of the supplied one
sorted by position ascending. -/
theorem C6_set_mutations (ts : tree_sequence_t) (muts : List mutation_t) :
    ((tree_sequence_set_mutations ts muts).1 = MSP_ERR_BAD_MUTATION ↔
      ∃ m ∈ muts, m.position < 0 ∨ m.position > (ts.num_loci : Int) ∨
        m.node = 0 ∨ m.node > ts.num_nodes) ∧
      ((∀ m ∈ muts, ¬(m.position < 0 ∨ m.position > (ts.num_loci : Int) ∨
          m.node = 0 ∨ m.node > ts.num_nodes)) →
        (tree_sequence_set_mutations ts muts).1 = 0 ∧
          (tree_sequence_set_mutations ts muts).2.mutations.Perm muts ∧
          (tree_sequence_set_mutations ts muts).2.mutations.Pairwise
            (fun m1 m2 => m1.position ≤ m2.position)) := by
  have hbad : ∀ m, mutation_bad ts m = true ↔
      (m.position < 0 ∨ m.position > (ts.num_loci : Int) ∨
        m.node = 0 ∨ m.node > ts.num_nodes) := by
    intro m
    simp [mutation_bad, Bool.or_eq_true, decide_eq_true_eq, beq_iff_eq]
    tauto
  constructor
  · unfold tree_sequence_set_mutations
    by_cases hlen : muts.length > 0
    · rw [if_pos hlen]
      by_cases hany : muts.any (mutation_bad ts)
      · rw [if_pos hany]
        simp only [List.any_eq_true] at hany
        obtain ⟨m, hm, hbm⟩ := hany
        exact ⟨fun _ => ⟨m, hm, (hbad m).mp hbm⟩, fun _ => rfl⟩
      · rw [if_neg hany]
        simp only [List.any_eq_true, not_exists] at hany
        constructor
        · intro h
          have h0 : (0 : Int) = MSP_ERR_BAD_MUTATION := h
          exact absurd h0 (by decide)
        · rintro ⟨m, hm, hviol⟩
          exact absurd ⟨hm, (hbad m).mpr hviol⟩ (hany m)
    · rw [if_neg hlen]
      have hnil : muts = [] := List.length_eq_zero.mp (by omega)
      subst hnil
      simp [MSP_ERR_BAD_MUTATION]
  · intro hvalid
    have hany : muts.any (mutation_bad ts) = false := by
      simp only [List.any_eq_false]
      intro m hm
      simpa [hbad m] using hvalid m hm
    unfold tree_sequence_set_mutations
    by_cases hlen : muts.length > 0
    · rw [if_pos hlen, if_neg (by simp [hany])]
      refine ⟨rfl, List.mergeSort_perm muts mutation_le, ?_⟩
      have hs := @List.sorted_mergeSort _ mutation_le
        (fun a b c hab hbc => by
          rw [mutation_le_iff] at *; exact le_trans hab hbc)
        (fun a b => by
          rw [Bool.or_eq_true, mutation_le_iff, mutation_le_iff]; omega)
        muts
      exact hs.imp fun {a b} h => (mutation_le_iff a b).mp h
    · rw [if_neg hlen]
      have hnil : muts = [] := List.length_eq_zero.mp (by omega)
      subst hnil
      simp [cleared_mutations]

theorem C6_set_mutations_witness :
    ((tree_sequence_set_mutations ts_ex
        [{ node := 1, position := 2 }, { node := 3, position := 0 }]).1 = 0 ∧
      (tree_sequence_set_mutations ts_ex
        [{ node := 1, position := 2 }, { node := 3, position := 0 }]).2.mutations.Perm
        [{ node := 1, position := 2 }, { node := 3, position := 0 }] ∧
      (tree_sequence_set_mutations ts_ex
        [{ node := 1, position := 2 }, { node := 3, position := 0 }]).2.mutations.Pairwise
        (fun m1 m2 => m1.position ≤ m2.position)) :=
  (C6_set_mutations ts_ex
    [{ node := 1, position := 2 }, { node := 3, position := 0 }]).2 (by decide)

/-- C9: `tree_sequence_set_mutations` is not atomic on failure — the previous
mutations are discarded before validation, so after a call that returns the
bad-mutation error the tree sequence holds zero mutations (and no mutation
provenance), whatever it held before. -/
theorem C9_set_mutations_clears_on_error (ts : tree_sequence_t)
    (muts : List mutation_t)
    (herr : (tree_sequence_set_mutations ts muts).1 = MSP_ERR_BAD_MUTATION) :
    (tree_sequence_set_mutations ts muts).2.mutations = [] ∧
      (tree_sequence_set_mutations ts muts).2.mutations_parameters = none ∧
      (tree_sequence_set_mutations ts muts).2.mutations_environment = none := by
  unfold tree_sequence_set_mutations at *
  by_cases hlen : muts.length > 0
  · rw [if_pos hlen] at *
    by_cases hany : muts.any (mutation_bad ts)
    · rw [if_pos hany]
      exact ⟨rfl, rfl, rfl⟩
    · rw [if_neg hany] at herr
      exact absurd herr (by simp [MSP_ERR_BAD_MUTATION])
  · rw [if_neg hlen]
    exact ⟨rfl, rfl, rfl⟩

theorem C9_set_mutations_clears_on_error_witness :
    ts_ex.mutations ≠ [] ∧
      ((tree_sequence_set_mutations ts_ex [{ node := 0, position := 1 }]).2.mutations = [] ∧
        (tree_sequence_set_mutations ts_ex
          [{ node := 0, position := 1 }]).2.mutations_parameters = none ∧
        (tree_sequence_set_mutations ts_ex
          [{ node := 0, position := 1 }]).2.mutations_environment = none) :=
  ⟨by decide,
    C9_set_mutations_clears_on_error ts_ex [{ node := 0, position := 1 }] (by decide)⟩

/-! ### C8: the legacy tree-file header (tree_file.c) -/

def MSP_TREE_FILE_MAGIC : Nat := 0xa52cd4a4

def MSP_TREE_FILE_VERSION : Nat := 1

def MSP_TREE_FILE_HEADER_SIZE : Nat := 28

/-- Little-endian value of a list of bytes (least significant first). -/
def le_value : List Nat → Nat
  | [] => 0
  | b :: bs => b + 256 * le_value bs

/-- The little-endian integer stored in `n` bytes at offset `off` of the
file; this is what reading into a `uint32_t`/`uint64_t` on the (little
endian) platforms the code targets yields. -/
def decode_le (bytes : List Nat) (off n : Nat) : Nat :=
  le_value ((bytes.drop off).take n)

/-- Little-endian encoding of `v` into `n` bytes. -/
def encode_le : Nat → Nat → List Nat
  | _, 0 => []
  | v, n + 1 => v % 256 :: encode_le (v / 256) n

/-- The fields of a `tree_file_t` filled in by `tree_file_read_info`.
`metadata` is the byte block from `metadata_offset` to the end of file. -/
structure tree_file_t where
  mode : Char
  sample_size : Nat
  num_loci : Nat
  flags : Nat
  metadata_offset : Nat
  coalescence_record_offset : Nat
  metadata : List Nat
deriving Repr, DecidableEq

/-- `tree_file_read_info` (tree_file.c:92): read the 28-byte header as five
`u32` (magic, version, sample_size, num_loci, flags) followed by one `u64`
(metadata_offset); reject a wrong magic with the file-format error and a
wrong version with the file-version error; then read the metadata block from
`metadata_offset` to the end of the file.  A short read is an IO error (a
short file, a metadata offset at end-of-file — `fread` of zero items
returns 0 — while an offset past the end underflows `metadata_size`
and the huge `malloc` fails). -/
def tree_file_read_info (bytes : List Nat) : Except Int tree_file_t :=
  if bytes.length < 20 then .error MSP_ERR_IO
  else if bytes.length < MSP_TREE_FILE_HEADER_SIZE then .error MSP_ERR_IO
  else if decode_le bytes 0 4 ≠ MSP_TREE_FILE_MAGIC then .error MSP_ERR_FILE_FORMAT
  else if decode_le bytes 4 4 ≠ MSP_TREE_FILE_VERSION then .error MSP_ERR_FILE_VERSION
  else if bytes.length < decode_le bytes 20 8 then .error MSP_ERR_NO_MEMORY
  else if bytes.length = decode_le bytes 20 8 then .error MSP_ERR_IO
  else .ok
    { mode := 'r'
      sample_size := decode_le bytes 8 4
      num_loci := decode_le bytes 12 4
      flags := decode_le bytes 16 4
      metadata_offset := decode_le bytes 20 8
      coalescence_record_offset := MSP_TREE_FILE_HEADER_SIZE
      metadata := bytes.drop (decode_le bytes 20 8) }

/-- `tree_file_open` (tree_file.c:271) restricted to the state it builds:
read mode and update mode both run `tree_file_read_info` on the file's
bytes; any mode other than 'r', 'w', 'u' is a bad-mode error.  Write mode
creates a fresh file (a zeroed temporary header) and reads nothing. -/
def tree_file_open (bytes : List Nat) (mode : Char) : Except Int tree_file_t :=
  if mode = 'r' ∨ mode = 'u' then
    (tree_file_read_info bytes).map fun info => { info with mode := mode }
  else if mode = 'w' then
    .ok { mode := 'w', sample_size := 0, num_loci := 0, flags := 0,
          metadata_offset := 0, coalescence_record_offset := 0, metadata := [] }
  else .error MSP_ERR_BAD_MODE

lemma length_encode_le (v n : Nat) : (encode_le v n).length = n := by
  induction n generalizing v with
  | zero => rfl
  | succ n ih => simp [encode_le, ih]

lemma le_value_encode_le (v n : Nat) (hv : v < 256 ^ n) :
    le_value (encode_le v n) = v := by
  induction n generalizing v with
  | zero => interval_cases v; rfl
  | succ n ih =>
    have h : v / 256 < 256 ^ n := by
      rw [Nat.div_lt_iff_lt_mul (by norm_num)]
      calc v < 256 ^ (n + 1) := hv
        _ = 256 ^ n * 256 := by ring
    simp only [encode_le, le_value, ih (v / 256) h]
    omega

/-- The 28-byte header assembled from its six fields. -/
def tree_file_header (magic version ss nl fl off : Nat) : List Nat :=
  encode_le magic 4 ++ encode_le version 4 ++ encode_le ss 4 ++
    encode_le nl 4 ++ encode_le fl 4 ++ encode_le off 8

lemma decode_tree_file_header (magic version ss nl fl off : Nat) (rest : List Nat)
    (hm : magic < 2 ^ 32) (hv : version < 2 ^ 32) (hss : ss < 2 ^ 32)
    (hnl : nl < 2 ^ 32) (hfl : fl < 2 ^ 32) (hoff : off < 2 ^ 64) :
    (tree_file_header magic version ss nl fl off).length = 28 ∧
      decode_le (tree_file_header magic version ss nl fl off ++ rest) 0 4 = magic ∧
      decode_le (tree_file_header magic version ss nl fl off ++ rest) 4 4 = version ∧
      decode_le (tree_file_header magic version ss nl fl off ++ rest) 8 4 = ss ∧
      decode_le (tree_file_header magic version ss nl fl off ++ rest) 12 4 = nl ∧
      decode_le (tree_file_header magic version ss nl fl off ++ rest) 16 4 = fl ∧
      decode_le (tree_file_header magic version ss nl fl off ++ rest) 20 8 = off := by
  have h256 : (256 : Nat) ^ 4 = 2 ^ 32 := by norm_num
  have h2568 : (256 : Nat) ^ 8 = 2 ^ 64 := by norm_num
  unfold tree_file_header decode_le
  repeat rw [List.append_assoc]
  refine ⟨by simp [length_encode_le], ?_, ?_, ?_, ?_, ?_, ?_⟩
  · rw [List.drop_zero, List.take_left' (length_encode_le magic 4),
      le_value_encode_le magic 4 (by omega)]
  · rw [List.drop_left' (length_encode_le magic 4),
      List.take_left' (length_encode_le version 4),
      le_value_encode_le version 4 (by omega)]
  · rw [show (8 : Nat) = 4 + 4 by rfl, ← List.drop_drop,
      List.drop_left' (length_encode_le magic 4),
      List.drop_left' (length_encode_le version 4),
      List.take_left' (length_encode_le ss 4),
      le_value_encode_le ss 4 (by omega)]
  · rw [show (12 : Nat) = 4 + (4 + 4) by rfl, ← List.drop_drop, ← List.drop_drop,
      List.drop_left' (length_encode_le magic 4),
      List.drop_left' (length_encode_le version 4),
      List.drop_left' (length_encode_le ss 4),
      List.take_left' (length_encode_le nl 4),
      le_value_encode_le nl 4 (by omega)]
  · rw [show (16 : Nat) = 4 + (4 + (4 + 4)) by rfl, ← List.drop_drop,
      ← List.drop_drop, ← List.drop_drop,
      List.drop_left' (length_encode_le magic 4),
      List.drop_left' (length_encode_le version 4),
      List.drop_left' (length_encode_le ss 4),
      List.drop_left' (length_encode_le nl 4),
      List.take_left' (length_encode_le fl 4),
      le_value_encode_le fl 4 (by omega)]
  · rw [show (20 : Nat) = 4 + (4 + (4 + (4 + 4))) by rfl, ← List.drop_drop,
      ← List.drop_drop, ← List.drop_drop, ← List.drop_drop,
      List.drop_left' (length_encode_le magic 4),
      List.drop_left' (length_encode_le version 4),
      List.drop_left' (length_encode_le ss 4),
      List.drop_left' (length_encode_le nl 4),
      List.drop_left' (length_encode_le fl 4),
      List.take_left' (length_encode_le off 8),
      le_value_encode_le off 8 (by omega)]

/-- C8: opening a legacy tree file for reading ('r') or updating ('u')
decodes the 28-byte header as magic, version, sample_size, num_loci, flags
(one `u32` each, little endian) followed by metadata_offset (`u64`); a magic
word different from `0xa52cd4a4` fails the open with the file-format error; a
correct magic with a version different from 1 fails it with the file-version
error; with both correct (and the metadata offset inside the file) the open
succeeds and the decoded fields are stored. -/
theorem C8_tree_file_header (magic version ss nl fl off : Nat) (rest : List Nat)
    (mode : Char)
    (hm : magic < 2 ^ 32) (hv : version < 2 ^ 32) (hss : ss < 2 ^ 32)
    (hnl : nl < 2 ^ 32) (hfl : fl < 2 ^ 32) (hoff : off < 2 ^ 64)
    (hmode : mode = 'r' ∨ mode = 'u') :
    (magic ≠ MSP_TREE_FILE_MAGIC →
      tree_file_open (tree_file_header magic version ss nl fl off ++ rest) mode =
        Except.error MSP_ERR_FILE_FORMAT) ∧
    (magic = MSP_TREE_FILE_MAGIC → version ≠ MSP_TREE_FILE_VERSION →
      tree_file_open (tree_file_header magic version ss nl fl off ++ rest) mode =
        Except.error MSP_ERR_FILE_VERSION) ∧
    (magic = MSP_TREE_FILE_MAGIC → version = MSP_TREE_FILE_VERSION →
      off < 28 + rest.length →
      tree_file_open (tree_file_header magic version ss nl fl off ++ rest) mode =
        Except.ok
          { mode := mode, sample_size := ss, num_loci := nl, flags := fl
            metadata_offset := off
            coalescence_record_offset := MSP_TREE_FILE_HEADER_SIZE
            metadata :=
              (tree_file_header magic version ss nl fl off ++ rest).drop off }) := by
  obtain ⟨hlen, hd0, hd4, hd8, hd12, hd16, hd20⟩ :=
    decode_tree_file_header magic version ss nl fl off rest hm hv hss hnl hfl hoff
  have hflen : (tree_file_header magic version ss nl fl off ++ rest).length =
      28 + rest.length := by
    rw [List.length_append, hlen]
  have hopen : tree_file_open (tree_file_header magic version ss nl fl off ++ rest)
      mode = (tree_file_read_info
        (tree_file_header magic version ss nl fl off ++ rest)).map
        fun info => { info with mode := mode } := by
    unfold tree_file_open
    rw [if_pos hmode]
  refine ⟨fun hmag => ?_, fun hmag hver => ?_, fun hmag hver hin => ?_⟩
  · rw [hopen]
    unfold tree_file_read_info
    rw [if_neg (by omega), if_neg (by rw [hflen]; unfold MSP_TREE_FILE_HEADER_SIZE; omega),
      if_pos (by rw [hd0]; exact hmag)]
    rfl
  · rw [hopen]
    unfold tree_file_read_info
    rw [if_neg (by omega), if_neg (by rw [hflen]; unfold MSP_TREE_FILE_HEADER_SIZE; omega),
      if_neg (by rw [hd0, hmag]; simp), if_pos (by rw [hd4]; exact hver)]
    rfl
  · rw [hopen]
    unfold tree_file_read_info
    rw [if_neg (by omega), if_neg (by rw [hflen]; unfold MSP_TREE_FILE_HEADER_SIZE; omega),
      if_neg (by rw [hd0, hmag]; simp), if_neg (by rw [hd4, hver]; simp),
      if_neg (by rw [hd20, hflen]; omega), if_neg (by rw [hd20, hflen]; omega),
      hd8, hd12, hd16, hd20]
    rfl

theorem C8_tree_file_header_witness :
    tree_file_open (tree_file_header MSP_TREE_FILE_MAGIC MSP_TREE_FILE_VERSION
        5 7 3 28 ++ [42]) 'r' =
      Except.ok
        { mode := 'r', sample_size := 5, num_loci := 7, flags := 3
          metadata_offset := 28
          coalescence_record_offset := MSP_TREE_FILE_HEADER_SIZE
          metadata := (tree_file_header MSP_TREE_FILE_MAGIC MSP_TREE_FILE_VERSION
            5 7 3 28 ++ [42]).drop 28 } :=
  (C8_tree_file_header MSP_TREE_FILE_MAGIC MSP_TREE_FILE_VERSION 5 7 3 28 [42] 'r'
    (by decide) (by decide) (by decide) (by decide) (by decide) (by decide)
    (Or.inl rfl)).2.2 rfl rfl (by decide)

/-! ### C10: hapgen_get_haplotype (hapgen.c) -/

def HG_WORD_SIZE : Nat := 64

/-- The `hapgen_t` state relevant to `hapgen_get_haplotype`:
`haplotype_matrix` is the row-major array of `uint64` words,
`words_per_row * sample_size` long (hapgen.c:144-148). -/
structure hapgen_t where
  sample_size : Nat
  num_mutations : Nat
  words_per_row : Nat
  haplotype_matrix : List Nat
deriving Repr, DecidableEq

/-- `hapgen_set_bit` (hapgen.c:57): OR bit `column % 64` into word
`column / 64` of `row`. -/
def hapgen_set_bit (hg : hapgen_t) (row column : Nat) : hapgen_t :=
  let word := row * hg.words_per_row + column / HG_WORD_SIZE
  let updated := hg.haplotype_matrix.set word
    ((hg.haplotype_matrix.getD word 0) ||| (1 <<< (column % HG_WORD_SIZE)))
  { hg with haplotype_matrix := updated }

/-- Bit `(row, column)` of the haplotype bit matrix: bit `column % 64` of
word `row * words_per_row + column / 64`, the indexing `hapgen_set_bit`
writes and the `(word >> k) & 1` that `hapgen_get_haplotype` reads. -/
def hapgen_matrix_bit (hg : hapgen_t) (row column : Nat) : Bool :=
  (hg.haplotype_matrix.getD
      (row * hg.words_per_row + column / HG_WORD_SIZE) 0).testBit
    (column % HG_WORD_SIZE)

/-- `hapgen_get_haplotype` (hapgen.c:180): a `sample_id` outside
`1..=sample_size` is the out-of-bounds error; otherwise the row's
`words_per_row` words are expanded bit by bit into '0'/'1' characters
(character `l` is bit `l % 64` of word `l / 64` of the row), and the buffer
is NUL-terminated at index `num_mutations`, so the resulting C string is the
first `num_mutations` characters. -/
def hapgen_get_haplotype (hg : hapgen_t) (sample_id : Nat) :
    Except Int (List Char) :=
  if sample_id < 1 ∨ sample_id > hg.sample_size then
    .error MSP_ERR_OUT_OF_BOUNDS
  else
    .ok (((List.range (hg.words_per_row * HG_WORD_SIZE)).map fun l =>
      if hapgen_matrix_bit hg (sample_id - 1) l then '1' else '0').take
        hg.num_mutations)

/-- C10: `hapgen_get_haplotype` fails with the out-of-bounds error exactly
when `sample_id` is 0 or exceeds the sample size; for a valid `sample_id` it
succeeds with a string of exactly `num_mutations` characters, each '0' or
'1', whose character at position `s` is '1' exactly when bit
`(sample_id - 1, s)` of the haplotype bit matrix is set.  The hypothesis
`hwpr` is the row width `hapgen_alloc` establishes (hapgen.c:146). -/
theorem C10_get_haplotype (hg : hapgen_t) (sample_id : Nat)
    (hwpr : hg.words_per_row = hg.num_mutations / HG_WORD_SIZE + 1) :
    ((hapgen_get_haplotype hg sample_id = Except.error MSP_ERR_OUT_OF_BOUNDS) ↔
      (sample_id = 0 ∨ sample_id > hg.sample_size)) ∧
    (1 ≤ sample_id → sample_id ≤ hg.sample_size →
      ∃ hap, hapgen_get_haplotype hg sample_id = Except.ok hap ∧
        hap.length = hg.num_mutations ∧
        ∀ spos, spos < hg.num_mutations →
          (hap.getD spos 'x' = '1' ∨ hap.getD spos 'x' = '0') ∧
          (hap.getD spos 'x' = '1' ↔
            hapgen_matrix_bit hg (sample_id - 1) spos = true)) := by
  have hM : hg.num_mutations < hg.words_per_row * HG_WORD_SIZE := by
    rw [hwpr, show HG_WORD_SIZE = 64 from rfl]
    omega
  constructor
  · unfold hapgen_get_haplotype
    by_cases hb : sample_id < 1 ∨ sample_id > hg.sample_size
    · rw [if_pos hb]
      exact ⟨fun _ => by omega, fun _ => rfl⟩
    · rw [if_neg hb]
      exact ⟨fun h => Except.noConfusion h, fun h => absurd h (by omega)⟩
  · intro h1 h2
    unfold hapgen_get_haplotype
    rw [if_neg (by omega)]
    refine ⟨_, rfl, ?_, ?_⟩
    · rw [List.length_take, List.length_map, List.length_range]
      omega
    · intro spos hs
      have hlt : spos < (((List.range (hg.words_per_row * HG_WORD_SIZE)).map
          fun l => if hapgen_matrix_bit hg (sample_id - 1) l then '1'
            else '0').take hg.num_mutations).length := by
        rw [List.length_take, List.length_map, List.length_range]
        omega
      rw [List.getD_eq_getElem _ _ hlt, List.getElem_take, List.getElem_map,
        List.getElem_range]
      by_cases hbit : hapgen_matrix_bit hg (sample_id - 1) spos = true
      · rw [if_pos hbit]
        simp [hbit]
      · rw [if_neg hbit]
        refine ⟨Or.inr rfl, ?_⟩
        simp only [Bool.not_eq_true] at hbit
        simp [hbit]

/-- Fixture: a 2-sample, 3-mutation haplotype generator state. -/
def hg_ex : hapgen_t :=
  { sample_size := 2, num_mutations := 3, words_per_row := 1
    haplotype_matrix := [5, 2] }

theorem C10_get_haplotype_witness :
    ∃ hap, hapgen_get_haplotype hg_ex 2 = Except.ok hap ∧
      hap.length = hg_ex.num_mutations ∧
      ∀ spos, spos < hg_ex.num_mutations →
        (hap.getD spos 'x' = '1' ∨ hap.getD spos 'x' = '0') ∧
        (hap.getD spos 'x' = '1' ↔ hapgen_matrix_bit hg_ex 1 spos = true) :=
  (C10_get_haplotype hg_ex 2 rfl).2 (by decide) (by decide)

/-! ### C4: sparse_tree_get_mrca -/

/-- `sparse_tree_t`: the dense representation of the current marginal tree.
`parent`, `time`, `num_leaves`, `num_tracked_leaves` have `num_nodes + 1`
entries (index 0 is the null node); `children` holds a pair per node
(the flat `children[2*u]`, `children[2*u+1]` block in C). -/
structure sparse_tree_t where
  sample_size : Nat
  num_nodes : Nat
  flag_count_leaves : Bool
  left : Nat
  right : Nat
  root : Nat
  parent : List Nat
  time : List Int
  children : List (Nat × Nat)
  num_leaves : List Nat
  num_tracked_leaves : List Nat
deriving Repr, DecidableEq

/-- The ancestor stack built by the `while (j != 0)` loops of
`sparse_tree_get_mrca` (tree_sequence.c:1755-1772): `u`, `parent[u]`,
`parent[parent[u]]`, … up to (excluding) the null node 0.  The C loop has no
fuel; the stack capacity `sample_size + 1` (with the asserted bound
`l < sample_size`) plays that role here. -/
def anc_stack (parent : List Nat) : Nat → Nat → List Nat
  | 0, _ => []
  | fuel + 1, j => if j = 0 then [] else j :: anc_stack parent fuel (parent.getD j 0)

/-- The `do … while` walk of `sparse_tree_get_mrca` (tree_sequence.c:1773-1777)
expressed on the root-first (reversed) stacks: starting from the sentinel
value `w = 0`, descend while the two stacks agree, returning the last value
on which they agreed. -/
def mrca_walk : List Nat → List Nat → Nat → Nat
  | x :: xs, y :: ys, w => if x = y then mrca_walk xs ys x else w
  | _, _, w => w

/-- `sparse_tree_get_mrca` (tree_sequence.c:1740): reject `u` or `v` equal
to 0 or above `num_nodes` with the bad-parameter error; otherwise build the
two parent-stacks and walk them top-down while equal. -/
def sparse_tree_get_mrca (t : sparse_tree_t) (u v : Nat) : Except Int Nat :=
  if u = 0 ∨ v = 0 ∨ u > t.num_nodes ∨ v > t.num_nodes then
    .error MSP_ERR_BAD_PARAM_VALUE
  else
    .ok (mrca_walk (anc_stack t.parent t.sample_size u).reverse
      (anc_stack t.parent t.sample_size v).reverse 0)

/-- The terminating parent-chain of a node: `parent_chain parent u c` says the
walk `u, parent[u], …` reaches the null node 0 and visits exactly the list
`c` on the way.  This is the semantic object `anc_stack` computes when the
chain terminates within the stack capacity. -/
inductive parent_chain (parent : List Nat) : Nat → List Nat → Prop
  | nil : parent_chain parent 0 []
  | cons {u : Nat} {c : List Nat} (hu : u ≠ 0)
      (hc : parent_chain parent (parent.getD u 0) c) :
      parent_chain parent u (u :: c)

/-- `p` is a prefix of `c`. -/
def pfx (p c : List Nat) : Prop := ∃ t, c = p ++ t

/-- `s` is a suffix of `c`. -/
def sfx (s c : List Nat) : Prop := ∃ t, c = t ++ s

/-- The longest common prefix of two lists. -/
def common_pfx : List Nat → List Nat → List Nat
  | x :: xs, y :: ys => if x = y then x :: common_pfx xs ys else []
  | _, _ => []

lemma anc_stack_eq_chain {parent : List Nat} {u : Nat} {c : List Nat}
    (h : parent_chain parent u c) :
    ∀ f, c.length ≤ f → anc_stack parent f u = c := by
  induction h with
  | nil =>
    intro f _
    cases f with
    | zero => rfl
    | succ g => simp [anc_stack]
  | cons hu hc ih =>
    intro f hf
    cases f with
    | zero => simp at hf
    | succ g =>
      simp only [anc_stack, if_neg hu]
      rw [ih g (by simp at hf; omega)]

lemma chain_unique {parent : List Nat} {u : Nat} {c1 c2 : List Nat}
    (h1 : parent_chain parent u c1) (h2 : parent_chain parent u c2) : c1 = c2 := by
  induction h1 generalizing c2 with
  | nil =>
    cases h2 with
    | nil => rfl
    | cons hu _ => exact absurd rfl hu
  | cons hu hc ih =>
    cases h2 with
    | nil => exact absurd rfl hu
    | cons hu2 hc2 => rw [ih hc2]

lemma chain_mem_ne_zero {parent : List Nat} {u : Nat} {c : List Nat}
    (h : parent_chain parent u c) : ∀ x ∈ c, x ≠ 0 := by
  induction h with
  | nil => intro x hx; exact absurd hx (List.not_mem_nil x)
  | cons hu hc ih =>
    intro x hx
    rcases List.mem_cons.mp hx with rfl | hx
    · exact hu
    · exact ih x hx

lemma chain_suffix_of_mem {parent : List Nat} {u : Nat} {c : List Nat}
    (h : parent_chain parent u c) {a : Nat} (ha : a ∈ c) :
    ∃ ca, parent_chain parent a ca ∧ sfx ca c := by
  induction h with
  | nil => exact absurd ha (List.not_mem_nil a)
  | cons hu hc ih =>
    rename_i w c'
    rcases List.mem_cons.mp ha with rfl | ha
    · exact ⟨a :: c', parent_chain.cons hu hc, ⟨[], rfl⟩⟩
    · obtain ⟨ca, hca, t, ht⟩ := ih ha
      exact ⟨ca, hca, w :: t, by rw [ht]; rfl⟩

lemma chain_of_suffix {parent : List Nat} {u : Nat} {c : List Nat}
    (h : parent_chain parent u c) :
    ∀ a s, sfx (a :: s) c → parent_chain parent a (a :: s) := by
  induction h with
  | nil =>
    rintro a s ⟨t, ht⟩
    exact absurd ht.symm (by simp)
  | cons hu hc ih =>
    rename_i w c'
    rintro a s ⟨t, ht⟩
    cases t with
    | nil =>
      simp only [List.nil_append] at ht
      obtain ⟨rfl, rfl⟩ := List.cons_eq_cons.mp ht
      exact parent_chain.cons hu hc
    | cons x t =>
      obtain ⟨-, hc'⟩ := List.cons_eq_cons.mp ht
      exact ih a s ⟨t, hc'⟩

lemma common_pfx_cons (a : Nat) (xs ys : List Nat) :
    common_pfx (a :: xs) (a :: ys) = a :: common_pfx xs ys := by
  show (if a = a then a :: common_pfx xs ys else []) = a :: common_pfx xs ys
  rw [if_pos rfl]

lemma mrca_walk_cons (a : Nat) (xs ys : List Nat) (w : Nat) :
    mrca_walk (a :: xs) (a :: ys) w = mrca_walk xs ys a := by
  show (if a = a then mrca_walk xs ys a else w) = mrca_walk xs ys a
  rw [if_pos rfl]

lemma common_pfx_is_pfx (xs ys : List Nat) :
    pfx (common_pfx xs ys) xs ∧ pfx (common_pfx xs ys) ys := by
  induction xs generalizing ys with
  | nil => exact ⟨⟨[], rfl⟩, ⟨ys, by cases ys <;> rfl⟩⟩
  | cons x xs ih =>
    cases ys with
    | nil => exact ⟨⟨x :: xs, rfl⟩, ⟨[], rfl⟩⟩
    | cons y ys =>
      by_cases hxy : x = y
      · subst hxy
        obtain ⟨⟨t1, h1⟩, ⟨t2, h2⟩⟩ := ih ys
        refine ⟨⟨t1, ?_⟩, ⟨t2, ?_⟩⟩
        · simp [common_pfx, ← h1]
        · simp [common_pfx, ← h2]
      · exact ⟨⟨x :: xs, by simp [common_pfx, hxy]⟩,
          ⟨y :: ys, by simp [common_pfx, hxy]⟩⟩

lemma pfx_common_pfx {p xs ys : List Nat} (hx : pfx p xs) (hy : pfx p ys) :
    pfx p (common_pfx xs ys) := by
  induction p generalizing xs ys with
  | nil => exact ⟨common_pfx xs ys, rfl⟩
  | cons a p ih =>
    obtain ⟨t1, rfl⟩ := hx
    obtain ⟨t2, rfl⟩ := hy
    obtain ⟨t, ht⟩ := ih (⟨t1, rfl⟩ : pfx p (p ++ t1)) ⟨t2, rfl⟩
    refine ⟨t, ?_⟩
    rw [List.cons_append, List.cons_append, common_pfx_cons, ht]
    rfl

lemma pfx_length {p c : List Nat} (h : pfx p c) : p.length ≤ c.length := by
  obtain ⟨t, rfl⟩ := h
  simp

lemma mrca_walk_eq_getLastD (xs ys : List Nat) (w : Nat) :
    mrca_walk xs ys w = (common_pfx xs ys).getLastD w := by
  induction xs generalizing ys w with
  | nil => cases ys <;> rfl
  | cons x xs ih =>
    cases ys with
    | nil => rfl
    | cons y ys =>
      by_cases hxy : x = y
      · subst hxy
        rw [mrca_walk_cons, common_pfx_cons, List.getLastD_cons]
        exact ih ys x
      · show (if x = y then mrca_walk xs ys x else w) =
          (if x = y then x :: common_pfx xs ys else []).getLastD w
        rw [if_neg hxy, if_neg hxy]
        rfl

lemma sfx_of_pfx_reverse {p c : List Nat} (h : pfx p c.reverse) :
    sfx p.reverse c := by
  obtain ⟨t, ht⟩ := h
  refine ⟨t.reverse, ?_⟩
  have := congrArg List.reverse ht
  rwa [List.reverse_reverse, List.reverse_append] at this

lemma pfx_reverse_of_sfx {s c : List Nat} (h : sfx s c) :
    pfx s.reverse c.reverse := by
  obtain ⟨t, rfl⟩ := h
  exact ⟨t.reverse, by rw [List.reverse_append]⟩

lemma mem_of_sfx {s c : List Nat} (h : sfx s c) {a : Nat} (ha : a ∈ s) : a ∈ c := by
  obtain ⟨t, rfl⟩ := h
  exact List.mem_append.mpr (Or.inr ha)

/-- C4: for nodes `u`, `v` in `1..=num_nodes` lying in the current marginal
tree (their parent-chains terminate within the stack capacity and meet at the
same root), `sparse_tree_get_mrca` succeeds and returns a node that lies on
both parent-chains and whose depth (parent-chain length) is maximal among all
such common ancestors; for `u` or `v` equal to 0 or above `num_nodes` it
returns the bad-parameter error. -/
theorem C4_sparse_tree_get_mrca (t : sparse_tree_t) (u v : Nat) :
    ((u = 0 ∨ v = 0 ∨ u > t.num_nodes ∨ v > t.num_nodes) →
      sparse_tree_get_mrca t u v = Except.error MSP_ERR_BAD_PARAM_VALUE) ∧
    (∀ cu cv, parent_chain t.parent u cu → parent_chain t.parent v cv →
      cu.length ≤ t.sample_size → cv.length ≤ t.sample_size →
      cu.getLast? = cv.getLast? →
      1 ≤ u → u ≤ t.num_nodes → 1 ≤ v → v ≤ t.num_nodes →
      ∃ w, sparse_tree_get_mrca t u v = Except.ok w ∧ w ∈ cu ∧ w ∈ cv ∧
        ∀ a, a ∈ cu → a ∈ cv →
          ∀ ca cw, parent_chain t.parent a ca → parent_chain t.parent w cw →
            ca.length ≤ cw.length) := by
  constructor
  · intro hbad
    unfold sparse_tree_get_mrca
    rw [if_pos hbad]
  · intro cu cv hcu hcv hlu hlv hroot hu1 huN hv1 hvN
    unfold sparse_tree_get_mrca
    rw [if_neg (by omega),
      anc_stack_eq_chain hcu t.sample_size hlu,
      anc_stack_eq_chain hcv t.sample_size hlv,
      mrca_walk_eq_getLastD]
    set L := common_pfx cu.reverse cv.reverse with hL
    -- the two reversed chains share their first element (the common root),
    -- so the common prefix is nonempty
    have hcu_ne : cu ≠ [] := by
      cases hcu with
      | nil => omega
      | cons _ _ => simp
    have hcv_ne : cv ≠ [] := by
      cases hcv with
      | nil => omega
      | cons _ _ => simp
    have hLne : L ≠ [] := by
      obtain ⟨r1, ru, hru⟩ := List.exists_cons_of_ne_nil
        (by simpa using List.reverse_eq_nil_iff.not.mpr hcu_ne :
          cu.reverse ≠ [])
      obtain ⟨r2, rv, hrv⟩ := List.exists_cons_of_ne_nil
        (by simpa using List.reverse_eq_nil_iff.not.mpr hcv_ne :
          cv.reverse ≠ [])
      have h12 : r1 = r2 := by
        have e1 : cu.reverse.head? = some r1 := by rw [hru]; rfl
        have e2 : cv.reverse.head? = some r2 := by rw [hrv]; rfl
        rw [List.head?_reverse, hroot, ← List.head?_reverse] at e1
        rw [e2] at e1
        exact (Option.some_injective _ e1).symm
      rw [hL, hru, hrv, h12, common_pfx_cons]
      simp
    -- the reversed common prefix is a common suffix of both chains,
    -- beginning with the walk's result
    obtain ⟨w, Ls, hws⟩ := List.exists_cons_of_ne_nil
      (by simpa using List.reverse_eq_nil_iff.not.mpr hLne : L.reverse ≠ [])
    have hwlast : L.getLastD 0 = w := by
      have : L = Ls.reverse ++ [w] := by
        have := congrArg List.reverse hws
        rwa [List.reverse_reverse, List.reverse_cons] at this
      rw [this, List.getLastD_concat]
    have hsfx_u : sfx L.reverse cu := by
      refine sfx_of_pfx_reverse ?_
      rw [hL]
      exact (common_pfx_is_pfx cu.reverse cv.reverse).1
    have hsfx_v : sfx L.reverse cv := by
      refine sfx_of_pfx_reverse ?_
      rw [hL]
      exact (common_pfx_is_pfx cu.reverse cv.reverse).2
    have hchain_w : parent_chain t.parent w L.reverse := by
      have := chain_of_suffix hcu w Ls (by rwa [hws] at hsfx_u)
      rwa [← hws] at this
    refine ⟨w, by rw [hwlast], ?_, ?_, ?_⟩
    · exact mem_of_sfx hsfx_u (by rw [hws]; exact List.mem_cons_self w Ls)
    · exact mem_of_sfx hsfx_v (by rw [hws]; exact List.mem_cons_self w Ls)
    · intro a hau hav ca cw hca hcw
      obtain ⟨ca2, hca2, hs2⟩ := chain_suffix_of_mem hcu hau
      obtain rfl := chain_unique hca hca2
      obtain ⟨ca3, hca3, hs3⟩ := chain_suffix_of_mem hcv hav
      obtain rfl := chain_unique hca hca3
      obtain rfl := chain_unique hcw hchain_w
      have hpl : pfx ca.reverse L := pfx_common_pfx
        (pfx_reverse_of_sfx hs2) (pfx_reverse_of_sfx hs3)
      have := pfx_length hpl
      simpa using this

/-- Fixture: a three-node marginal tree (samples 1, 2 below root 3). -/
def st_ex : sparse_tree_t :=
  { sample_size := 2, num_nodes := 3, flag_count_leaves := false
    left := 0, right := 1, root := 3
    parent := [0, 3, 3, 0]
    time := [0, 0, 0, 5]
    children := [(0, 0), (0, 0), (0, 0), (1, 2)]
    num_leaves := [0, 1, 1, 2]
    num_tracked_leaves := [0, 0, 0, 0] }

theorem C4_sparse_tree_get_mrca_witness :
    sparse_tree_get_mrca st_ex 0 2 = Except.error MSP_ERR_BAD_PARAM_VALUE ∧
    (∃ w, sparse_tree_get_mrca st_ex 1 2 = Except.ok w ∧ w ∈ [1, 3] ∧
      w ∈ [2, 3] ∧
      ∀ a, a ∈ [1, 3] → a ∈ [2, 3] →
        ∀ ca cw, parent_chain st_ex.parent a ca →
          parent_chain st_ex.parent w cw → ca.length ≤ cw.length) :=
  ⟨(C4_sparse_tree_get_mrca st_ex 0 2).1 (Or.inl rfl),
   (C4_sparse_tree_get_mrca st_ex 1 2).2 [1, 3] [2, 3]
     (parent_chain.cons (by decide)
       (parent_chain.cons (by decide) parent_chain.nil))
     (parent_chain.cons (by decide)
       (parent_chain.cons (by decide) parent_chain.nil))
     (by decide) (by decide) rfl (by decide) (by decide) (by decide)
     (by decide)⟩

/-! ### C3: tree_diff_iterator_next -/

/-- `left[k]` of record index `k`. -/
def rec_left (ts : tree_sequence_t) (k : Nat) : Nat := (ts.records.getD k default).left

/-- `right[k]` of record index `k`. -/
def rec_right (ts : tree_sequence_t) (k : Nat) : Nat := (ts.records.getD k default).right

/-- `tree_diff_iterator_t` (the state fields `tree_diff_iterator_alloc` resets
to 0, tree_sequence.c:1518-1520). -/
structure tree_diff_iterator_t where
  insertion_index : Nat
  removal_index : Nat
  tree_left : Nat
deriving Repr, DecidableEq

/-- The outputs of one `tree_diff_iterator_next` call: the C return value,
`*length`, the out- and in-lists (as record indices — the C copies
`time/node/children` of each such record into `node_record_t` links), and the
updated iterator.  -/
structure diff_result where
  ret : Nat
  length : Nat
  nodes_out : List Nat
  nodes_in : List Nat
  state : tree_diff_iterator_t
deriving Repr, DecidableEq

/-- `tree_diff_iterator_next` (tree_sequence.c:1552): if records remain to
insert, first pop the run of records (in removal order) whose `right` equals
`tree_left`, then the run of records (in insertion order) whose `left` equals
`tree_left`, set the new `tree_left` from the record at the new removal
position, and return 1 with the interval length; otherwise return 0 with
length 0 and empty lists.  The C while-loops are the two `takeWhile` runs
(the insertion loop carries the explicit `insertion_index < num_records`
bound; the removal loop's array read is in bounds for well-formed tree
sequences, proved below, and is a `getD` here). -/
def tree_diff_iterator_next (ts : tree_sequence_t) (it : tree_diff_iterator_t) :
    diff_result :=
  if it.insertion_index < ts.records.length then
    let out_run := (ts.removal_order.drop it.removal_index).takeWhile
      fun k => rec_right ts k == it.tree_left
    let ri2 := it.removal_index + out_run.length
    let in_run := (ts.insertion_order.drop it.insertion_index).takeWhile
      fun k => rec_left ts k == it.tree_left
    let ii2 := it.insertion_index + in_run.length
    let tl2 := rec_right ts (ts.removal_order.getD ri2 0)
    { ret := 1, length := tl2 - it.tree_left
      nodes_out := out_run, nodes_in := in_run
      state := { insertion_index := ii2, removal_index := ri2, tree_left := tl2 } }
  else
    { ret := 0, length := 0, nodes_out := [], nodes_in := []
      state := it }

/-- The iterator states produced by `tree_diff_iterator_alloc` and any number
of `tree_diff_iterator_next` calls. -/
inductive diff_iter_reachable (ts : tree_sequence_t) : tree_diff_iterator_t → Prop
  | init : diff_iter_reachable ts ⟨0, 0, 0⟩
  | step {it : tree_diff_iterator_t} (h : diff_iter_reachable ts it) :
      diff_iter_reachable ts (tree_diff_iterator_next ts it).state

/-- Well-formedness of a tree sequence for iteration: the two index arrays
are permutations of the record indices sorted by their key (what
`tree_sequence_make_indexes` produces, cf. C1), every record is a nonempty
interval, and every record's `left` is either the start of the genome or the
`right` endpoint of some record (each marginal tree has the same number of
records, so a record entering at a breakpoint forces one to leave).  These
are invariants of the simulator's output. -/
def diff_iter_wf (ts : tree_sequence_t) : Prop :=
  ts.insertion_order.Perm (List.range ts.records.length) ∧
    ts.removal_order.Perm (List.range ts.records.length) ∧
    ts.insertion_order.Pairwise (fun j k => rec_left ts j ≤ rec_left ts k) ∧
    ts.removal_order.Pairwise (fun j k => rec_right ts j ≤ rec_right ts k) ∧
    (∀ k, k < ts.records.length → rec_left ts k < rec_right ts k) ∧
    (∀ k, k < ts.records.length →
      rec_left ts k = 0 ∨ ∃ k2, k2 < ts.records.length ∧ rec_right ts k2 = rec_left ts k)

/-- The running invariant of the diff iterator: all already-inserted records
lie strictly left of `tree_left`, all pending ones start at or after it;
all already-removed records end strictly left of `tree_left`, all pending
ones end at or after it. -/
def diff_inv (ts : tree_sequence_t) (it : tree_diff_iterator_t) : Prop :=
  (∀ k ∈ ts.insertion_order.take it.insertion_index, rec_left ts k < it.tree_left) ∧
    (∀ k ∈ ts.insertion_order.drop it.insertion_index, it.tree_left ≤ rec_left ts k) ∧
    (∀ k ∈ ts.removal_order.take it.removal_index, rec_right ts k < it.tree_left) ∧
    (∀ k ∈ ts.removal_order.drop it.removal_index, it.tree_left ≤ rec_right ts k) ∧
    it.insertion_index ≤ ts.records.length ∧ it.removal_index ≤ ts.records.length

lemma dropWhile_head_false {p : Nat → Bool} {l : List Nat} {a : Nat}
    {s : List Nat} (h : l.dropWhile p = a :: s) : p a = false := by
  induction l with
  | nil => simp at h
  | cons x xs ih =>
    rw [List.dropWhile_cons] at h
    by_cases hx : p x
    · rw [if_pos hx] at h
      exact ih h
    · rw [if_neg hx] at h
      obtain ⟨rfl, -⟩ := List.cons_eq_cons.mp h
      simpa using hx

/-- On a key-sorted list whose first `n` entries have key below `tl` and
whose remaining entries have key at least `tl`, the entries with key exactly
`tl` are precisely the leading run of the remainder. -/
lemma run_filter_eq {key : Nat → Nat} {l : List Nat} {n tl : Nat}
    (hsort : l.Pairwise fun j k => key j ≤ key k)
    (htake : ∀ k ∈ l.take n, key k < tl)
    (hdrop : ∀ k ∈ l.drop n, tl ≤ key k) :
    l.filter (fun k => key k == tl) =
      (l.drop n).takeWhile (fun k => key k == tl) := by
  set run := (l.drop n).takeWhile (fun k => key k == tl) with hrun
  set rest := (l.drop n).dropWhile (fun k => key k == tl) with hrest
  have hsplit : run ++ rest = l.drop n := List.takeWhile_append_dropWhile _ _
  have hl : l = l.take n ++ (run ++ rest) := by rw [hsplit, List.take_append_drop]
  nth_rewrite 1 [hl]
  rw [List.filter_append, List.filter_append]
  have h1 : (l.take n).filter (fun k => key k == tl) = [] := by
    rw [List.filter_eq_nil_iff]
    intro k hk
    simp only [beq_iff_eq]
    exact Nat.ne_of_lt (htake k hk)
  have h2 : run.filter (fun k => key k == tl) = run := by
    rw [List.filter_eq_self]
    intro k hk
    rw [hrun] at hk
    exact List.mem_takeWhile_imp (p := fun k => key k == tl) hk
  have h3 : rest.filter (fun k => key k == tl) = [] := by
    rw [List.filter_eq_nil_iff]
    rcases hr : rest with _ | ⟨h0, rest2⟩
    · intro k hk
      exact absurd hk (List.not_mem_nil k)
    · have hh0 : ((fun k => key k == tl) h0) = false :=
        dropWhile_head_false (p := fun k => key k == tl) (hrest.symm.trans hr)
      simp only [beq_eq_false_iff_ne] at hh0
      have hh0mem : h0 ∈ l.drop n := by
        have hsub := List.dropWhile_sublist (l := l.drop n) (fun k => key k == tl)
        rw [← hrest, hr] at hsub
        exact List.Sublist.mem (List.mem_cons_self h0 rest2) hsub
      have hh0gt : tl < key h0 := lt_of_le_of_ne (hdrop h0 hh0mem) (Ne.symm hh0)
      have hpw : (h0 :: rest2).Pairwise fun j k => key j ≤ key k := by
        refine List.Pairwise.sublist ?_ hsort
        rw [← hr, hrest]
        exact ((List.dropWhile_sublist _).trans (List.drop_sublist n l))
      intro k hk
      simp only [beq_iff_eq]
      rcases List.mem_cons.mp hk with rfl | hk2
      · omega
      · have := (List.pairwise_cons.mp hpw).1 k hk2
        omega
  rw [h1, h2, h3, List.append_nil, List.nil_append]

/-- The tail beyond the run: nonempty when a record is still pending
insertion, its head's key strictly exceeds `tl`, and every entry's key is at
least the head's. -/
lemma rest_head_spec {key : Nat → Nat} {l : List Nat} {n tl h0 : Nat}
    {rest2 : List Nat}
    (hsort : l.Pairwise fun j k => key j ≤ key k)
    (hdrop : ∀ k ∈ l.drop n, tl ≤ key k)
    (hr : (l.drop n).dropWhile (fun k => key k == tl) = h0 :: rest2) :
    tl < key h0 ∧ ∀ k ∈ h0 :: rest2, key h0 ≤ key k := by
  have hh0 : ((fun k => key k == tl) h0) = false :=
    dropWhile_head_false (p := fun k => key k == tl) hr
  simp only [beq_eq_false_iff_ne] at hh0
  have hh0mem : h0 ∈ l.drop n := by
    have hsub := List.dropWhile_sublist (l := l.drop n) (fun k => key k == tl)
    rw [hr] at hsub
    exact List.Sublist.mem (List.mem_cons_self h0 rest2) hsub
  have hpw : (h0 :: rest2).Pairwise fun j k => key j ≤ key k := by
    refine List.Pairwise.sublist ?_ hsort
    rw [← hr]
    exact ((List.dropWhile_sublist _).trans (List.drop_sublist n l))
  refine ⟨lt_of_le_of_ne (hdrop h0 hh0mem) (Ne.symm hh0), ?_⟩
  intro k hk
  rcases List.mem_cons.mp hk with rfl | hk2
  · exact le_refl _
  · exact (List.pairwise_cons.mp hpw).1 k hk2

lemma diff_next_eq_of_lt (ts : tree_sequence_t) (it : tree_diff_iterator_t)
    (hii : it.insertion_index < ts.records.length) :
    tree_diff_iterator_next ts it =
      { ret := 1
        length := rec_right ts (ts.removal_order.getD (it.removal_index +
          ((ts.removal_order.drop it.removal_index).takeWhile fun k =>
            rec_right ts k == it.tree_left).length) 0) - it.tree_left
        nodes_out := (ts.removal_order.drop it.removal_index).takeWhile fun k =>
          rec_right ts k == it.tree_left
        nodes_in := (ts.insertion_order.drop it.insertion_index).takeWhile fun k =>
          rec_left ts k == it.tree_left
        state :=
          { insertion_index := it.insertion_index +
              ((ts.insertion_order.drop it.insertion_index).takeWhile fun k =>
                rec_left ts k == it.tree_left).length
            removal_index := it.removal_index +
              ((ts.removal_order.drop it.removal_index).takeWhile fun k =>
                rec_right ts k == it.tree_left).length
            tree_left := rec_right ts (ts.removal_order.getD (it.removal_index +
              ((ts.removal_order.drop it.removal_index).takeWhile fun k =>
                rec_right ts k == it.tree_left).length) 0) } } := by
  unfold tree_diff_iterator_next
  rw [if_pos hii]

lemma diff_next_eq_of_ge (ts : tree_sequence_t) (it : tree_diff_iterator_t)
    (hii : ¬ it.insertion_index < ts.records.length) :
    tree_diff_iterator_next ts it =
      { ret := 0, length := 0, nodes_out := [], nodes_in := [], state := it } := by
  unfold tree_diff_iterator_next
  rw [if_neg hii]

/-- One call of `tree_diff_iterator_next` from a state satisfying the
invariant, with records still pending: it returns 1; the out-list is exactly
the records (in removal order) whose `right` equals the current `tree_left`;
the in-list is exactly the records (in insertion order) whose `left` equals
it; the new removal position is in bounds and the new `tree_left` is the
`right` of the record there, strictly beyond the old one; the returned
length is their difference; and the invariant is preserved. -/
lemma diff_next_spec (ts : tree_sequence_t) (hwf : diff_iter_wf ts)
    (it : tree_diff_iterator_t) (hinv : diff_inv ts it)
    (hii : it.insertion_index < ts.records.length) :
    (tree_diff_iterator_next ts it).ret = 1 ∧
      (tree_diff_iterator_next ts it).nodes_out =
        ts.removal_order.filter (fun k => rec_right ts k == it.tree_left) ∧
      (tree_diff_iterator_next ts it).nodes_in =
        ts.insertion_order.filter (fun k => rec_left ts k == it.tree_left) ∧
      (tree_diff_iterator_next ts it).state.removal_index < ts.records.length ∧
      (tree_diff_iterator_next ts it).state.tree_left =
        rec_right ts (ts.removal_order.getD
          (tree_diff_iterator_next ts it).state.removal_index 0) ∧
      it.tree_left < (tree_diff_iterator_next ts it).state.tree_left ∧
      (tree_diff_iterator_next ts it).length =
        (tree_diff_iterator_next ts it).state.tree_left - it.tree_left ∧
      diff_inv ts (tree_diff_iterator_next ts it).state := by
  obtain ⟨hIperm, hOperm, hIsort, hOsort, hlr, hbp⟩ := hwf
  obtain ⟨hBtake, hCdrop, hDtake, hEdrop, hiile, hrile⟩ := hinv
  have hIlen : ts.insertion_order.length = ts.records.length := by
    rw [hIperm.length_eq, List.length_range]
  have hOlen : ts.removal_order.length = ts.records.length := by
    rw [hOperm.length_eq, List.length_range]
  have hmemO : ∀ k, k < ts.records.length → k ∈ ts.removal_order := fun k hk =>
    hOperm.mem_iff.mpr (List.mem_range.mpr hk)
  have hmemI_lt : ∀ k ∈ ts.insertion_order, k < ts.records.length := fun k hk =>
    List.mem_range.mp (hIperm.mem_iff.mp hk)
  rw [diff_next_eq_of_lt ts it hii]
  dsimp only
  set out_run := (ts.removal_order.drop it.removal_index).takeWhile
    (fun k => rec_right ts k == it.tree_left) with hout_def
  set in_run := (ts.insertion_order.drop it.insertion_index).takeWhile
    (fun k => rec_left ts k == it.tree_left) with hin_def
  have hOsplit : out_run ++ (ts.removal_order.drop it.removal_index).dropWhile
      (fun k => rec_right ts k == it.tree_left) =
      ts.removal_order.drop it.removal_index :=
    List.takeWhile_append_dropWhile _ _
  have hIsplit : in_run ++ (ts.insertion_order.drop it.insertion_index).dropWhile
      (fun k => rec_left ts k == it.tree_left) =
      ts.insertion_order.drop it.insertion_index :=
    List.takeWhile_append_dropWhile _ _
  -- a pending record exists, so the removal tail past the run is nonempty
  have hIdropne : ts.insertion_order.drop it.insertion_index ≠ [] := by
    intro h
    have := congrArg List.length h
    rw [List.length_drop, hIlen] at this
    simp at this
    omega
  obtain ⟨k0, hk0mem⟩ := List.exists_mem_of_ne_nil _ hIdropne
  have hk0lt : k0 < ts.records.length :=
    hmemI_lt k0 (List.Sublist.mem hk0mem (List.drop_sublist _ _))
  have hk0right : it.tree_left < rec_right ts k0 :=
    lt_of_le_of_lt (hCdrop k0 hk0mem) (hlr k0 hk0lt)
  have hrestOne : (ts.removal_order.drop it.removal_index).dropWhile
      (fun k => rec_right ts k == it.tree_left) ≠ [] := by
    intro hnil
    have hk0O : k0 ∈ ts.removal_order := hmemO k0 hk0lt
    rw [← List.take_append_drop it.removal_index ts.removal_order, ← hOsplit,
      hnil, List.append_nil] at hk0O
    rcases List.mem_append.mp hk0O with h | h
    · exact absurd (hDtake k0 h) (by omega)
    · have := List.mem_takeWhile_imp
        (p := fun k => rec_right ts k == it.tree_left) h
      rw [beq_iff_eq] at this
      omega
  obtain ⟨h0, rest2, hr⟩ := List.exists_cons_of_ne_nil hrestOne
  obtain ⟨hh0gt, hh0le⟩ := rest_head_spec hOsort hEdrop hr
  -- the length split of the removal order and the new position's record
  have hlenO : ts.records.length =
      it.removal_index + out_run.length + (rest2.length + 1) := by
    have := congrArg List.length
      ((List.take_append_drop it.removal_index ts.removal_order).symm.trans
        (congrArg _ (hOsplit.symm)))
    rw [hOlen] at this
    rw [this, List.length_append, List.length_append, List.length_take, hr]
    have : it.removal_index ⊓ ts.removal_order.length = it.removal_index := by
      rw [hOlen]
      omega
    rw [this]
    simp
    omega
  have hri2lt : it.removal_index + out_run.length < ts.records.length := by
    omega
  have hdrop2 : ts.removal_order.drop (it.removal_index + out_run.length) =
      h0 :: rest2 := by
    rw [← List.drop_drop, ← hOsplit, List.drop_left, hr]
  have hgetD : ts.removal_order.getD (it.removal_index + out_run.length) 0 = h0 := by
    have h00 : (ts.removal_order.drop (it.removal_index + out_run.length))[0]? =
        some h0 := by
      rw [hdrop2]
      simp
    rw [List.getElem?_drop, Nat.add_zero] at h00
    rw [List.getD_eq_getElem?_getD, h00]
    rfl
  -- membership decomposition of the removal order
  have hOmem_cases : ∀ k2 ∈ ts.removal_order,
      k2 ∈ ts.removal_order.take it.removal_index ∨ k2 ∈ out_run ∨
        k2 ∈ h0 :: rest2 := by
    intro k2 hk2
    rw [← List.take_append_drop it.removal_index ts.removal_order, ← hOsplit,
      hr] at hk2
    rcases List.mem_append.mp hk2 with h | h
    · exact Or.inl h
    · rcases List.mem_append.mp h with h | h
      · exact Or.inr (Or.inl h)
      · exact Or.inr (Or.inr h)
  have hout_tl : ∀ k ∈ out_run, rec_right ts k = it.tree_left := by
    intro k hk
    have := List.mem_takeWhile_imp
      (p := fun k => rec_right ts k == it.tree_left) (hout_def ▸ hk)
    rwa [beq_iff_eq] at this
  have hin_tl : ∀ k ∈ in_run, rec_left ts k = it.tree_left := by
    intro k hk
    have := List.mem_takeWhile_imp
      (p := fun k => rec_left ts k == it.tree_left) (hin_def ▸ hk)
    rwa [beq_iff_eq] at this
  -- the new left boundary and the bound on everything still to remove
  have hrest_ge : ∀ k ∈ h0 :: rest2, rec_right ts h0 ≤ rec_right ts k := hh0le
  -- the in-side tail: every record still to insert starts at or beyond the
  -- new tree_left, via the breakpoint-pairing property
  have hItail : ∀ k ∈ (ts.insertion_order.drop it.insertion_index).dropWhile
      (fun k => rec_left ts k == it.tree_left), rec_right ts h0 ≤ rec_left ts k := by
    intro k hk
    obtain ⟨hI0, tI, hrI⟩ := List.exists_cons_of_ne_nil (List.ne_nil_of_mem hk)
    obtain ⟨hI0gt, hI0le⟩ := rest_head_spec hIsort hCdrop hrI
    have hkgt : it.tree_left < rec_left ts k :=
      lt_of_lt_of_le hI0gt (hI0le k (hrI ▸ hk))
    have hkI : k ∈ ts.insertion_order := by
      refine List.Sublist.mem hk ?_
      exact (List.dropWhile_sublist _).trans (List.drop_sublist _ _)
    have hkR : k < ts.records.length := hmemI_lt k hkI
    rcases hbp k hkR with h0eq | ⟨k2, hk2R, hk2eq⟩
    · omega
    · rcases hOmem_cases k2 (hmemO k2 hk2R) with h | h | h
      · have := hDtake k2 h
        omega
      · have := hout_tl k2 h
        omega
      · have := hrest_ge k2 h
        omega
  have hlenI : in_run.length ≤ ts.records.length - it.insertion_index := by
    have := List.Sublist.length_le (List.takeWhile_sublist
      (l := ts.insertion_order.drop it.insertion_index)
      (fun k => rec_left ts k == it.tree_left))
    rw [List.length_drop, hIlen] at this
    rw [hin_def]
    exact this
  have hIdrop2 : ts.insertion_order.drop (it.insertion_index + in_run.length) =
      (ts.insertion_order.drop it.insertion_index).dropWhile
        (fun k => rec_left ts k == it.tree_left) := by
    conv_lhs => rw [← List.drop_drop, ← hIsplit, List.drop_left]
  have hItake2 : ts.insertion_order.take (it.insertion_index + in_run.length) =
      ts.insertion_order.take it.insertion_index ++ in_run := by
    rw [List.take_add, ← hIsplit, List.take_left]
  have hOtake2 : ts.removal_order.take (it.removal_index + out_run.length) =
      ts.removal_order.take it.removal_index ++ out_run := by
    rw [List.take_add, ← hOsplit, List.take_left]
  refine ⟨rfl, ?_, ?_, hri2lt, ?_, ?_, rfl, ?_, ?_, ?_, ?_, ?_, ?_⟩
  · exact (run_filter_eq hOsort hDtake hEdrop).symm
  · exact (run_filter_eq hIsort hBtake hCdrop).symm
  · rfl
  · rw [hgetD]
    exact hh0gt
  -- invariant components at the new state
  · intro k hk
    dsimp only at hk ⊢
    rw [hItake2] at hk
    rw [hgetD]
    rcases List.mem_append.mp hk with h | h
    · have := hBtake k h
      omega
    · have := hin_tl k h
      omega
  · intro k hk
    dsimp only at hk ⊢
    rw [hIdrop2] at hk
    rw [hgetD]
    exact hItail k hk
  · intro k hk
    dsimp only at hk ⊢
    rw [hOtake2] at hk
    rw [hgetD]
    rcases List.mem_append.mp hk with h | h
    · have := hDtake k h
      omega
    · have := hout_tl k h
      omega
  · intro k hk
    dsimp only at hk ⊢
    rw [hdrop2] at hk
    rw [hgetD]
    exact hrest_ge k hk
  · dsimp only
    omega
  · dsimp only
    omega

lemma diff_inv_init (ts : tree_sequence_t) : diff_inv ts ⟨0, 0, 0⟩ := by
  refine ⟨?_, ?_, ?_, ?_, Nat.zero_le _, Nat.zero_le _⟩
  · intro k hk
    simp at hk
  · intro k hk
    exact Nat.zero_le _
  · intro k hk
    simp at hk
  · intro k hk
    exact Nat.zero_le _

lemma diff_inv_reachable (ts : tree_sequence_t) (hwf : diff_iter_wf ts)
    {it : tree_diff_iterator_t} (h : diff_iter_reachable ts it) :
    diff_inv ts it := by
  induction h with
  | init => exact diff_inv_init ts
  | step h ih =>
    rename_i it0
    by_cases hii : it0.insertion_index < ts.records.length
    · exact (diff_next_spec ts hwf it0 ih hii).2.2.2.2.2.2.2
    · rw [diff_next_eq_of_ge ts it0 hii]
      exact ih

/-- C3: on a well-formed tree sequence with `R` records, any call of
`tree_diff_iterator_next` from a reachable iterator state with
`insertion_index < R` returns 1, emits as out-records exactly the records
(in removal order) whose `right` equals the current `tree_left` and as
in-records exactly the records (in insertion order) whose `left` equals it,
moves `tree_left` to the `right` value of the record at the new (in-bounds)
removal position, and reports the interval length as the difference of the
new and old `tree_left`; once `insertion_index` has reached `R` the call
returns 0 (iteration terminates). -/
theorem C3_tree_diff_iterator_next (ts : tree_sequence_t)
    (hwf : diff_iter_wf ts) (it : tree_diff_iterator_t)
    (hreach : diff_iter_reachable ts it) :
    (it.insertion_index < ts.records.length →
      (tree_diff_iterator_next ts it).ret = 1 ∧
      (tree_diff_iterator_next ts it).nodes_out =
        ts.removal_order.filter (fun k => rec_right ts k == it.tree_left) ∧
      (tree_diff_iterator_next ts it).nodes_in =
        ts.insertion_order.filter (fun k => rec_left ts k == it.tree_left) ∧
      (tree_diff_iterator_next ts it).state.removal_index < ts.records.length ∧
      (tree_diff_iterator_next ts it).state.tree_left =
        rec_right ts (ts.removal_order.getD
          (tree_diff_iterator_next ts it).state.removal_index 0) ∧
      it.tree_left < (tree_diff_iterator_next ts it).state.tree_left ∧
      (tree_diff_iterator_next ts it).length =
        (tree_diff_iterator_next ts it).state.tree_left - it.tree_left) ∧
    (ts.records.length ≤ it.insertion_index →
      (tree_diff_iterator_next ts it).ret = 0) := by
  constructor
  · intro hii
    have h := diff_next_spec ts hwf it (diff_inv_reachable ts hwf hreach) hii
    exact ⟨h.1, h.2.1, h.2.2.1, h.2.2.2.1, h.2.2.2.2.1, h.2.2.2.2.2.1,
      h.2.2.2.2.2.2.1⟩
  · intro hge
    rw [diff_next_eq_of_ge ts it (by omega)]

theorem C3_tree_diff_iterator_next_witness :
    (tree_diff_iterator_next ts_ex ⟨0, 0, 0⟩).ret = 1 ∧
      (tree_diff_iterator_next ts_ex ⟨0, 0, 0⟩).nodes_out =
        ts_ex.removal_order.filter (fun k => rec_right ts_ex k == 0) ∧
      (tree_diff_iterator_next ts_ex ⟨0, 0, 0⟩).nodes_in =
        ts_ex.insertion_order.filter (fun k => rec_left ts_ex k == 0) ∧
      (tree_diff_iterator_next ts_ex ⟨0, 0, 0⟩).state.removal_index <
        ts_ex.records.length ∧
      (tree_diff_iterator_next ts_ex ⟨0, 0, 0⟩).state.tree_left =
        rec_right ts_ex (ts_ex.removal_order.getD
          (tree_diff_iterator_next ts_ex ⟨0, 0, 0⟩).state.removal_index 0) ∧
      0 < (tree_diff_iterator_next ts_ex ⟨0, 0, 0⟩).state.tree_left ∧
      (tree_diff_iterator_next ts_ex ⟨0, 0, 0⟩).length =
        (tree_diff_iterator_next ts_ex ⟨0, 0, 0⟩).state.tree_left - 0 :=
  (C3_tree_diff_iterator_next ts_ex
    (by unfold diff_iter_wf
        refine ⟨insertion_order_perm ts_ex.records,
          removal_order_perm ts_ex.records, ?_, ?_, by decide, by decide⟩
        · exact (insertion_order_pairwise ts_ex.records).imp fun {a b} h => by
            rcases h with h | ⟨h, -⟩
            · exact Nat.le_of_lt h
            · exact Nat.le_of_eq h
        · exact (removal_order_pairwise ts_ex.records).imp fun {a b} h => by
            rcases h with h | ⟨h, -⟩
            · exact Nat.le_of_lt h
            · exact Nat.le_of_eq h)
    ⟨0, 0, 0⟩ diff_iter_reachable.init).1 (by decide)

/-! ### C5: leaf-count maintenance in sparse_tree_iterator_next -/

/-- `node[k]` of record index `k`. -/
def rec_node (ts : tree_sequence_t) (k : Nat) : Nat := (ts.records.getD k default).node

/-- `children[2k]` of record index `k`. -/
def rec_child0 (ts : tree_sequence_t) (k : Nat) : Nat := (ts.records.getD k default).child0

/-- `children[2k+1]` of record index `k`. -/
def rec_child1 (ts : tree_sequence_t) (k : Nat) : Nat := (ts.records.getD k default).child1

/-- `time[k]` of record index `k`. -/
def rec_time (ts : tree_sequence_t) (k : Nat) : Int := (ts.records.getD k default).time

/-- The count-propagation loops of `sparse_tree_iterator_next`
(tree_sequence.c:1979-1985 and 2012-2018): starting at `v`, apply `f` to the
array cell at `v` and walk to `parent[v]`, stopping at the null node.  The C
loop is unbounded; the fuel (instantiated at `num_nodes + 1`) covers every
terminating parent chain. -/
def chain_update (parent : List Nat) (f : Nat → Nat) :
    Nat → Nat → List Nat → List Nat
  | 0, _, arr => arr
  | fuel + 1, v, arr =>
    if v = 0 then arr
    else chain_update parent f fuel (parent.getD v 0)
      (arr.set v (f (arr.getD v 0)))

/-- The per-record removal step of `sparse_tree_iterator_next`
(tree_sequence.c:1963-1986): clear the parent links of both children and the
node's child slots and time, demote the root if it was this node, and — with
leaf counting on — subtract the node's leaf counts along its (post-clear)
parent chain. -/
def sparse_tree_remove_record (t : sparse_tree_t) (u c0 c1 : Nat) :
    sparse_tree_t :=
  let parent2 := (t.parent.set c0 0).set c1 0
  let children2 := t.children.set u (0, 0)
  let time2 := t.time.set u 0
  let root2 := if u = t.root then max c0 c1 else t.root
  if t.flag_count_leaves then
    { t with
      parent := parent2
      children := children2
      time := time2
      root := root2
      num_leaves := chain_update parent2
        (fun x => x - t.num_leaves.getD u 0) (t.num_nodes + 1) u t.num_leaves
      num_tracked_leaves := chain_update parent2
        (fun x => x - t.num_tracked_leaves.getD u 0) (t.num_nodes + 1) u
        t.num_tracked_leaves }
  else
    { t with
      parent := parent2
      children := children2
      time := time2
      root := root2 }

/-- The per-record insertion step of `sparse_tree_iterator_next`
(tree_sequence.c:1995-2019): wire both children under the node, set its
time, promote the root if the node exceeds it, and — with leaf counting
on — add the children's combined leaf counts along the node's (post-wire)
parent chain. -/
def sparse_tree_insert_record (t : sparse_tree_t) (u c0 c1 : Nat) (tk : Int) :
    sparse_tree_t :=
  let parent2 := (t.parent.set c0 u).set c1 u
  let children2 := t.children.set u (c0, c1)
  let time2 := t.time.set u tk
  let root2 := if u > t.root then u else t.root
  if t.flag_count_leaves then
    { t with
      parent := parent2
      children := children2
      time := time2
      root := root2
      num_leaves := chain_update parent2
        (fun x => x + (t.num_leaves.getD c0 0 + t.num_leaves.getD c1 0))
        (t.num_nodes + 1) u t.num_leaves
      num_tracked_leaves := chain_update parent2
        (fun x => x + (t.num_tracked_leaves.getD c0 0 +
          t.num_tracked_leaves.getD c1 0))
        (t.num_nodes + 1) u t.num_tracked_leaves }
  else
    { t with
      parent := parent2
      children := children2
      time := time2
      root := root2 }

/-- The root search of `sparse_tree_iterator_next` (tree_sequence.c:2024):
climb parent links from `r` until the parent is null. -/
def root_walk (parent : List Nat) : Nat → Nat → Nat
  | 0, r => r
  | fuel + 1, r =>
    if parent.getD r 0 = 0 then r else root_walk parent fuel (parent.getD r 0)

/-- The `sparse_tree_iterator_t` state: the two index cursors plus the
mutated tree (the mutation-window fields of the C structs are not modelled;
no claim concerns them). -/
structure sparse_tree_iterator_t where
  insertion_index : Nat
  removal_index : Nat
  tree : sparse_tree_t
deriving Repr, DecidableEq

/-- `sparse_tree_iterator_next` (tree_sequence.c:1950): while records remain
to insert, pop and remove the run of records (in removal order) whose
`right` equals the tree's `right`, shift the interval, insert the run of
records (in insertion order) whose `left` equals the new `left`, and re-find
the root; returns the C return value and the new state. -/
def sparse_tree_iterator_next (ts : tree_sequence_t)
    (self : sparse_tree_iterator_t) : Nat × sparse_tree_iterator_t :=
  if self.insertion_index < ts.records.length then
    let out_run := (ts.removal_order.drop self.removal_index).takeWhile
      fun k => rec_right ts k == self.tree.right
    let t1 := out_run.foldl (fun t k =>
      sparse_tree_remove_record t (rec_node ts k) (rec_child0 ts k)
        (rec_child1 ts k)) self.tree
    let ri2 := self.removal_index + out_run.length
    let t2 := { t1 with
      left := t1.right
      right := rec_right ts (ts.removal_order.getD ri2 0) }
    let in_run := (ts.insertion_order.drop self.insertion_index).takeWhile
      fun k => rec_left ts k == t2.left
    let t3 := in_run.foldl (fun t k =>
      sparse_tree_insert_record t (rec_node ts k) (rec_child0 ts k)
        (rec_child1 ts k) (rec_time ts k)) t2
    let ii2 := self.insertion_index + in_run.length
    let t4 := { t3 with root := root_walk t3.parent (t3.num_nodes + 1) t3.root }
    (1, { insertion_index := ii2, removal_index := ri2, tree := t4 })
  else (0, self)

/-- The sparse tree as set up by `sparse_tree_alloc` with `MSP_COUNT_LEAVES`
followed by `sparse_tree_clear` (tree_sequence.c:1662-1682, 1719-1737):
null parent/children/time everywhere, unit leaf count on each sample, unit
tracked count on each tracked sample. -/
def sparse_tree_init (n N : Nat) (tracked : Nat → Bool) : sparse_tree_t :=
  { sample_size := n
    num_nodes := N
    flag_count_leaves := true
    left := 0
    right := 0
    root := 0
    parent := List.replicate (N + 1) 0
    time := List.replicate (N + 1) 0
    children := List.replicate (N + 1) (0, 0)
    num_leaves := (List.range (N + 1)).map fun x =>
      if 1 ≤ x ∧ x ≤ n then 1 else 0
    num_tracked_leaves := (List.range (N + 1)).map fun x =>
      if 1 ≤ x ∧ x ≤ n ∧ tracked x then 1 else 0 }

/-- The stack traversal of `sparse_tree_get_num_leaves_by_traversal`
(tree_sequence.c:1784-1809), generalized to sum an arbitrary per-sample
weight `w` (the source counts `w = 1` per sample; the tracked variant uses
the tracked-sample indicator).  Nodes in `1..=sample_size` contribute their
weight; other nodes with a nonzero first child push both children (second
child popped first, as in C).  The C loop is unbounded; the fuel is proved
sufficient for well-formed trees. -/
def traversal_weight (t : sparse_tree_t) (w : Nat → Nat) :
    Nat → List Nat → Nat → Nat
  | 0, _, count => count
  | _ + 1, [], count => count
  | fuel + 1, v :: stack, count =>
    if 1 ≤ v ∧ v ≤ t.sample_size then
      traversal_weight t w fuel stack (count + w v)
    else if (t.children.getD v (0, 0)).1 ≠ 0 then
      traversal_weight t w fuel
        ((t.children.getD v (0, 0)).2 :: (t.children.getD v (0, 0)).1 :: stack)
        count
    else traversal_weight t w fuel stack count

/-- `sparse_tree_get_num_leaves_by_traversal` (tree_sequence.c:1784): the
number of leaves below `u` by depth-first traversal.  `2 ^ (num_nodes + 2)`
iterations are proved sufficient for well-formed trees. -/
def sparse_tree_get_num_leaves_by_traversal (t : sparse_tree_t) (u : Nat) : Nat :=
  traversal_weight t (fun _ => 1) (2 ^ (t.num_nodes + 2)) [u] 0

/-- The tracked-leaf analogue of the traversal: total tracked-indicator
weight of the leaves below `u`. -/
def sparse_tree_tracked_by_traversal (t : sparse_tree_t) (tracked : Nat → Bool)
    (u : Nat) : Nat :=
  traversal_weight t (fun x => if tracked x then 1 else 0)
    (2 ^ (t.num_nodes + 2)) [u] 0

/-! #### Chain foundations for the leaf-count invariant -/

lemma getD_set_eq {l : List Nat} {i : Nat} (a : Nat) (h : i < l.length) :
    (l.set i a).getD i 0 = a := by
  rw [List.getD_eq_getElem?_getD, List.getElem?_set, if_pos rfl, if_pos h]
  rfl

lemma getD_set_ne {l : List Nat} {i j : Nat} (a : Nat) (h : i ≠ j) :
    (l.set i a).getD j 0 = l.getD j 0 := by
  rw [List.getD_eq_getElem?_getD, List.getElem?_set, if_neg h,
    ← List.getD_eq_getElem?_getD]

lemma sfx_length {s c : List Nat} (h : sfx s c) : s.length ≤ c.length := by
  obtain ⟨t, rfl⟩ := h
  simp

lemma sfx_refl (c : List Nat) : sfx c c := ⟨[], rfl⟩

lemma sfx_eq_of_length {s c : List Nat} (h : sfx s c)
    (hl : c.length ≤ s.length) : s = c := by
  obtain ⟨t, rfl⟩ := h
  have ht : t.length = 0 := by
    simp only [List.length_append] at hl
    omega
  rw [List.length_eq_zero] at ht
  rw [ht, List.nil_append]

lemma sfx_total {s1 s2 c : List Nat} (h1 : sfx s1 c) (h2 : sfx s2 c)
    (hl : s1.length ≤ s2.length) : sfx s1 s2 := by
  obtain ⟨t1, rfl⟩ := h1
  obtain ⟨t2, ht2⟩ := h2
  refine ⟨s2.take (t1.length - t2.length), ?_⟩
  have hlen : t2.length ≤ t1.length := by
    have := congrArg List.length ht2
    simp at this
    omega
  have hdrop : s2.drop (t1.length - t2.length) = s1 := by
    conv_lhs => rw [(List.drop_left t2 s2).symm]
    rw [List.drop_drop, Nat.add_sub_cancel' hlen, ← ht2, List.drop_left]
  rw [← hdrop]
  exact (List.take_append_drop _ _).symm

lemma chain_zero {parent : List Nat} {c : List Nat}
    (h : parent_chain parent 0 c) : c = [] := by
  cases h with
  | nil => rfl
  | cons hu _ => exact absurd rfl hu

lemma chain_head {parent : List Nat} {u : Nat} {c : List Nat}
    (h : parent_chain parent u c) (hu : u ≠ 0) :
    ∃ c', c = u :: c' ∧ parent_chain parent (parent.getD u 0) c' := by
  cases h with
  | nil => exact absurd rfl hu
  | cons _ hc => exact ⟨_, rfl, hc⟩

lemma chain_head_eq {parent : List Nat} {u b : Nat} {rest : List Nat}
    (h : parent_chain parent u (b :: rest)) : b = u := by
  cases h with
  | cons hu hc => rfl

lemma chain_self_mem {parent : List Nat} {u : Nat} {c : List Nat}
    (h : parent_chain parent u c) (hu : u ≠ 0) : u ∈ c := by
  obtain ⟨c', rfl, -⟩ := chain_head h hu
  exact List.mem_cons_self u c'

lemma chain_nodup {parent : List Nat} {u : Nat} {c : List Nat}
    (h : parent_chain parent u c) : c.Nodup := by
  induction h with
  | nil => exact List.nodup_nil
  | cons hu hc ih =>
    rename_i w c'
    rw [List.nodup_cons]
    refine ⟨fun hmem => ?_, ih⟩
    obtain ⟨ca, hca, hsfx⟩ := chain_suffix_of_mem hc hmem
    have := chain_unique hca (parent_chain.cons hu hc)
    rw [this] at hsfx
    have := sfx_length hsfx
    simp at this

lemma chain_mem_bound {parent : List Nat} {u : Nat} {c : List Nat} {N : Nat}
    (h : parent_chain parent u c) (hp : ∀ v, parent.getD v 0 ≤ N) :
    ∀ x ∈ c, x = u ∨ (1 ≤ x ∧ x ≤ N) := by
  induction h with
  | nil => intro x hx; exact absurd hx (List.not_mem_nil x)
  | cons hu hc ih =>
    intro x hx
    rcases List.mem_cons.mp hx with rfl | hx
    · exact Or.inl rfl
    · rcases ih x hx with hbe | hb
      · right
        have hx0 := chain_mem_ne_zero hc x hx
        refine ⟨by omega, ?_⟩
        rw [hbe]
        exact hp _
      · exact Or.inr hb

lemma nodup_length_le {c l : List Nat} (hnd : c.Nodup)
    (hsub : ∀ x ∈ c, x ∈ l) : c.length ≤ l.length := by
  induction c generalizing l with
  | nil => simp
  | cons a c ih =>
    obtain ⟨s, t, rfl⟩ := List.append_of_mem (hsub a (List.mem_cons_self a c))
    rw [List.nodup_cons] at hnd
    have hsub' : ∀ x ∈ c, x ∈ s ++ t := by
      intro x hx
      have hxl := hsub x (List.mem_cons_of_mem a hx)
      rw [List.mem_append] at hxl ⊢
      rcases hxl with h | h
      · exact Or.inl h
      · rcases List.mem_cons.mp h with rfl | h
        · exact absurd hx hnd.1
        · exact Or.inr h
    have := ih hnd.2 hsub'
    simp at this ⊢
    omega

lemma chain_length_le {parent : List Nat} {u : Nat} {c : List Nat} {N : Nat}
    (h : parent_chain parent u c) (hp : ∀ v, parent.getD v 0 ≤ N) :
    c.length ≤ N + 1 := by
  have hb := chain_mem_bound h hp
  have := nodup_length_le (chain_nodup h) (l := u :: List.range' 1 N)
    (fun x hx => by
      rcases hb x hx with rfl | hb
      · exact List.mem_cons_self _ _
      · exact List.mem_cons_of_mem _ (by rw [List.mem_range'_1]; omega))
  simpa using this

lemma chain_split {parent : List Nat} {u ci : Nat} {c : List Nat}
    (h : parent_chain parent u c) (hmem : ci ∈ c) :
    ∃ pre suf, c = pre ++ ci :: suf ∧ ci ∉ pre ∧
      parent_chain parent (parent.getD ci 0) suf := by
  induction h with
  | nil => exact absurd hmem (List.not_mem_nil ci)
  | cons hu hc ih =>
    rename_i w c'
    rcases List.mem_cons.mp hmem with rfl | hmem
    · exact ⟨[], c', rfl, List.not_mem_nil ci, hc⟩
    · obtain ⟨pre, suf, heq, hpre, hsuf⟩ := ih hmem
      by_cases hwc : ci = w
      · subst hwc
        exact ⟨[], c', rfl, List.not_mem_nil ci, hc⟩
      · refine ⟨w :: pre, suf, by rw [heq]; rfl, ?_, hsuf⟩
        intro hm
        rcases List.mem_cons.mp hm with h | h
        · exact hwc h
        · exact hpre h

lemma chain_set_not_mem {parent : List Nat} {ci y u : Nat} {c : List Nat}
    (h : parent_chain parent u c) (hmem : ci ∉ c) :
    parent_chain (parent.set ci y) u c := by
  induction h with
  | nil => exact parent_chain.nil
  | cons hu hc ih =>
    rename_i w c'
    have hw : ci ≠ w := fun h => hmem (h ▸ List.mem_cons_self w c')
    refine parent_chain.cons hu ?_
    rw [getD_set_ne y hw]
    exact ih (fun h => hmem (List.mem_cons_of_mem w h))

lemma chain_set_trunc {parent : List Nat} {ci u : Nat} {pre suf c : List Nat}
    (h : parent_chain parent u c) (hnd : c.Nodup)
    (heq : c = pre ++ ci :: suf) (hlt : ci < parent.length) :
    parent_chain (parent.set ci 0) u (pre ++ [ci]) := by
  induction h generalizing pre with
  | nil => exact absurd heq.symm (by simp)
  | cons hu hc ih =>
    rename_i w c'
    cases pre with
    | nil =>
      simp only [List.nil_append] at heq
      obtain ⟨rfl, rfl⟩ := List.cons_eq_cons.mp heq
      refine parent_chain.cons hu ?_
      rw [getD_set_eq 0 hlt]
      exact parent_chain.nil
    | cons x pre' =>
      obtain ⟨hwx, heq'⟩ := List.cons_eq_cons.mp heq
      subst hwx
      rw [List.nodup_cons] at hnd
      have hxc : ci ≠ w := by
        intro hx
        apply hnd.1
        rw [heq', ← hx]
        exact List.mem_append_right pre' (List.mem_cons_self ci suf)
      refine parent_chain.cons hu ?_
      rw [getD_set_ne 0 hxc]
      exact ih hnd.2 heq'

lemma chain_set_graft {parent : List Nat} {ci u x : Nat} {c cu : List Nat}
    (h : parent_chain parent x c) (hmem : ci ∈ c)
    (hterm : parent.getD ci 0 = 0) (hlt : ci < parent.length)
    (hcu : parent_chain parent u cu) (hdisj : ci ∉ cu) :
    parent_chain (parent.set ci u) x (c ++ cu) := by
  induction h with
  | nil => exact absurd hmem (List.not_mem_nil ci)
  | cons hu hc ih =>
    rename_i w c'
    rcases List.mem_cons.mp hmem with rfl | hmem2
    · have hc' : c' = [] := chain_zero (hterm ▸ hc)
      subst hc'
      refine parent_chain.cons hu ?_
      rw [getD_set_eq u hlt]
      exact chain_set_not_mem hcu hdisj
    · have hw : ci ≠ w := by
        intro h
        subst h
        have hc0 := hc
        rw [hterm] at hc0
        rw [chain_zero hc0] at hmem2
        exact absurd hmem2 (List.not_mem_nil ci)
      refine parent_chain.cons hu ?_
      rw [getD_set_ne u hw]
      exact ih hmem2

/-- The ancestor chain of `x` computed with the standard fuel
`num_nodes + 1`, which covers every terminating chain. -/
def nchain (t : sparse_tree_t) (x : Nat) : List Nat :=
  anc_stack t.parent (t.num_nodes + 1) x

/-- Sum of `f` over the sample nodes `1..=n`. -/
def Wsum (n : Nat) (f : Nat → Nat) : Nat := ((List.range' 1 n).map f).sum

/-- The total `w`-weight of the sample nodes whose ancestor chain passes
through `v`: the semantic value that `num_leaves[v]` (with `w = 1`) and
`num_tracked_leaves[v]` (with the tracked indicator) maintain. -/
def leaf_weight (t : sparse_tree_t) (w : Nat → Nat) (v : Nat) : Nat :=
  Wsum t.sample_size fun x => if v ∈ nchain t x then w x else 0

lemma Wsum_congr {n : Nat} {f g : Nat → Nat}
    (h : ∀ x, 1 ≤ x → x ≤ n → f x = g x) : Wsum n f = Wsum n g := by
  unfold Wsum
  congr 1
  apply List.map_congr_left
  intro x hx
  rw [List.mem_range'_1] at hx
  exact h x hx.1 (by omega)

lemma sum_map_add (l : List Nat) (f g : Nat → Nat) :
    (l.map fun x => f x + g x).sum = (l.map f).sum + (l.map g).sum := by
  induction l with
  | nil => rfl
  | cons a l ih =>
    simp only [List.map_cons, List.sum_cons, ih]
    omega

lemma Wsum_add (n : Nat) (f g : Nat → Nat) :
    Wsum n (fun x => f x + g x) = Wsum n f + Wsum n g :=
  sum_map_add _ f g

lemma Wsum_zero (n : Nat) : Wsum n (fun _ => 0) = 0 := by
  unfold Wsum
  simp

lemma Wsum_succ (n : Nat) (f : Nat → Nat) :
    Wsum (n + 1) f = Wsum n f + f (n + 1) := by
  unfold Wsum
  rw [List.range'_concat, List.map_append, List.sum_append]
  have h : 1 + 1 * n = n + 1 := by omega
  rw [h]
  simp

lemma Wsum_single {n v : Nat} (f : Nat → Nat) (h1 : 1 ≤ v) (h2 : v ≤ n) :
    Wsum n (fun x => if x = v then f x else 0) = f v := by
  induction n with
  | zero => omega
  | succ m ih =>
    rw [Wsum_succ]
    by_cases hv : v = m + 1
    · subst hv
      rw [if_pos rfl]
      have hz : Wsum m (fun x => if x = m + 1 then f x else 0) = 0 := by
        rw [Wsum_congr (g := fun _ => 0) fun x hx1 hx2 => by
          rw [if_neg (by omega)]]
        exact Wsum_zero m
      omega
    · rw [if_neg (fun h : m + 1 = v => hv h.symm), ih (by omega)]
      exact Nat.add_zero _

/-- The well-formedness invariant of a counting sparse tree: array lengths,
terminating parent chains, mutual parent/children consistency, and the two
count arrays holding the chain-membership weights.  `w` is the per-sample
weight tracked by `num_tracked_leaves` (the tracked-sample indicator). -/
structure sparse_wf (t : sparse_tree_t) (w : Nat → Nat) : Prop where
  plen : t.parent.length = t.num_nodes + 1
  clen : t.children.length = t.num_nodes + 1
  llen : t.num_leaves.length = t.num_nodes + 1
  tllen : t.num_tracked_leaves.length = t.num_nodes + 1
  hn : t.sample_size ≤ t.num_nodes
  flag : t.flag_count_leaves = true
  prange : ∀ v, t.parent.getD v 0 ≤ t.num_nodes
  p0 : t.parent.getD 0 0 = 0
  term : ∀ x, ∃ c, parent_chain t.parent x c
  csample : ∀ v, v ≤ t.sample_size → t.children.getD v (0, 0) = (0, 0)
  cbin : ∀ v, ((t.children.getD v (0, 0)).1 = 0 ↔ (t.children.getD v (0, 0)).2 = 0)
  crange : ∀ v, (t.children.getD v (0, 0)).1 ≤ t.num_nodes ∧
    (t.children.getD v (0, 0)).2 ≤ t.num_nodes
  cne : ∀ v, (t.children.getD v (0, 0)).1 ≠ 0 →
    (t.children.getD v (0, 0)).1 ≠ (t.children.getD v (0, 0)).2
  cp : ∀ v, (t.children.getD v (0, 0)).1 ≠ 0 →
    t.parent.getD (t.children.getD v (0, 0)).1 0 = v ∧
    t.parent.getD (t.children.getD v (0, 0)).2 0 = v
  pc : ∀ x, t.parent.getD x 0 ≠ 0 →
    x = (t.children.getD (t.parent.getD x 0) (0, 0)).1 ∨
    x = (t.children.getD (t.parent.getD x 0) (0, 0)).2
  cl : ∀ v, t.num_leaves.getD v 0 = leaf_weight t (fun _ => 1) v
  ct : ∀ v, t.num_tracked_leaves.getD v 0 = leaf_weight t w v

lemma wf_chain {t : sparse_tree_t} {w : Nat → Nat} (hwf : sparse_wf t w)
    (x : Nat) : parent_chain t.parent x (nchain t x) := by
  obtain ⟨c, hc⟩ := hwf.term x
  rw [nchain, anc_stack_eq_chain hc _ (chain_length_le hc hwf.prange)]
  exact hc

lemma nchain_eq {t : sparse_tree_t} {w : Nat → Nat} (hwf : sparse_wf t w)
    {x : Nat} {c : List Nat} (hc : parent_chain t.parent x c) :
    nchain t x = c :=
  chain_unique (wf_chain hwf x) hc

lemma wf_pred_of_mem {t : sparse_tree_t} {w : Nat → Nat}
    (hwf : sparse_wf t w) {v x : Nat} (hvx : v ≠ x)
    (hmem : v ∈ nchain t x) :
    ∃ y, y ∈ nchain t x ∧ t.parent.getD y 0 = v := by
  have hcx := wf_chain hwf x
  obtain ⟨pre, suf, heq, hpre, hsuf⟩ := chain_split hcx hmem
  rcases List.eq_nil_or_concat pre with rfl | ⟨L, y, rfl⟩
  · rw [List.nil_append] at heq
    exact absurd (chain_head_eq (heq ▸ hcx)) hvx
  · have hsfx : sfx (y :: v :: suf) (nchain t x) := by
      refine ⟨L, ?_⟩
      rw [heq, List.concat_eq_append, List.append_assoc]
      rfl
    have hych := chain_of_suffix hcx y (v :: suf) hsfx
    obtain ⟨c', hc', hch⟩ := chain_head hych (chain_mem_ne_zero hych y
      (List.mem_cons_self y _))
    obtain ⟨-, rfl⟩ := List.cons_eq_cons.mp hc'
    refine ⟨y, ?_, (chain_head_eq hch).symm⟩
    rw [heq, List.concat_eq_append]
    exact List.mem_append_left _ (List.mem_append_right L
      (List.mem_cons_self y []))

lemma wf_mem_cases {t : sparse_tree_t} {w : Nat → Nat}
    (hwf : sparse_wf t w) {v x : Nat} (hmem : v ∈ nchain t x) (hvx : v ≠ x) :
    (t.children.getD v (0, 0)).1 ∈ nchain t x ∨
    (t.children.getD v (0, 0)).2 ∈ nchain t x := by
  obtain ⟨y, hy, hpy⟩ := wf_pred_of_mem hwf hvx hmem
  have hv0 : v ≠ 0 := chain_mem_ne_zero (wf_chain hwf x) v hmem
  have hpy0 : t.parent.getD y 0 ≠ 0 := by rw [hpy]; exact hv0
  rcases hwf.pc y hpy0 with h | h
  · left
    rw [← hpy, ← h]
    exact hy
  · right
    rw [← hpy, ← h]
    exact hy

lemma wf_child_chain {t : sparse_tree_t} {w : Nat → Nat}
    (hwf : sparse_wf t w) {v a : Nat} (ha0 : a ≠ 0)
    (hpa : t.parent.getD a 0 = v) :
    nchain t a = a :: nchain t v := by
  refine nchain_eq hwf (parent_chain.cons ha0 ?_)
  rw [hpa]
  exact wf_chain hwf v

lemma wf_mem_of_child_mem {t : sparse_tree_t} {w : Nat → Nat}
    (hwf : sparse_wf t w) {v x a : Nat} (hv0 : v ≠ 0) (ha0 : a ≠ 0)
    (hpa : t.parent.getD a 0 = v) (hmem : a ∈ nchain t x) :
    v ∈ nchain t x := by
  obtain ⟨ca, hca, hsfx⟩ := chain_suffix_of_mem (wf_chain hwf x) hmem
  rw [← nchain_eq hwf hca, wf_child_chain hwf ha0 hpa] at hsfx
  exact mem_of_sfx hsfx (List.mem_cons_of_mem a (chain_self_mem
    (wf_chain hwf v) hv0))

lemma wf_not_both_children {t : sparse_tree_t} {w : Nat → Nat}
    (hwf : sparse_wf t w) {v x : Nat} (hv0 : v ≠ 0)
    (hch : (t.children.getD v (0, 0)).1 ≠ 0) :
    ¬((t.children.getD v (0, 0)).1 ∈ nchain t x ∧
      (t.children.getD v (0, 0)).2 ∈ nchain t x) := by
  rintro ⟨ha, hb⟩
  have hb0 : (t.children.getD v (0, 0)).2 ≠ 0 := fun h =>
    hch ((hwf.cbin v).mpr h)
  have hab := hwf.cne v hch
  obtain ⟨hpa, hpb⟩ := hwf.cp v hch
  obtain ⟨ca, hca, hsfxa⟩ := chain_suffix_of_mem (wf_chain hwf x) ha
  obtain ⟨cb, hcb, hsfxb⟩ := chain_suffix_of_mem (wf_chain hwf x) hb
  rw [← nchain_eq hwf hca, wf_child_chain hwf (fun h => hch h) hpa] at hsfxa
  rw [← nchain_eq hwf hcb, wf_child_chain hwf hb0 hpb] at hsfxb
  have hlen : ((t.children.getD v (0, 0)).1 :: nchain t v).length ≤
      ((t.children.getD v (0, 0)).2 :: nchain t v).length := by simp
  have := sfx_eq_of_length (sfx_total hsfxa hsfxb hlen) (by simp)
  exact hab (List.cons_eq_cons.mp this).1

lemma leaf_weight_sample {t : sparse_tree_t} {w wv : Nat → Nat}
    (hwf : sparse_wf t w) {v : Nat} (h1 : 1 ≤ v) (h2 : v ≤ t.sample_size) :
    leaf_weight t wv v = wv v := by
  unfold leaf_weight
  rw [Wsum_congr (g := fun x => if x = v then wv x else 0) ?_]
  · exact Wsum_single wv h1 h2
  · intro x hx1 hxn
    dsimp only
    by_cases hxv : x = v
    · subst hxv
      rw [if_pos (chain_self_mem (wf_chain hwf x) (by omega)), if_pos rfl]
    · rw [if_neg hxv]
      rw [if_neg ?_]
      intro hmem
      rcases wf_mem_cases hwf hmem (fun h => hxv h.symm) with h | h <;>
        rw [hwf.csample v h2] at h <;>
        exact chain_mem_ne_zero (wf_chain hwf x) _ h rfl

lemma leaf_weight_internal {t : sparse_tree_t} {w wv : Nat → Nat}
    (hwf : sparse_wf t w) {v : Nat} (hv0 : v ≠ 0)
    (hch : (t.children.getD v (0, 0)).1 ≠ 0) :
    leaf_weight t wv v = leaf_weight t wv (t.children.getD v (0, 0)).1 +
      leaf_weight t wv (t.children.getD v (0, 0)).2 := by
  have hb0 : (t.children.getD v (0, 0)).2 ≠ 0 := fun h =>
    hch ((hwf.cbin v).mpr h)
  obtain ⟨hpa, hpb⟩ := hwf.cp v hch
  unfold leaf_weight
  rw [← Wsum_add]
  apply Wsum_congr
  intro x hx1 hxn
  dsimp only
  have hvx : v ≠ x := by
    intro h
    rw [hwf.csample v (h ▸ hxn)] at hch
    exact hch rfl
  by_cases ha : (t.children.getD v (0, 0)).1 ∈ nchain t x <;>
    by_cases hb : (t.children.getD v (0, 0)).2 ∈ nchain t x
  · exact absurd ⟨ha, hb⟩ (wf_not_both_children hwf hv0 hch)
  · rw [if_pos (wf_mem_of_child_mem hwf hv0 hch hpa ha), if_pos ha,
      if_neg hb]
    exact (Nat.add_zero _).symm
  · rw [if_pos (wf_mem_of_child_mem hwf hv0 hb0 hpb hb), if_neg ha,
      if_pos hb]
    exact (Nat.zero_add _).symm
  · rw [if_neg ?_, if_neg ha, if_neg hb]
    intro hmem
    rcases wf_mem_cases hwf hmem hvx with h | h
    · exact ha h
    · exact hb h

lemma leaf_weight_childless {t : sparse_tree_t} {w wv : Nat → Nat}
    (hwf : sparse_wf t w) {v : Nat} (hv : ¬(1 ≤ v ∧ v ≤ t.sample_size))
    (hch : (t.children.getD v (0, 0)).1 = 0) :
    leaf_weight t wv v = 0 := by
  unfold leaf_weight
  rw [Wsum_congr (g := fun _ => 0) ?_]
  · exact Wsum_zero _
  · intro x hx1 hxn
    dsimp only
    rw [if_neg ?_]
    intro hmem
    have hvx : v ≠ x := by omega
    rcases wf_mem_cases hwf hmem hvx with h | h
    · rw [hch] at h
      exact chain_mem_ne_zero (wf_chain hwf x) _ h rfl
    · rw [(hwf.cbin v).mp hch] at h
      exact chain_mem_ne_zero (wf_chain hwf x) _ h rfl

lemma chain_update_length (p : List Nat) (f : Nat → Nat) :
    ∀ (fuel v : Nat) (arr : List Nat),
      (chain_update p f fuel v arr).length = arr.length := by
  intro fuel
  induction fuel with
  | zero => intro v arr; rfl
  | succ g ih =>
    intro v arr
    rw [chain_update]
    split
    · rfl
    · rw [ih, List.length_set]

lemma chain_update_getD {p : List Nat} {f : Nat → Nat} {u : Nat}
    {c : List Nat} (h : parent_chain p u c) (hnd : c.Nodup) :
    ∀ (fuel : Nat) (arr : List Nat), c.length ≤ fuel →
      (∀ x ∈ c, x < arr.length) → ∀ v,
      (chain_update p f fuel u arr).getD v 0 =
        if v ∈ c then f (arr.getD v 0) else arr.getD v 0 := by
  induction h with
  | nil =>
    intro fuel arr hf hlen v
    rw [if_neg (List.not_mem_nil v)]
    cases fuel with
    | zero => rfl
    | succ g => rw [chain_update, if_pos rfl]
  | cons hu hc ih =>
    rename_i z c'
    intro fuel arr hf hlen v
    cases fuel with
    | zero => simp at hf
    | succ g =>
      rw [chain_update, if_neg hu]
      rw [List.nodup_cons] at hnd
      have hrec := ih hnd.2 g (arr.set z (f (arr.getD z 0)))
        (by simp at hf; omega)
        (by
          intro x hx
          rw [List.length_set]
          exact hlen x (List.mem_cons_of_mem z hx)) v
      rw [hrec]
      by_cases hvc : v ∈ c'
      · have hvz : z ≠ v := fun h => hnd.1 (h ▸ hvc)
        rw [if_pos hvc, if_pos (List.mem_cons_of_mem z hvc),
          getD_set_ne _ hvz]
      · rw [if_neg hvc]
        by_cases hvz : v = z
        · subst hvz
          rw [if_pos (List.mem_cons_self v c'),
            getD_set_eq _ (hlen v (List.mem_cons_self v c'))]
        · rw [if_neg (fun hm => by
            rcases List.mem_cons.mp hm with h | h
            · exact hvz h
            · exact hvc h), getD_set_ne _ (fun h => hvz h.symm)]

lemma wf_sfx_of_mem {t : sparse_tree_t} {w : Nat → Nat}
    (hwf : sparse_wf t w) {a x : Nat} (hmem : a ∈ nchain t x) :
    sfx (nchain t a) (nchain t x) := by
  obtain ⟨ca, hca, hsfx⟩ := chain_suffix_of_mem (wf_chain hwf x) hmem
  rw [← nchain_eq hwf hca] at hsfx
  exact hsfx

lemma wf_child_not_mem_parent {t : sparse_tree_t} {w : Nat → Nat}
    (hwf : sparse_wf t w) {ci u : Nat} (h0 : ci ≠ 0)
    (hp : t.parent.getD ci 0 = u) : ci ∉ nchain t u := by
  intro hmem
  have hsfx := wf_sfx_of_mem hwf hmem
  rw [wf_child_chain hwf h0 hp] at hsfx
  have := sfx_length hsfx
  simp at this

lemma wf_mem_parent_iff {t : sparse_tree_t} {w : Nat → Nat}
    (hwf : sparse_wf t w) {u c0 c1 x : Nat}
    (hch : t.children.getD u (0, 0) = (c0, c1)) (hc00 : c0 ≠ 0)
    (hu0 : u ≠ 0) (hux : u ≠ x) :
    u ∈ nchain t x ↔ (c0 ∈ nchain t x ∨ c1 ∈ nchain t x) := by
  have hc10 : c1 ≠ 0 := by
    intro h
    have := (hwf.cbin u).mpr (by rw [hch, h])
    rw [hch] at this
    exact hc00 this
  obtain ⟨hpa, hpb⟩ := hwf.cp u (by rw [hch]; exact hc00)
  rw [hch] at hpa hpb
  constructor
  · intro hu
    have := wf_mem_cases hwf hu hux
    rw [hch] at this
    exact this
  · rintro (h | h)
    · exact wf_mem_of_child_mem hwf hu0 hc00 hpa h
    · exact wf_mem_of_child_mem hwf hu0 hc10 hpb h

lemma split_mem_char {pre suf : List Nat} {ci v : Nat}
    (hnd : (pre ++ ci :: suf).Nodup) (hci : ci ∉ suf) :
    (v ∈ pre ++ [ci] ↔ v ∈ pre ++ ci :: suf ∧ v ∉ suf) := by
  rw [List.nodup_append] at hnd
  constructor
  · intro hm
    rcases List.mem_append.mp hm with h | h
    · refine ⟨List.mem_append_left _ h, fun hs => ?_⟩
      exact hnd.2.2 h (List.mem_cons_of_mem ci hs)
    · rcases List.mem_cons.mp h with rfl | h
      · exact ⟨List.mem_append_right _ (List.mem_cons_self _ _), hci⟩
      · exact absurd h (List.not_mem_nil v)
  · rintro ⟨hm, hns⟩
    rcases List.mem_append.mp hm with h | h
    · exact List.mem_append_left _ h
    · rcases List.mem_cons.mp h with rfl | h
      · exact List.mem_append_right _ (List.mem_cons_self _ _)
      · exact absurd h hns

/-- The effect of one record removal on an arbitrary node's parent chain:
the new parent array still gives every node a terminating chain and, for
nodes other than the removed record's node `u`, the new chain holds exactly
the old chain members that are not strict ancestors via `u` (the chain is
cut where it entered `u` through one of the two detached children). -/
lemma remove_new_chain {t : sparse_tree_t} {w : Nat → Nat}
    (hwf : sparse_wf t w) {u c0 c1 : Nat}
    (hch : t.children.getD u (0, 0) = (c0, c1)) (hc00 : c0 ≠ 0)
    (hu0 : u ≠ 0) (x : Nat) :
    ∃ c2, parent_chain ((t.parent.set c0 0).set c1 0) x c2 ∧
      (x ≠ u → ∀ v, (v ∈ c2 ↔ v ∈ nchain t x ∧
        (u ∈ nchain t x → v ∉ nchain t u))) := by
  have hc10 : c1 ≠ 0 := by
    intro h
    have := (hwf.cbin u).mpr (by rw [hch, h])
    rw [hch] at this
    exact hc00 this
  obtain ⟨hpa, hpb⟩ := hwf.cp u (by rw [hch]; exact hc00)
  rw [hch] at hpa hpb
  have hab : c0 ≠ c1 := by
    have := hwf.cne u (by rw [hch]; exact hc00)
    rw [hch] at this
    exact this
  have hc0N : c0 < t.parent.length := by
    have := (hwf.crange u).1
    rw [hch] at this
    rw [hwf.plen]
    omega
  have hc1N : c1 < t.parent.length := by
    have := (hwf.crange u).2
    rw [hch] at this
    rw [hwf.plen]
    omega
  have hc0U : c0 ∉ nchain t u := wf_child_not_mem_parent hwf hc00 hpa
  have hc1U : c1 ∉ nchain t u := wf_child_not_mem_parent hwf hc10 hpb
  have hnotboth : ¬(c0 ∈ nchain t x ∧ c1 ∈ nchain t x) := by
    have := wf_not_both_children hwf (v := u) (x := x) hu0
      (by rw [hch]; exact hc00)
    rw [hch] at this
    exact this
  by_cases h0 : c0 ∈ nchain t x
  · have h1 : c1 ∉ nchain t x := fun h => hnotboth ⟨h0, h⟩
    obtain ⟨pre, suf, heq, hpre, hsuf⟩ := chain_split (wf_chain hwf x) h0
    rw [hpa] at hsuf
    have hsufU : suf = nchain t u := (nchain_eq hwf hsuf).symm
    have htr := chain_set_trunc (wf_chain hwf x)
      (chain_nodup (wf_chain hwf x)) heq hc0N
    have hc1pre : c1 ∉ pre ++ [c0] := by
      intro hm
      rcases List.mem_append.mp hm with h | h
      · exact h1 (by rw [heq]; exact List.mem_append_left _ h)
      · rcases List.mem_cons.mp h with h | h
        · exact hab h.symm
        · exact absurd h (List.not_mem_nil c1)
    refine ⟨pre ++ [c0], chain_set_not_mem htr hc1pre, ?_⟩
    intro hxu v
    have hnd := chain_nodup (wf_chain hwf x)
    rw [heq] at hnd
    have hchar := @split_mem_char pre suf c0 v hnd
      (by rw [hsufU]; exact hc0U)
    rw [hchar]
    have hux : u ∈ nchain t x := by
      rw [wf_mem_parent_iff hwf hch hc00 hu0 (fun h => hxu h.symm)]
      exact Or.inl h0
    rw [← heq, ← hsufU]
    constructor
    · rintro ⟨hm, hns⟩
      exact ⟨hm, fun _ => hns⟩
    · rintro ⟨hm, hns⟩
      exact ⟨hm, hns hux⟩
  · by_cases h1 : c1 ∈ nchain t x
    · have hcx' : parent_chain (t.parent.set c0 0) x (nchain t x) :=
        chain_set_not_mem (wf_chain hwf x) h0
      obtain ⟨pre, suf, heq, hpre, hsuf⟩ := chain_split hcx' h1
      rw [getD_set_ne 0 hab, hpb] at hsuf
      have hU' : parent_chain (t.parent.set c0 0) u (nchain t u) :=
        chain_set_not_mem (wf_chain hwf u) hc0U
      have hsufU : suf = nchain t u := chain_unique hsuf hU'
      have htr := chain_set_trunc hcx' (chain_nodup hcx') heq
        (by rw [List.length_set]; exact hc1N)
      refine ⟨pre ++ [c1], htr, ?_⟩
      intro hxu v
      have hnd := chain_nodup hcx'
      rw [heq] at hnd
      have hchar := @split_mem_char pre suf c1 v hnd
        (by rw [hsufU]; exact hc1U)
      rw [hchar]
      have hux : u ∈ nchain t x := by
        rw [wf_mem_parent_iff hwf hch hc00 hu0 (fun h => hxu h.symm)]
        exact Or.inr h1
      rw [← heq, ← hsufU]
      constructor
      · rintro ⟨hm, hns⟩
        exact ⟨hm, fun _ => hns⟩
      · rintro ⟨hm, hns⟩
        exact ⟨hm, hns hux⟩
    · refine ⟨nchain t x,
        chain_set_not_mem (chain_set_not_mem (wf_chain hwf x) h0) h1, ?_⟩
      intro hxu v
      have hnu : u ∉ nchain t x := by
        rw [wf_mem_parent_iff hwf hch hc00 hu0 (fun h => hxu h.symm)]
        rintro (h | h)
        · exact h0 h
        · exact h1 h
      constructor
      · intro hm
        exact ⟨hm, fun h => absurd h hnu⟩
      · rintro ⟨hm, -⟩
        exact hm

lemma remove_record_fields {t : sparse_tree_t}
    (hflag : t.flag_count_leaves = true) (u c0 c1 : Nat) :
    sparse_tree_remove_record t u c0 c1 = { t with
      parent := (t.parent.set c0 0).set c1 0
      children := t.children.set u (0, 0)
      time := t.time.set u 0
      root := if u = t.root then max c0 c1 else t.root
      num_leaves := chain_update ((t.parent.set c0 0).set c1 0)
        (fun x => x - t.num_leaves.getD u 0) (t.num_nodes + 1) u t.num_leaves
      num_tracked_leaves := chain_update ((t.parent.set c0 0).set c1 0)
        (fun x => x - t.num_tracked_leaves.getD u 0) (t.num_nodes + 1) u
        t.num_tracked_leaves } := by
  unfold sparse_tree_remove_record
  rw [hflag]
  rfl

lemma remove_p2_getD {p : List Nat} {c0 c1 : Nat} (hab : c0 ≠ c1)
    (hc0N : c0 < p.length) (hc1N : c1 < p.length) (v : Nat) :
    ((p.set c0 0).set c1 0).getD v 0 =
      if v = c0 ∨ v = c1 then 0 else p.getD v 0 := by
  by_cases h1 : v = c1
  · subst h1
    rw [getD_set_eq 0 (by rw [List.length_set]; exact hc1N),
      if_pos (Or.inr rfl)]
  · rw [getD_set_ne 0 (fun h => h1 h.symm)]
    by_cases h0 : v = c0
    · subst h0
      rw [getD_set_eq 0 hc0N, if_pos (Or.inl rfl)]
    · rw [getD_set_ne 0 (fun h => h0 h.symm),
        if_neg (by rintro (h | h); exact h0 h; exact h1 h)]

/-- Correctness of the subtractive count propagation of a record removal:
applied to a count array holding the chain-membership weights of the old
tree, `chain_update` along the removed node's chain produces the
chain-membership weights of the new tree. -/
lemma remove_counts {t t2 : sparse_tree_t} {w : Nat → Nat}
    (hwf : sparse_wf t w) {u c0 c1 : Nat}
    (hch : t.children.getD u (0, 0) = (c0, c1)) (hc00 : c0 ≠ 0)
    (hu0 : u ≠ 0) (huN : u ≤ t.num_nodes) (hun : t.sample_size < u)
    (ht2p : t2.parent = (t.parent.set c0 0).set c1 0)
    (ht2n : t2.num_nodes = t.num_nodes)
    (ht2s : t2.sample_size = t.sample_size)
    (arr : List Nat) (wv : Nat → Nat)
    (hlen : arr.length = t.num_nodes + 1)
    (hcnt : ∀ v, arr.getD v 0 = leaf_weight t wv v) :
    ∀ v, (chain_update ((t.parent.set c0 0).set c1 0)
        (fun z => z - arr.getD u 0) (t.num_nodes + 1) u arr).getD v 0 =
      leaf_weight t2 wv v := by
  have hc10 : c1 ≠ 0 := by
    intro h
    have := (hwf.cbin u).mpr (by rw [hch, h])
    rw [hch] at this
    exact hc00 this
  obtain ⟨hpa, hpb⟩ := hwf.cp u (by rw [hch]; exact hc00)
  rw [hch] at hpa hpb
  have hab : c0 ≠ c1 := by
    have := hwf.cne u (by rw [hch]; exact hc00)
    rw [hch] at this
    exact this
  have hc0N : c0 < t.parent.length := by
    have := (hwf.crange u).1
    rw [hch] at this
    rw [hwf.plen]
    omega
  have hc1N : c1 < t.parent.length := by
    have := (hwf.crange u).2
    rw [hch] at this
    rw [hwf.plen]
    omega
  have hc0U : c0 ∉ nchain t u := wf_child_not_mem_parent hwf hc00 hpa
  have hc1U : c1 ∉ nchain t u := wf_child_not_mem_parent hwf hc10 hpb
  have hprange2 : ∀ v,
      ((t.parent.set c0 0).set c1 0).getD v 0 ≤ t.num_nodes := by
    intro v
    rw [remove_p2_getD hab hc0N hc1N]
    split
    · omega
    · exact hwf.prange v
  have hnx : ∀ x, x ≠ u → ∀ v', (v' ∈ nchain t2 x ↔ (v' ∈ nchain t x ∧
      (u ∈ nchain t x → v' ∉ nchain t u))) := by
    intro x hxu
    obtain ⟨c2, hc2, hcharx⟩ := remove_new_chain hwf hch hc00 hu0 x
    have heq2 : nchain t2 x = c2 := by
      rw [nchain, ht2p, ht2n]
      exact anc_stack_eq_chain hc2 _ (chain_length_le hc2 hprange2)
    rw [heq2]
    exact hcharx hxu
  have hU2 : parent_chain ((t.parent.set c0 0).set c1 0) u (nchain t u) :=
    chain_set_not_mem (chain_set_not_mem (wf_chain hwf u) hc0U) hc1U
  have hupd := chain_update_getD (f := fun z => z - arr.getD u 0) hU2
    (chain_nodup (wf_chain hwf u)) (t.num_nodes + 1) arr
    (chain_length_le (wf_chain hwf u) hwf.prange)
    (by
      intro x hx
      rw [hlen]
      rcases chain_mem_bound (wf_chain hwf u) hwf.prange x hx with rfl | hb
      · omega
      · omega)
  intro v
  rw [hupd v]
  by_cases hvU : v ∈ nchain t u
  · rw [if_pos hvU]
    dsimp only
    have hWv : leaf_weight t wv v = leaf_weight t2 wv v +
        leaf_weight t wv u := by
      unfold leaf_weight
      rw [ht2s, ← Wsum_add]
      apply Wsum_congr
      intro x hx1 hxn
      dsimp only
      have hxu : x ≠ u := by omega
      by_cases hu : u ∈ nchain t x
      · have hvmem : v ∈ nchain t x := mem_of_sfx (wf_sfx_of_mem hwf hu) hvU
        rw [if_pos hvmem, if_pos hu, if_neg (by
          rw [hnx x hxu v]
          rintro ⟨-, hni⟩
          exact hni hu hvU)]
        omega
      · rw [if_neg hu]
        by_cases hv : v ∈ nchain t x
        · rw [if_pos hv, if_pos (by
            rw [hnx x hxu v]
            exact ⟨hv, fun h => absurd h hu⟩)]
          omega
        · rw [if_neg hv, if_neg (by
            rw [hnx x hxu v]
            rintro ⟨h, -⟩
            exact hv h)]
    rw [hcnt v, hcnt u, hWv]
    omega
  · rw [if_neg hvU, hcnt v]
    unfold leaf_weight
    rw [ht2s]
    apply Wsum_congr
    intro x hx1 hxn
    dsimp only
    have hxu : x ≠ u := by omega
    by_cases hv : v ∈ nchain t x
    · rw [if_pos hv, if_pos (by
        rw [hnx x hxu v]
        exact ⟨hv, fun _ => hvU⟩)]
    · rw [if_neg hv, if_neg (by
        rw [hnx x hxu v]
        rintro ⟨h, -⟩
        exact hv h)]

lemma getD_set_eq' {α : Type} {l : List α} {i : Nat} (a d : α)
    (h : i < l.length) : (l.set i a).getD i d = a := by
  rw [List.getD_eq_getElem?_getD, List.getElem?_set, if_pos rfl, if_pos h]
  rfl

lemma getD_set_ne' {α : Type} {l : List α} {i j : Nat} (a d : α)
    (h : i ≠ j) : (l.set i a).getD j d = l.getD j d := by
  rw [List.getD_eq_getElem?_getD, List.getElem?_set, if_neg h,
    ← List.getD_eq_getElem?_getD]

/-- Validity of a record about to be removed from the current tree: its node
is an in-range internal node whose child slots hold exactly the record's two
(nonzero) children.  This is the state `sparse_tree_iterator_next` finds the
tree in when it removes a record of a genuine tree sequence. -/
def rem_ok (t : sparse_tree_t) (u c0 c1 : Nat) : Prop :=
  1 ≤ u ∧ u ≤ t.num_nodes ∧ t.sample_size < u ∧
  t.children.getD u (0, 0) = (c0, c1) ∧ c0 ≠ 0

instance rem_ok_dec (t : sparse_tree_t) (u c0 c1 : Nat) :
    Decidable (rem_ok t u c0 c1) := by
  unfold rem_ok
  infer_instance

/-- One record removal preserves the counting invariant. -/
lemma sparse_remove_wf {t : sparse_tree_t} {w : Nat → Nat}
    (hwf : sparse_wf t w) {u c0 c1 : Nat} (hok : rem_ok t u c0 c1) :
    sparse_wf (sparse_tree_remove_record t u c0 c1) w := by
  obtain ⟨hu1, huN, hun, hch, hc00⟩ := hok
  have hu0 : u ≠ 0 := by omega
  have hc10 : c1 ≠ 0 := by
    intro h
    have := (hwf.cbin u).mpr (by rw [hch, h])
    rw [hch] at this
    exact hc00 this
  obtain ⟨hpa, hpb⟩ := hwf.cp u (by rw [hch]; exact hc00)
  rw [hch] at hpa hpb
  have hab : c0 ≠ c1 := by
    have := hwf.cne u (by rw [hch]; exact hc00)
    rw [hch] at this
    exact this
  have hc0N : c0 < t.parent.length := by
    have := (hwf.crange u).1
    rw [hch] at this
    rw [hwf.plen]
    omega
  have hc1N : c1 < t.parent.length := by
    have := (hwf.crange u).2
    rw [hch] at this
    rw [hwf.plen]
    omega
  have hult : u < t.children.length := by
    rw [hwf.clen]
    omega
  rw [remove_record_fields hwf.flag]
  refine ⟨?_, ?_, ?_, ?_, ?_, ?_, ?_, ?_, ?_, ?_, ?_, ?_, ?_, ?_, ?_, ?_, ?_⟩
    <;> dsimp only
  · simp only [List.length_set, hwf.plen]
  · simp only [List.length_set, hwf.clen]
  · rw [chain_update_length, hwf.llen]
  · rw [chain_update_length, hwf.tllen]
  · exact hwf.hn
  · exact hwf.flag
  · intro v
    rw [remove_p2_getD hab hc0N hc1N]
    split
    · omega
    · exact hwf.prange v
  · rw [remove_p2_getD hab hc0N hc1N, if_neg (by
      rintro (h | h)
      · exact hc00 h.symm
      · exact hc10 h.symm)]
    exact hwf.p0
  · intro x
    obtain ⟨c2, hc2, -⟩ := remove_new_chain hwf hch hc00 hu0 x
    exact ⟨c2, hc2⟩
  · intro v hv
    rw [getD_set_ne' (0, 0) (0, 0) (by omega : u ≠ v)]
    exact hwf.csample v hv
  · intro v
    by_cases hvu : v = u
    · subst hvu
      rw [getD_set_eq' (0, 0) (0, 0) hult]
    · rw [getD_set_ne' (0, 0) (0, 0) (fun h => hvu h.symm)]
      exact hwf.cbin v
  · intro v
    by_cases hvu : v = u
    · subst hvu
      rw [getD_set_eq' (0, 0) (0, 0) hult]
      exact ⟨by omega, by omega⟩
    · rw [getD_set_ne' (0, 0) (0, 0) (fun h => hvu h.symm)]
      exact hwf.crange v
  · intro v
    by_cases hvu : v = u
    · subst hvu
      rw [getD_set_eq' (0, 0) (0, 0) hult]
      intro h
      exact absurd rfl h
    · rw [getD_set_ne' (0, 0) (0, 0) (fun h => hvu h.symm)]
      exact hwf.cne v
  · intro v hv1
    by_cases hvu : v = u
    · subst hvu
      rw [getD_set_eq' (0, 0) (0, 0) hult] at hv1
      exact absurd rfl hv1
    · rw [getD_set_ne' (0, 0) (0, 0) (fun h => hvu h.symm)] at hv1 ⊢
      obtain ⟨h1, h2⟩ := hwf.cp v hv1
      constructor
      · rw [remove_p2_getD hab hc0N hc1N, if_neg (by
          rintro (h | h)
          · rw [h] at h1
            exact hvu (h1.symm.trans hpa)
          · rw [h] at h1
            exact hvu (h1.symm.trans hpb))]
        exact h1
      · rw [remove_p2_getD hab hc0N hc1N, if_neg (by
          rintro (h | h)
          · rw [h] at h2
            exact hvu (h2.symm.trans hpa)
          · rw [h] at h2
            exact hvu (h2.symm.trans hpb))]
        exact h2
  · intro x hx1
    rw [remove_p2_getD hab hc0N hc1N] at hx1 ⊢
    by_cases hA : x = c0 ∨ x = c1
    · rw [if_pos hA] at hx1
      exact absurd rfl hx1
    · rw [if_neg hA] at hx1 ⊢
      have hpu : t.parent.getD x 0 ≠ u := by
        intro h
        rcases hwf.pc x hx1 with hx | hx <;> rw [h, hch] at hx
        · exact hA (Or.inl hx)
        · exact hA (Or.inr hx)
      rw [getD_set_ne' (0, 0) (0, 0) (fun h => hpu h.symm)]
      exact hwf.pc x hx1
  · intro v
    refine remove_counts hwf hch hc00 hu0 huN hun ?_ ?_ ?_
      t.num_leaves (fun _ => 1) hwf.llen hwf.cl v <;> rfl
  · intro v
    refine remove_counts hwf hch hc00 hu0 huN hun ?_ ?_ ?_
      t.num_tracked_leaves w hwf.tllen hwf.ct v <;> rfl

lemma insert_record_fields {t : sparse_tree_t}
    (hflag : t.flag_count_leaves = true) (u c0 c1 : Nat) (tk : Int) :
    sparse_tree_insert_record t u c0 c1 tk = { t with
      parent := (t.parent.set c0 u).set c1 u
      children := t.children.set u (c0, c1)
      time := t.time.set u tk
      root := if u > t.root then u else t.root
      num_leaves := chain_update ((t.parent.set c0 u).set c1 u)
        (fun x => x + (t.num_leaves.getD c0 0 + t.num_leaves.getD c1 0))
        (t.num_nodes + 1) u t.num_leaves
      num_tracked_leaves := chain_update ((t.parent.set c0 u).set c1 u)
        (fun x => x + (t.num_tracked_leaves.getD c0 0 +
          t.num_tracked_leaves.getD c1 0))
        (t.num_nodes + 1) u t.num_tracked_leaves } := by
  unfold sparse_tree_insert_record
  rw [hflag]
  rfl

lemma insert_p2_getD {p : List Nat} {c0 c1 : Nat} (u : Nat) (hab : c0 ≠ c1)
    (hc0N : c0 < p.length) (hc1N : c1 < p.length) (v : Nat) :
    ((p.set c0 u).set c1 u).getD v 0 =
      if v = c0 ∨ v = c1 then u else p.getD v 0 := by
  by_cases h1 : v = c1
  · subst h1
    rw [getD_set_eq u (by rw [List.length_set]; exact hc1N),
      if_pos (Or.inr rfl)]
  · rw [getD_set_ne u (fun h => h1 h.symm)]
    by_cases h0 : v = c0
    · subst h0
      rw [getD_set_eq u hc0N, if_pos (Or.inl rfl)]
    · rw [getD_set_ne u (fun h => h0 h.symm),
        if_neg (by rintro (h | h); exact h0 h; exact h1 h)]

lemma root_singleton_chain {t : sparse_tree_t} {w : Nat → Nat}
    (hwf : sparse_wf t w) {ci : Nat} (hci0 : ci ≠ 0)
    (hp0 : t.parent.getD ci 0 = 0) : nchain t ci = [ci] :=
  nchain_eq hwf (parent_chain.cons hci0 (by rw [hp0]; exact parent_chain.nil))

lemma insert_not_both {t : sparse_tree_t} {w : Nat → Nat}
    (hwf : sparse_wf t w) {c0 c1 x : Nat} (hc00 : c0 ≠ 0) (hc10 : c1 ≠ 0)
    (hab : c0 ≠ c1) (hp0 : t.parent.getD c0 0 = 0)
    (hp1 : t.parent.getD c1 0 = 0) :
    ¬(c0 ∈ nchain t x ∧ c1 ∈ nchain t x) := by
  rintro ⟨h0, h1⟩
  have hs0 : sfx [c0] (nchain t x) := by
    rw [← root_singleton_chain hwf hc00 hp0]
    exact wf_sfx_of_mem hwf h0
  have hs1 : sfx [c1] (nchain t x) := by
    rw [← root_singleton_chain hwf hc10 hp1]
    exact wf_sfx_of_mem hwf h1
  have := sfx_eq_of_length (sfx_total hs0 hs1 (by simp)) (by simp)
  exact hab (List.cons_eq_cons.mp this).1

lemma insert_disjoint {t : sparse_tree_t} {w : Nat → Nat}
    (hwf : sparse_wf t w) {u ci x v : Nat} (hci0 : ci ≠ 0)
    (hp0 : t.parent.getD ci 0 = 0) (hdisj : ci ∉ nchain t u)
    (hcx : ci ∈ nchain t x) (hvU : v ∈ nchain t u) : v ∉ nchain t x := by
  intro hvx
  have hs1 : sfx [ci] (nchain t x) := by
    rw [← root_singleton_chain hwf hci0 hp0]
    exact wf_sfx_of_mem hwf hcx
  have hs2 : sfx (nchain t v) (nchain t x) := wf_sfx_of_mem hwf hvx
  have hv0 : v ≠ 0 := chain_mem_ne_zero (wf_chain hwf u) v hvU
  have hvmem : v ∈ nchain t v := chain_self_mem (wf_chain hwf v) hv0
  have hlen1 : 1 ≤ (nchain t v).length :=
    List.length_pos.mpr (List.ne_nil_of_mem hvmem)
  have hmem := mem_of_sfx (sfx_total hs1 hs2 (by simp; omega))
    (List.mem_cons_self ci [])
  exact hdisj (mem_of_sfx (wf_sfx_of_mem hwf hvU) hmem)

/-- The effect of one record insertion on an arbitrary node's parent chain:
every node keeps a terminating chain, and the new chain holds the old chain
members plus — when the old chain ended in one of the two grafted
children — the members of the inserted node's chain. -/
lemma insert_new_chain {t : sparse_tree_t} {w : Nat → Nat}
    (hwf : sparse_wf t w) {u c0 c1 : Nat}
    (hc00 : c0 ≠ 0) (hc10 : c1 ≠ 0) (hab : c0 ≠ c1)
    (hc0N : c0 < t.parent.length) (hc1N : c1 < t.parent.length)
    (hp0 : t.parent.getD c0 0 = 0) (hp1 : t.parent.getD c1 0 = 0)
    (hd0 : c0 ∉ nchain t u) (hd1 : c1 ∉ nchain t u) (x : Nat) :
    ∃ c2, parent_chain ((t.parent.set c0 u).set c1 u) x c2 ∧
      ∀ v, (v ∈ c2 ↔ (v ∈ nchain t x ∨
        ((c0 ∈ nchain t x ∨ c1 ∈ nchain t x) ∧ v ∈ nchain t u))) := by
  have hnotboth := insert_not_both (x := x) hwf hc00 hc10 hab hp0 hp1
  by_cases h0 : c0 ∈ nchain t x
  · have h1 : c1 ∉ nchain t x := fun h => hnotboth ⟨h0, h⟩
    have hg := chain_set_graft (wf_chain hwf x) h0 hp0 hc0N
      (wf_chain hwf u) hd0
    have hc1m : c1 ∉ nchain t x ++ nchain t u := by
      intro hm
      rcases List.mem_append.mp hm with h | h
      · exact h1 h
      · exact hd1 h
    refine ⟨nchain t x ++ nchain t u, chain_set_not_mem hg hc1m, ?_⟩
    intro v
    rw [List.mem_append]
    constructor
    · rintro (h | h)
      · exact Or.inl h
      · exact Or.inr ⟨Or.inl h0, h⟩
    · rintro (h | ⟨-, h⟩)
      · exact Or.inl h
      · exact Or.inr h
  · by_cases h1 : c1 ∈ nchain t x
    · have hcx' : parent_chain (t.parent.set c0 u) x (nchain t x) :=
        chain_set_not_mem (wf_chain hwf x) h0
      have hU' : parent_chain (t.parent.set c0 u) u (nchain t u) :=
        chain_set_not_mem (wf_chain hwf u) hd0
      have hg := chain_set_graft hcx' h1
        (by rw [getD_set_ne u hab]; exact hp1)
        (by rw [List.length_set]; exact hc1N) hU' hd1
      refine ⟨nchain t x ++ nchain t u, hg, ?_⟩
      intro v
      rw [List.mem_append]
      constructor
      · rintro (h | h)
        · exact Or.inl h
        · exact Or.inr ⟨Or.inr h1, h⟩
      · rintro (h | ⟨-, h⟩)
        · exact Or.inl h
        · exact Or.inr h
    · refine ⟨nchain t x,
        chain_set_not_mem (chain_set_not_mem (wf_chain hwf x) h0) h1, ?_⟩
      intro v
      constructor
      · intro hm
        exact Or.inl hm
      · rintro (h | ⟨h | h, -⟩)
        · exact h
        · exact absurd h h0
        · exact absurd h h1

/-- Correctness of the additive count propagation of a record insertion:
applied to a count array holding the chain-membership weights of the old
tree, `chain_update` along the inserted node's chain produces the
chain-membership weights of the new tree. -/
lemma insert_counts {t t2 : sparse_tree_t} {w : Nat → Nat}
    (hwf : sparse_wf t w) {u c0 c1 : Nat}
    (hu0 : u ≠ 0) (huN : u ≤ t.num_nodes) (hun : t.sample_size < u)
    (hc00 : c0 ≠ 0) (hc10 : c1 ≠ 0) (hab : c0 ≠ c1)
    (hc0N : c0 ≤ t.num_nodes) (hc1N : c1 ≤ t.num_nodes)
    (hp0 : t.parent.getD c0 0 = 0) (hp1 : t.parent.getD c1 0 = 0)
    (hd0 : c0 ∉ nchain t u) (hd1 : c1 ∉ nchain t u)
    (ht2p : t2.parent = (t.parent.set c0 u).set c1 u)
    (ht2n : t2.num_nodes = t.num_nodes)
    (ht2s : t2.sample_size = t.sample_size)
    (arr : List Nat) (wv : Nat → Nat)
    (hlen : arr.length = t.num_nodes + 1)
    (hcnt : ∀ v, arr.getD v 0 = leaf_weight t wv v) :
    ∀ v, (chain_update ((t.parent.set c0 u).set c1 u)
        (fun z => z + (arr.getD c0 0 + arr.getD c1 0))
        (t.num_nodes + 1) u arr).getD v 0 =
      leaf_weight t2 wv v := by
  have hc0L : c0 < t.parent.length := by rw [hwf.plen]; omega
  have hc1L : c1 < t.parent.length := by rw [hwf.plen]; omega
  have hprange2 : ∀ v,
      ((t.parent.set c0 u).set c1 u).getD v 0 ≤ t.num_nodes := by
    intro v
    rw [insert_p2_getD u hab hc0L hc1L]
    split
    · omega
    · exact hwf.prange v
  have hnx : ∀ x v', (v' ∈ nchain t2 x ↔ (v' ∈ nchain t x ∨
      ((c0 ∈ nchain t x ∨ c1 ∈ nchain t x) ∧ v' ∈ nchain t u))) := by
    intro x
    obtain ⟨c2, hc2, hcharx⟩ := insert_new_chain hwf hc00 hc10 hab hc0L hc1L
      hp0 hp1 hd0 hd1 x
    have heq2 : nchain t2 x = c2 := by
      rw [nchain, ht2p, ht2n]
      exact anc_stack_eq_chain hc2 _ (chain_length_le hc2 hprange2)
    rw [heq2]
    exact hcharx
  have hU2 : parent_chain ((t.parent.set c0 u).set c1 u) u (nchain t u) :=
    chain_set_not_mem (chain_set_not_mem (wf_chain hwf u) hd0) hd1
  have hupd := chain_update_getD
    (f := fun z => z + (arr.getD c0 0 + arr.getD c1 0)) hU2
    (chain_nodup (wf_chain hwf u)) (t.num_nodes + 1) arr
    (chain_length_le (wf_chain hwf u) hwf.prange)
    (by
      intro x hx
      rw [hlen]
      rcases chain_mem_bound (wf_chain hwf u) hwf.prange x hx with rfl | hb
      · omega
      · omega)
  intro v
  rw [hupd v]
  by_cases hvU : v ∈ nchain t u
  · rw [if_pos hvU]
    dsimp only
    have hexp : leaf_weight t2 wv v = leaf_weight t wv v +
        (leaf_weight t wv c0 + leaf_weight t wv c1) := by
      unfold leaf_weight
      rw [ht2s]
      have hcongr : Wsum t.sample_size
          (fun x => if v ∈ nchain t2 x then wv x else 0) =
          Wsum t.sample_size (fun x =>
            (if v ∈ nchain t x then wv x else 0) +
            ((if c0 ∈ nchain t x then wv x else 0) +
             (if c1 ∈ nchain t x then wv x else 0))) := by
        apply Wsum_congr
        intro x hx1 hxn
        dsimp only
        by_cases h0 : c0 ∈ nchain t x
        · have h1 : c1 ∉ nchain t x := fun h =>
            insert_not_both (x := x) hwf hc00 hc10 hab hp0 hp1 ⟨h0, h⟩
          rw [if_pos (by rw [hnx x v]; exact Or.inr ⟨Or.inl h0, hvU⟩),
            if_neg (insert_disjoint hwf hc00 hp0 hd0 h0 hvU),
            if_pos h0, if_neg h1]
          omega
        · by_cases h1 : c1 ∈ nchain t x
          · rw [if_pos (by rw [hnx x v]; exact Or.inr ⟨Or.inr h1, hvU⟩),
              if_neg (insert_disjoint hwf hc10 hp1 hd1 h1 hvU),
              if_neg h0, if_pos h1]
            omega
          · by_cases hv : v ∈ nchain t x
            · rw [if_pos (by rw [hnx x v]; exact Or.inl hv), if_pos hv,
                if_neg h0, if_neg h1]
              omega
            · rw [if_neg (by
                rw [hnx x v]
                rintro (h | ⟨h | h, -⟩)
                · exact hv h
                · exact h0 h
                · exact h1 h), if_neg hv, if_neg h0, if_neg h1]
      rw [hcongr, Wsum_add, Wsum_add]
    rw [hcnt v, hcnt c0, hcnt c1, hexp]
  · rw [if_neg hvU, hcnt v]
    unfold leaf_weight
    rw [ht2s]
    apply Wsum_congr
    intro x hx1 hxn
    dsimp only
    by_cases hv : v ∈ nchain t x
    · rw [if_pos hv, if_pos (by rw [hnx x v]; exact Or.inl hv)]
    · rw [if_neg hv, if_neg (by
        rw [hnx x v]
        rintro (h | ⟨-, h⟩)
        · exact hv h
        · exact hvU h)]

/-- Validity of a record about to be inserted into the current tree: its
node is an in-range internal node with empty child slots, and the two
distinct nonzero in-range children are currently parentless roots not lying
on the node's own ancestor chain.  This is the state
`sparse_tree_iterator_next` finds the tree in when it inserts a record of a
genuine tree sequence. -/
def ins_ok (t : sparse_tree_t) (u c0 c1 : Nat) : Prop :=
  1 ≤ u ∧ u ≤ t.num_nodes ∧ t.sample_size < u ∧
  t.children.getD u (0, 0) = (0, 0) ∧
  c0 ≠ 0 ∧ c1 ≠ 0 ∧ c0 ≠ c1 ∧ c0 ≤ t.num_nodes ∧ c1 ≤ t.num_nodes ∧
  t.parent.getD c0 0 = 0 ∧ t.parent.getD c1 0 = 0 ∧
  c0 ∉ nchain t u ∧ c1 ∉ nchain t u

instance ins_ok_dec (t : sparse_tree_t) (u c0 c1 : Nat) :
    Decidable (ins_ok t u c0 c1) := by
  unfold ins_ok
  infer_instance

/-- One record insertion preserves the counting invariant. -/
lemma sparse_insert_wf {t : sparse_tree_t} {w : Nat → Nat}
    (hwf : sparse_wf t w) {u c0 c1 : Nat} {tk : Int}
    (hok : ins_ok t u c0 c1) :
    sparse_wf (sparse_tree_insert_record t u c0 c1 tk) w := by
  obtain ⟨hu1, huN, hun, hch, hc00, hc10, hab, hc0N, hc1N, hp0, hp1,
    hd0, hd1⟩ := hok
  have hu0 : u ≠ 0 := by omega
  have hc0L : c0 < t.parent.length := by rw [hwf.plen]; omega
  have hc1L : c1 < t.parent.length := by rw [hwf.plen]; omega
  have hult : u < t.children.length := by
    rw [hwf.clen]
    omega
  rw [insert_record_fields hwf.flag]
  refine ⟨?_, ?_, ?_, ?_, ?_, ?_, ?_, ?_, ?_, ?_, ?_, ?_, ?_, ?_, ?_, ?_, ?_⟩
    <;> dsimp only
  · simp only [List.length_set, hwf.plen]
  · simp only [List.length_set, hwf.clen]
  · rw [chain_update_length, hwf.llen]
  · rw [chain_update_length, hwf.tllen]
  · exact hwf.hn
  · exact hwf.flag
  · intro v
    rw [insert_p2_getD u hab hc0L hc1L]
    split
    · omega
    · exact hwf.prange v
  · rw [insert_p2_getD u hab hc0L hc1L, if_neg (by
      rintro (h | h)
      · exact hc00 h.symm
      · exact hc10 h.symm)]
    exact hwf.p0
  · intro x
    obtain ⟨c2, hc2, -⟩ := insert_new_chain hwf hc00 hc10 hab hc0L hc1L
      hp0 hp1 hd0 hd1 x
    exact ⟨c2, hc2⟩
  · intro v hv
    rw [getD_set_ne' (c0, c1) (0, 0) (by omega : u ≠ v)]
    exact hwf.csample v hv
  · intro v
    by_cases hvu : v = u
    · subst hvu
      rw [getD_set_eq' (c0, c1) (0, 0) hult]
      constructor
      · intro h
        exact absurd h hc00
      · intro h
        exact absurd h hc10
    · rw [getD_set_ne' (c0, c1) (0, 0) (fun h => hvu h.symm)]
      exact hwf.cbin v
  · intro v
    by_cases hvu : v = u
    · subst hvu
      rw [getD_set_eq' (c0, c1) (0, 0) hult]
      exact ⟨hc0N, hc1N⟩
    · rw [getD_set_ne' (c0, c1) (0, 0) (fun h => hvu h.symm)]
      exact hwf.crange v
  · intro v
    by_cases hvu : v = u
    · subst hvu
      rw [getD_set_eq' (c0, c1) (0, 0) hult]
      intro _
      exact hab
    · rw [getD_set_ne' (c0, c1) (0, 0) (fun h => hvu h.symm)]
      exact hwf.cne v
  · intro v hv1
    by_cases hvu : v = u
    · subst hvu
      rw [getD_set_eq' (c0, c1) (0, 0) hult]
      constructor
      · rw [insert_p2_getD v hab hc0L hc1L, if_pos (Or.inl rfl)]
      · rw [insert_p2_getD v hab hc0L hc1L, if_pos (Or.inr rfl)]
    · rw [getD_set_ne' (c0, c1) (0, 0) (fun h => hvu h.symm)] at hv1 ⊢
      have hv0 : v ≠ 0 := by
        intro h
        subst h
        rw [hwf.csample 0 (by omega)] at hv1
        exact hv1 rfl
      obtain ⟨h1, h2⟩ := hwf.cp v hv1
      have hne1 : ¬((t.children.getD v (0, 0)).1 = c0 ∨
          (t.children.getD v (0, 0)).1 = c1) := by
        rintro (h | h) <;> rw [h] at h1
        · exact hv0 (h1.symm.trans hp0)
        · exact hv0 (h1.symm.trans hp1)
      have hne2 : ¬((t.children.getD v (0, 0)).2 = c0 ∨
          (t.children.getD v (0, 0)).2 = c1) := by
        rintro (h | h) <;> rw [h] at h2
        · exact hv0 (h2.symm.trans hp0)
        · exact hv0 (h2.symm.trans hp1)
      constructor
      · rw [insert_p2_getD u hab hc0L hc1L, if_neg hne1]
        exact h1
      · rw [insert_p2_getD u hab hc0L hc1L, if_neg hne2]
        exact h2
  · intro x hx1
    rw [insert_p2_getD u hab hc0L hc1L] at hx1 ⊢
    by_cases hA : x = c0 ∨ x = c1
    · rw [if_pos hA] at hx1 ⊢
      rw [getD_set_eq' (c0, c1) (0, 0) hult]
      rcases hA with h | h
      · exact Or.inl h
      · exact Or.inr h
    · rw [if_neg hA] at hx1 ⊢
      have hx0 : x ≠ 0 := by
        intro h
        subst h
        exact hx1 hwf.p0
      have hpu : t.parent.getD x 0 ≠ u := by
        intro h
        rcases hwf.pc x hx1 with hx | hx <;> rw [h, hch] at hx <;>
          exact hx0 hx
      rw [getD_set_ne' (c0, c1) (0, 0) (fun h => hpu h.symm)]
      exact hwf.pc x hx1
  · intro v
    refine insert_counts hwf hu0 huN hun hc00 hc10 hab hc0N hc1N hp0 hp1
      hd0 hd1 ?_ ?_ ?_ t.num_leaves (fun _ => 1) hwf.llen hwf.cl v <;> rfl
  · intro v
    refine insert_counts hwf hu0 huN hun hc00 hc10 hab hc0N hc1N hp0 hp1
      hd0 hd1 ?_ ?_ ?_ t.num_tracked_leaves w hwf.tllen hwf.ct v <;> rfl

/-- The number of loop iterations a depth-first traversal from `v` needs,
fueled like the traversal itself. -/
def isize (t : sparse_tree_t) : Nat → Nat → Nat
  | 0, _ => 1
  | fuel + 1, v =>
    if 1 ≤ v ∧ v ≤ t.sample_size then 1
    else if (t.children.getD v (0, 0)).1 ≠ 0 then
      1 + (isize t fuel (t.children.getD v (0, 0)).1 +
        isize t fuel (t.children.getD v (0, 0)).2)
    else 1

lemma isize_pos (t : sparse_tree_t) : ∀ (fuel v : Nat), 1 ≤ isize t fuel v := by
  intro fuel v
  cases fuel with
  | zero => exact Nat.le_refl 1
  | succ g =>
    rw [isize]
    split
    · omega
    · split
      · omega
      · omega

lemma wf_child_lengths {t : sparse_tree_t} {w : Nat → Nat}
    (hwf : sparse_wf t w) {v : Nat}
    (hc : (t.children.getD v (0, 0)).1 ≠ 0) :
    (nchain t (t.children.getD v (0, 0)).1).length =
      (nchain t v).length + 1 ∧
    (nchain t (t.children.getD v (0, 0)).2).length =
      (nchain t v).length + 1 := by
  have hb0 : (t.children.getD v (0, 0)).2 ≠ 0 := fun h =>
    hc ((hwf.cbin v).mpr h)
  obtain ⟨hpa, hpb⟩ := hwf.cp v hc
  constructor
  · rw [wf_child_chain hwf hc hpa]
    simp
  · rw [wf_child_chain hwf hb0 hpb]
    simp

lemma wf_internal_ne_zero {t : sparse_tree_t} {w : Nat → Nat}
    (hwf : sparse_wf t w) {v : Nat}
    (hc : (t.children.getD v (0, 0)).1 ≠ 0) : v ≠ 0 := by
  intro h
  subst h
  rw [hwf.csample 0 (by omega)] at hc
  exact hc rfl

lemma isize_stable {t : sparse_tree_t} {w : Nat → Nat}
    (hwf : sparse_wf t w) :
    ∀ (f1 f2 v : Nat), t.num_nodes + 2 - (nchain t v).length ≤ f1 →
      t.num_nodes + 2 - (nchain t v).length ≤ f2 →
      isize t f1 v = isize t f2 v := by
  intro f1
  induction f1 with
  | zero =>
    intro f2 v h1 h2
    exact absurd h1 (by
      have := chain_length_le (wf_chain hwf v) hwf.prange
      omega)
  | succ g ih =>
    intro f2 v h1 h2
    cases f2 with
    | zero =>
      exact absurd h2 (by
        have := chain_length_le (wf_chain hwf v) hwf.prange
        omega)
    | succ g2 =>
      rw [isize, isize]
      by_cases hs : 1 ≤ v ∧ v ≤ t.sample_size
      · rw [if_pos hs, if_pos hs]
      · rw [if_neg hs, if_neg hs]
        by_cases hc : (t.children.getD v (0, 0)).1 ≠ 0
        · rw [if_pos hc, if_pos hc]
          obtain ⟨hla, hlb⟩ := wf_child_lengths hwf hc
          have hlenv := chain_length_le (wf_chain hwf v) hwf.prange
          have hv0 : v ≠ 0 := wf_internal_ne_zero hwf hc
          have hlv1 : 1 ≤ (nchain t v).length :=
            List.length_pos.mpr (List.ne_nil_of_mem
              (chain_self_mem (wf_chain hwf v) hv0))
          rw [ih g2 _ (by omega) (by omega), ih g2 _ (by omega) (by omega)]
        · rw [if_neg hc, if_neg hc]

lemma isize_bound {t : sparse_tree_t} {w : Nat → Nat}
    (hwf : sparse_wf t w) :
    ∀ (fuel v : Nat), t.num_nodes + 2 - (nchain t v).length ≤ fuel →
      isize t fuel v ≤ 2 ^ (t.num_nodes + 2 - (nchain t v).length) - 1 := by
  intro fuel
  induction fuel with
  | zero =>
    intro v h1
    exact absurd h1 (by
      have := chain_length_le (wf_chain hwf v) hwf.prange
      omega)
  | succ g ih =>
    intro v h1
    have hlenv := chain_length_le (wf_chain hwf v) hwf.prange
    have hd1 : 1 ≤ t.num_nodes + 2 - (nchain t v).length := by omega
    have h2d : 2 ^ 1 ≤ 2 ^ (t.num_nodes + 2 - (nchain t v).length) :=
      Nat.pow_le_pow_right (by omega) hd1
    rw [isize]
    by_cases hs : 1 ≤ v ∧ v ≤ t.sample_size
    · rw [if_pos hs]
      omega
    · rw [if_neg hs]
      by_cases hc : (t.children.getD v (0, 0)).1 ≠ 0
      · rw [if_pos hc]
        obtain ⟨hla, hlb⟩ := wf_child_lengths hwf hc
        have hv0 : v ≠ 0 := wf_internal_ne_zero hwf hc
        have hlv1 : 1 ≤ (nchain t v).length :=
          List.length_pos.mpr (List.ne_nil_of_mem
            (chain_self_mem (wf_chain hwf v) hv0))
        have hba := ih (t.children.getD v (0, 0)).1 (by omega)
        have hbb := ih (t.children.getD v (0, 0)).2 (by omega)
        rw [hla] at hba
        rw [hlb] at hbb
        have hstep : 2 ^ (t.num_nodes + 2 - ((nchain t v).length + 1)) * 2 =
            2 ^ (t.num_nodes + 2 - (nchain t v).length) := by
          rw [← Nat.pow_succ]
          congr 1
          omega
        omega
      · rw [if_neg hc]
        omega

lemma traversal_stack {t : sparse_tree_t} {w : Nat → Nat}
    (hwf : sparse_wf t w) (wv : Nat → Nat) :
    ∀ (fuel : Nat) (stack : List Nat) (count : Nat),
      (stack.map (isize t (t.num_nodes + 2))).sum ≤ fuel →
      traversal_weight t wv fuel stack count =
        count + (stack.map (leaf_weight t wv)).sum := by
  intro fuel
  induction fuel with
  | zero =>
    intro stack count hsum
    cases stack with
    | nil => simp [traversal_weight]
    | cons v stack =>
      exfalso
      simp only [List.map_cons, List.sum_cons] at hsum
      have := isize_pos t (t.num_nodes + 2) v
      omega
  | succ g ih =>
    intro stack count hsum
    cases stack with
    | nil => simp [traversal_weight]
    | cons v stack =>
      simp only [List.map_cons, List.sum_cons] at hsum
      rw [traversal_weight]
      by_cases hs : 1 ≤ v ∧ v ≤ t.sample_size
      · rw [if_pos hs]
        rw [ih stack (count + wv v) (by
          have := isize_pos t (t.num_nodes + 2) v
          omega)]
        simp only [List.map_cons, List.sum_cons]
        rw [leaf_weight_sample hwf hs.1 hs.2]
        omega
      · rw [if_neg hs]
        by_cases hc : (t.children.getD v (0, 0)).1 ≠ 0
        · rw [if_pos hc]
          obtain ⟨hla, hlb⟩ := wf_child_lengths hwf hc
          have hlenv := chain_length_le (wf_chain hwf v) hwf.prange
          have hv0 : v ≠ 0 := wf_internal_ne_zero hwf hc
          have hlv1 : 1 ≤ (nchain t v).length :=
            List.length_pos.mpr (List.ne_nil_of_mem
              (chain_self_mem (wf_chain hwf v) hv0))
          have hiv : isize t (t.num_nodes + 2) v =
              1 + (isize t (t.num_nodes + 2) (t.children.getD v (0, 0)).1 +
                isize t (t.num_nodes + 2) (t.children.getD v (0, 0)).2) := by
            conv_lhs =>
              rw [show t.num_nodes + 2 = (t.num_nodes + 1) + 1 from rfl,
                isize]
            rw [if_neg hs, if_pos hc,
              isize_stable hwf (t.num_nodes + 1) (t.num_nodes + 2)
                (t.children.getD v (0, 0)).1 (by omega) (by omega),
              isize_stable hwf (t.num_nodes + 1) (t.num_nodes + 2)
                (t.children.getD v (0, 0)).2 (by omega) (by omega)]
          rw [ih ((t.children.getD v (0, 0)).2 ::
              (t.children.getD v (0, 0)).1 :: stack) count (by
            simp only [List.map_cons, List.sum_cons]
            omega)]
          simp only [List.map_cons, List.sum_cons]
          rw [leaf_weight_internal hwf hv0 hc]
          omega
        · rw [if_neg hc]
          rw [ih stack count (by
            have := isize_pos t (t.num_nodes + 2) v
            omega)]
          simp only [List.map_cons, List.sum_cons]
          rw [leaf_weight_childless hwf hs (not_ne_iff.mp hc)]
          omega

/-- Under the invariant, the source depth-first traversal computes exactly
the chain-membership weight. -/
lemma traversal_eq_weight {t : sparse_tree_t} {w : Nat → Nat}
    (hwf : sparse_wf t w) (wv : Nat → Nat) (u : Nat) :
    traversal_weight t wv (2 ^ (t.num_nodes + 2)) [u] 0 =
      leaf_weight t wv u := by
  have hlenu := chain_length_le (wf_chain hwf u) hwf.prange
  rw [traversal_stack hwf wv _ [u] 0 (by
    simp only [List.map_cons, List.map_nil, List.sum_cons, List.sum_nil]
    have h1 := isize_bound hwf (t.num_nodes + 2) u (by omega)
    have h2 : 2 ^ (t.num_nodes + 2 - (nchain t u).length) ≤
        2 ^ (t.num_nodes + 2) := Nat.pow_le_pow_right (by omega) (by omega)
    have h3 : 1 ≤ 2 ^ (t.num_nodes + 2 - (nchain t u).length) :=
      Nat.one_le_two_pow
    omega)]
  simp

lemma getD_replicate {α : Type} {a d : α} {m v : Nat} :
    (List.replicate m a).getD v d = if v < m then a else d := by
  rw [List.getD_eq_getElem?_getD, List.getElem?_replicate]
  by_cases h : v < m
  · rw [if_pos h, if_pos h]
    rfl
  · rw [if_neg h, if_neg h]
    rfl

lemma getD_map_range {f : Nat → Nat} {m v : Nat} :
    ((List.range m).map f).getD v 0 = if v < m then f v else 0 := by
  by_cases h : v < m
  · rw [if_pos h, getD_map_of_lt f _ v 0 0 (by simpa using h)]
    congr 1
    rw [List.getD_eq_getElem _ _ (by simpa using h), List.getElem_range]
  · rw [if_neg h, List.getD_eq_getElem?_getD, List.getElem?_eq_none (by
      simp
      omega)]
    rfl

/-- Validity of a whole removal run: each record in turn is removable from
the tree produced by removing its predecessors. -/
inductive batch_rem_ok (ts : tree_sequence_t) : sparse_tree_t → List Nat → Prop
  | nil (t : sparse_tree_t) : batch_rem_ok ts t []
  | cons {t : sparse_tree_t} {k : Nat} {ks : List Nat}
      (hok : rem_ok t (rec_node ts k) (rec_child0 ts k) (rec_child1 ts k))
      (hrest : batch_rem_ok ts (sparse_tree_remove_record t (rec_node ts k)
        (rec_child0 ts k) (rec_child1 ts k)) ks) :
      batch_rem_ok ts t (k :: ks)

/-- Validity of a whole insertion run: each record in turn is insertable into
the tree produced by inserting its predecessors. -/
inductive batch_ins_ok (ts : tree_sequence_t) : sparse_tree_t → List Nat → Prop
  | nil (t : sparse_tree_t) : batch_ins_ok ts t []
  | cons {t : sparse_tree_t} {k : Nat} {ks : List Nat}
      (hok : ins_ok t (rec_node ts k) (rec_child0 ts k) (rec_child1 ts k))
      (hrest : batch_ins_ok ts (sparse_tree_insert_record t (rec_node ts k)
        (rec_child0 ts k) (rec_child1 ts k) (rec_time ts k)) ks) :
      batch_ins_ok ts t (k :: ks)

lemma batch_rem_wf {ts : tree_sequence_t} {w : Nat → Nat} :
    ∀ {t : sparse_tree_t} {ks : List Nat}, batch_rem_ok ts t ks →
      sparse_wf t w →
      sparse_wf (ks.foldl (fun t k => sparse_tree_remove_record t
        (rec_node ts k) (rec_child0 ts k) (rec_child1 ts k)) t) w := by
  intro t ks hb
  induction hb with
  | nil t2 =>
    intro hwf
    exact hwf
  | cons hok hrest ih =>
    intro hwf
    exact ih (sparse_remove_wf hwf hok)

lemma batch_ins_wf {ts : tree_sequence_t} {w : Nat → Nat} :
    ∀ {t : sparse_tree_t} {ks : List Nat}, batch_ins_ok ts t ks →
      sparse_wf t w →
      sparse_wf (ks.foldl (fun t k => sparse_tree_insert_record t
        (rec_node ts k) (rec_child0 ts k) (rec_child1 ts k)
        (rec_time ts k)) t) w := by
  intro t ks hb
  induction hb with
  | nil t2 =>
    intro hwf
    exact hwf
  | cons hok hrest ih =>
    intro hwf
    exact ih (sparse_insert_wf hwf hok)

lemma wf_set_lr {t : sparse_tree_t} {w : Nat → Nat} (hwf : sparse_wf t w)
    (a b : Nat) : sparse_wf { t with left := a, right := b } w :=
  ⟨hwf.plen, hwf.clen, hwf.llen, hwf.tllen, hwf.hn, hwf.flag, hwf.prange,
    hwf.p0, hwf.term, hwf.csample, hwf.cbin, hwf.crange, hwf.cne, hwf.cp,
    hwf.pc, hwf.cl, hwf.ct⟩

lemma wf_set_root {t : sparse_tree_t} {w : Nat → Nat} (hwf : sparse_wf t w)
    (r : Nat) : sparse_wf { t with root := r } w :=
  ⟨hwf.plen, hwf.clen, hwf.llen, hwf.tllen, hwf.hn, hwf.flag, hwf.prange,
    hwf.p0, hwf.term, hwf.csample, hwf.cbin, hwf.crange, hwf.cne, hwf.cp,
    hwf.pc, hwf.cl, hwf.ct⟩

/-- The removal run of one `sparse_tree_iterator_next` call. -/
def iter_out_run (ts : tree_sequence_t) (self : sparse_tree_iterator_t) :
    List Nat :=
  (ts.removal_order.drop self.removal_index).takeWhile
    fun k => rec_right ts k == self.tree.right

/-- The tree after the removal run. -/
def iter_after_out (ts : tree_sequence_t) (self : sparse_tree_iterator_t) :
    sparse_tree_t :=
  (iter_out_run ts self).foldl (fun t k => sparse_tree_remove_record t
    (rec_node ts k) (rec_child0 ts k) (rec_child1 ts k)) self.tree

/-- The tree after the removal run and the interval shift. -/
def iter_mid_tree (ts : tree_sequence_t) (self : sparse_tree_iterator_t) :
    sparse_tree_t :=
  { iter_after_out ts self with
    left := (iter_after_out ts self).right
    right := rec_right ts (ts.removal_order.getD
      (self.removal_index + (iter_out_run ts self).length) 0) }

/-- The insertion run of one `sparse_tree_iterator_next` call. -/
def iter_in_run (ts : tree_sequence_t) (self : sparse_tree_iterator_t) :
    List Nat :=
  (ts.insertion_order.drop self.insertion_index).takeWhile
    fun k => rec_left ts k == (iter_mid_tree ts self).left

/-- The tree after the insertion run. -/
def iter_after_in (ts : tree_sequence_t) (self : sparse_tree_iterator_t) :
    sparse_tree_t :=
  (iter_in_run ts self).foldl (fun t k => sparse_tree_insert_record t
    (rec_node ts k) (rec_child0 ts k) (rec_child1 ts k) (rec_time ts k))
    (iter_mid_tree ts self)

lemma sparse_tree_iterator_next_eq (ts : tree_sequence_t)
    (self : sparse_tree_iterator_t)
    (hii : self.insertion_index < ts.records.length) :
    sparse_tree_iterator_next ts self = (1,
      { insertion_index := self.insertion_index + (iter_in_run ts self).length
        removal_index := self.removal_index + (iter_out_run ts self).length
        tree := { iter_after_in ts self with
          root := root_walk (iter_after_in ts self).parent
            ((iter_after_in ts self).num_nodes + 1)
            (iter_after_in ts self).root } }) := by
  unfold sparse_tree_iterator_next
  rw [if_pos hii]
  rfl

/-- The reachable states of a leaf-counting sparse tree iterator: the freshly
allocated state followed by any number of `sparse_tree_iterator_next` calls,
each of whose removal and insertion runs finds the tree in the valid state
that records of a genuine tree sequence guarantee. -/
inductive sparse_iter_reachable (ts : tree_sequence_t) (n N : Nat)
    (tracked : Nat → Bool) : sparse_tree_iterator_t → Prop
  | init (hnN : n ≤ N) :
      sparse_iter_reachable ts n N tracked
        ⟨0, 0, sparse_tree_init n N tracked⟩
  | step {self : sparse_tree_iterator_t}
      (hre : sparse_iter_reachable ts n N tracked self)
      (hii : self.insertion_index < ts.records.length)
      (hrem : batch_rem_ok ts self.tree (iter_out_run ts self))
      (hins : batch_ins_ok ts (iter_mid_tree ts self) (iter_in_run ts self)) :
      sparse_iter_reachable ts n N tracked (sparse_tree_iterator_next ts self).2

lemma anc_stack_zero (p : List Nat) : ∀ f, anc_stack p f 0 = [] := by
  intro f
  cases f with
  | zero => rfl
  | succ g => rw [anc_stack, if_pos rfl]

lemma init_nchain (n N : Nat) (tracked : Nat → Bool) {x : Nat} (hx : x ≠ 0) :
    nchain (sparse_tree_init n N tracked) x = [x] := by
  rw [nchain]
  have hnn : (sparse_tree_init n N tracked).num_nodes = N := rfl
  rw [hnn, anc_stack, if_neg hx]
  have hp : (sparse_tree_init n N tracked).parent.getD x 0 = 0 := by
    show (List.replicate (N + 1) (0 : Nat)).getD x 0 = 0
    rw [getD_replicate]
    split <;> rfl
  rw [hp, anc_stack_zero]

lemma init_counts (n N : Nat) (tracked : Nat → Bool) (g : Nat → Nat)
    (v : Nat) :
    leaf_weight (sparse_tree_init n N tracked) g v =
      if 1 ≤ v ∧ v ≤ n then g v else 0 := by
  unfold leaf_weight
  rw [show (sparse_tree_init n N tracked).sample_size = n from rfl]
  by_cases hv : 1 ≤ v ∧ v ≤ n
  · rw [if_pos hv]
    rw [Wsum_congr (g := fun x => if x = v then g x else 0) ?_]
    · exact Wsum_single g hv.1 hv.2
    · intro x hx1 hxn
      dsimp only
      rw [init_nchain n N tracked (by omega : x ≠ 0)]
      by_cases hxv : x = v
      · subst hxv
        rw [if_pos (List.mem_singleton.mpr rfl), if_pos rfl]
      · rw [if_neg (by
          rw [List.mem_singleton]
          exact fun h => hxv h.symm), if_neg hxv]
  · rw [if_neg hv]
    rw [Wsum_congr (g := fun _ => 0) ?_]
    · exact Wsum_zero n
    · intro x hx1 hxn
      dsimp only
      rw [init_nchain n N tracked (by omega : x ≠ 0), if_neg (by
        rw [List.mem_singleton]
        intro h
        subst h
        exact hv ⟨hx1, hxn⟩)]

/-- The freshly allocated and cleared counting tree satisfies the
invariant, with the tracked-indicator weight. -/
lemma init_wf (n N : Nat) (tracked : Nat → Bool) (hnN : n ≤ N) :
    sparse_wf (sparse_tree_init n N tracked)
      (fun x => if tracked x then 1 else 0) := by
  have hpar0 : ∀ v, (sparse_tree_init n N tracked).parent.getD v 0 = 0 := by
    intro v
    show (List.replicate (N + 1) (0 : Nat)).getD v 0 = 0
    rw [getD_replicate]
    split <;> rfl
  have hch0 : ∀ v,
      (sparse_tree_init n N tracked).children.getD v (0, 0) = (0, 0) := by
    intro v
    show (List.replicate (N + 1) ((0, 0) : Nat × Nat)).getD v (0, 0) = (0, 0)
    rw [getD_replicate]
    split <;> rfl
  refine ⟨?_, ?_, ?_, ?_, ?_, ?_, ?_, ?_, ?_, ?_, ?_, ?_, ?_, ?_, ?_, ?_, ?_⟩
  · simp [sparse_tree_init]
  · simp [sparse_tree_init]
  · simp [sparse_tree_init]
  · simp [sparse_tree_init]
  · exact hnN
  · rfl
  · intro v
    rw [hpar0]
    omega
  · exact hpar0 0
  · intro x
    by_cases hx : x = 0
    · subst hx
      exact ⟨[], parent_chain.nil⟩
    · refine ⟨[x], parent_chain.cons hx ?_⟩
      rw [hpar0]
      exact parent_chain.nil
  · intro v _
    exact hch0 v
  · intro v
    rw [hch0]
  · intro v
    rw [hch0]
    exact ⟨Nat.zero_le _, Nat.zero_le _⟩
  · intro v h
    rw [hch0] at h
    exact absurd rfl h
  · intro v h
    rw [hch0] at h
    exact absurd rfl h
  · intro x h
    exact absurd (hpar0 x) h
  · intro v
    rw [init_counts]
    show ((List.range (N + 1)).map fun x =>
      if 1 ≤ x ∧ x ≤ n then 1 else 0).getD v 0 = _
    rw [getD_map_range]
    by_cases hv : 1 ≤ v ∧ v ≤ n
    · rw [if_pos (by omega : v < N + 1), if_pos hv]
    · rw [if_neg hv]
      by_cases hvN : v < N + 1
      · rw [if_pos hvN]
      · rw [if_neg hvN]
  · intro v
    rw [init_counts]
    show ((List.range (N + 1)).map fun x =>
      if 1 ≤ x ∧ x ≤ n ∧ tracked x then 1 else 0).getD v 0 = _
    rw [getD_map_range]
    by_cases hv : 1 ≤ v ∧ v ≤ n
    · rw [if_pos (by omega : v < N + 1), if_pos hv]
      by_cases htr : tracked v
      · rw [if_pos ⟨hv.1, hv.2, htr⟩, if_pos htr]
      · rw [if_neg (by rintro ⟨-, -, h⟩; exact htr h), if_neg htr]
    · rw [if_neg hv]
      by_cases hvN : v < N + 1
      · rw [if_pos hvN, if_neg (by rintro ⟨h1, h2, -⟩; exact hv ⟨h1, h2⟩)]
      · rw [if_neg hvN]

/-- Every reachable iterator state's tree satisfies the counting
invariant. -/
lemma reachable_wf {ts : tree_sequence_t} {n N : Nat} {tracked : Nat → Bool}
    {st : sparse_tree_iterator_t}
    (h : sparse_iter_reachable ts n N tracked st) :
    sparse_wf st.tree (fun x => if tracked x then 1 else 0) := by
  induction h with
  | init hnN => exact init_wf n N tracked hnN
  | step hre hii hrem hins ih =>
    rename_i self
    have h1 := batch_rem_wf hrem ih
    have h2 : sparse_wf (iter_mid_tree ts self)
        (fun x => if tracked x then 1 else 0) := wf_set_lr h1 _ _
    have h3 := batch_ins_wf hins h2
    rw [sparse_tree_iterator_next_eq ts self hii]
    exact wf_set_root h3 _

/-- **C5**: for every sparse tree allocated with the leaf-counting flag and
every sequence of `sparse_tree_iterator_next` calls (each finding the tree
in the valid state that the records of a genuine tree sequence guarantee),
after each call and for every node `u` the incrementally maintained
`num_leaves[u]` equals the count computed by
`sparse_tree_get_num_leaves_by_traversal`, and `num_tracked_leaves[u]`
equals the tracked-leaf weight of the same traversal. -/
theorem C5_leaf_counts {ts : tree_sequence_t} {n N : Nat}
    {tracked : Nat → Bool} {st : sparse_tree_iterator_t}
    (h : sparse_iter_reachable ts n N tracked st) (u : Nat) :
    st.tree.num_leaves.getD u 0 =
      sparse_tree_get_num_leaves_by_traversal st.tree u ∧
    st.tree.num_tracked_leaves.getD u 0 =
      sparse_tree_tracked_by_traversal st.tree tracked u := by
  have hwf := reachable_wf h
  constructor
  · rw [hwf.cl u]
    unfold sparse_tree_get_num_leaves_by_traversal
    rw [traversal_eq_weight hwf (fun _ => 1) u]
  · rw [hwf.ct u]
    unfold sparse_tree_tracked_by_traversal
    rw [traversal_eq_weight hwf (fun x => if tracked x then 1 else 0) u]

/-- Tracked-leaf choice for the C5 fixture: only sample 1 is tracked. -/
def tr5 : Nat → Bool := fun x => x == 1

/-- A two-sample, one-record tree sequence fixture for C5. -/
def ts5 : tree_sequence_t :=
  { sample_size := 2
    num_loci := 3
    records := [⟨0, 3, 3, 1, 2, 1⟩]
    insertion_order := [0]
    removal_order := [0]
    num_nodes := 3
    mutations := []
    trees_parameters := "p"
    trees_environment := "e"
    mutations_parameters := none
    mutations_environment := none }

theorem C5_leaf_counts_witness :
    (sparse_tree_iterator_next ts5
        ⟨0, 0, sparse_tree_init 2 3 tr5⟩).2.tree.num_leaves.getD 3 0 =
      sparse_tree_get_num_leaves_by_traversal
        (sparse_tree_iterator_next ts5
          ⟨0, 0, sparse_tree_init 2 3 tr5⟩).2.tree 3 ∧
    (sparse_tree_iterator_next ts5
        ⟨0, 0, sparse_tree_init 2 3 tr5⟩).2.tree.num_tracked_leaves.getD 3 0 =
      sparse_tree_tracked_by_traversal
        (sparse_tree_iterator_next ts5
          ⟨0, 0, sparse_tree_init 2 3 tr5⟩).2.tree tr5 3 :=
  C5_leaf_counts
    (sparse_iter_reachable.step
      (sparse_iter_reachable.init (by omega))
      (by decide)
      (by
        have he : iter_out_run ts5 ⟨0, 0, sparse_tree_init 2 3 tr5⟩ = [] := by
          decide
        rw [he]
        exact batch_rem_ok.nil _)
      (by
        have he : iter_in_run ts5 ⟨0, 0, sparse_tree_init 2 3 tr5⟩ = [0] := by
          decide
        rw [he]
        exact batch_ins_ok.cons (by decide) (batch_ins_ok.nil _))) 3

end Msprime